import Mathlib

/-!
# ccdv: control-character delimited values

A shallow embedding of the encoder of `writer.go` and of the delimiter set of
`seperators.go`, together with the parts of Go's `bufio.Writer` that the
encoder drives, and a model of the decoder as the specification describes it.

Go strings are byte sequences: a field is a `List UInt8`.  Go's `error` is an
`Option GoError` (`none` is `nil`).  Loops whose termination depends on the
behaviour of the sink, or on the amount of input left, take a fuel argument and
return `none` when the fuel is used up; the theorems below show that the fuel
supplied by the entry points is always enough (for the encoder, over a buffer of
positive capacity, the only kind `bufio` makes).
-/

namespace ccdv

/-! ## seperators.go -/

/-- A Go `rune` (an `int32` code point). -/
abbrev Rune := Int

/-- A byte of a Go string. -/
abbrev Byte := UInt8

/-- A Go string, as its sequence of bytes. -/
abbrev GoString := List Byte

/-- Comment is the ascii Data Link Escape (DLE) character: `rune('\020')`. -/
def Comment : Rune := 0o20

/-- GroupSep is the ascii Group Separator (GS) character: `rune('\035')`. -/
def GroupSep : Rune := 0o35

/-- RecordSep is the ascii Record Separator (RS) character: `rune('\036')`. -/
def RecordSep : Rune := 0o36

/-- UnitSep is the ascii Unit Separator (US) character: `rune('\037')`. -/
def UnitSep : Rune := 0o37

/-! ## Go runtime: errors, sinks, utf8, strings -/

/-- The error values that can reach a caller of the encoder. -/
inductive GoError where
  /-- The package error `errInvalidField`, returned by `validateField`. -/
  | errInvalidField
  /-- The error `io.ErrShortWrite` of `bufio.Writer.Flush`. -/
  | errShortWrite
  /-- The error of a faulting sink (`errors.New("Test")` in `errorWriter`). -/
  | errSink
  deriving DecidableEq, Repr

/-- An `io.Writer` under a `bufio.Writer`.  Two kinds occur: a sink that takes every
byte it is given (`bytes.Buffer`, `faulty = false`) and a sink whose every write
faults without taking a byte (`errorWriter` of `writer_test.go`, `faulty = true`).
`received` is what the sink holds. -/
structure Sink where
  received : List Byte
  faulty : Bool
  deriving DecidableEq, Repr

/-- The `Write` method of the sink: `(n, err)` and the sink afterwards. -/
def Sink.Write (s : Sink) (p : List Byte) : Sink × Nat × Option GoError :=
  if s.faulty then (s, 0, some GoError.errSink)
  else ({ s with received := s.received ++ p }, p.length, none)

/-- Whether the sink is an `io.StringWriter`, that is, has a `WriteString` method:
`bytes.Buffer` has one, `errorWriter` has only `Write`. -/
def Sink.isStringWriter (s : Sink) : Bool := !s.faulty

/-- The `WriteString` method of `bytes.Buffer`: appends the bytes of the string. -/
def Sink.WriteString (s : Sink) (p : List Byte) : Sink × Nat × Option GoError :=
  ({ s with received := s.received ++ p }, p.length, none)

/-- The conversion `uint32(r)` of a rune. -/
def uint32 (r : Rune) : Nat := (r % 4294967296).toNat

/-- The conversion `byte(x)` of a non-negative integer. -/
def byte (x : Nat) : Byte := UInt8.ofNat (x % 256)

/-- The function `utf8.EncodeRune`: the UTF-8 encoding of a rune, with `RuneError`
(U+FFFD) for surrogates and values out of range. -/
def encodeRune (r : Rune) : List Byte :=
  let i := uint32 r
  if i ≤ 0x7F then [byte i]
  else if i ≤ 0x7FF then [byte (0xC0 + i / 64), byte (0x80 + i % 64)]
  else if i > 0x10FFFF ∨ (0xD800 ≤ i ∧ i ≤ 0xDFFF) then [0xEF, 0xBF, 0xBD]
  else if i ≤ 0xFFFF then
    [byte (0xE0 + i / 4096), byte (0x80 + i / 64 % 64), byte (0x80 + i % 64)]
  else
    [byte (0xF0 + i / 262144), byte (0x80 + i / 4096 % 64), byte (0x80 + i / 64 % 64),
      byte (0x80 + i % 64)]

/-- The function `strings.ContainsAny` for a set `chars` of ASCII characters.  A byte
below 0x80 never lies inside a multi-byte UTF-8 sequence, so a code point of `chars`
occurs in `s` exactly when its byte does. -/
def ContainsAny (s chars : GoString) : Bool :=
  s.any (fun c => chars.contains c)

/-! ## bufio.Writer -/

/-- The state of a `bufio.Writer`: the sticky error `err`, the buffered bytes
`buf` (Go's `b.buf[0:b.n]`), the capacity `size` (Go's `len(b.buf)`, which
`bufio.NewWriterSize` makes positive) and the underlying writer `wr`. -/
structure BufWriter where
  err : Option GoError
  buf : List Byte
  size : Nat
  wr : Sink
  deriving DecidableEq, Repr

/-- The constant `defaultBufSize` of package bufio. -/
def defaultBufSize : Nat := 4096

/-- The function `bufio.NewWriter`. -/
def bufioNewWriter (w : Sink) : BufWriter :=
  { err := none, buf := [], size := defaultBufSize, wr := w }

/-- The method `Available`: how many bytes are unused in the buffer. -/
def BufWriter.Available (b : BufWriter) : Nat := b.size - b.buf.length

/-- The method `Buffered`: the number of bytes written into the buffer. -/
def BufWriter.Buffered (b : BufWriter) : Nat := b.buf.length

/-- The method `Flush`: hands the buffered bytes to the underlying writer; a fault
becomes the sticky error. -/
def BufWriter.Flush (b : BufWriter) : BufWriter × Option GoError :=
  if b.err ≠ none then (b, b.err)
  else if b.buf.length = 0 then (b, none)
  else
    let r := b.wr.Write b.buf
    let n := r.2.1
    let err := if n < b.buf.length ∧ r.2.2 = none then some GoError.errShortWrite else r.2.2
    if err ≠ none then ({ b with wr := r.1, buf := b.buf.drop n, err := err }, err)
    else ({ b with wr := r.1, buf := [] }, none)

/-- The method `WriteByte`. -/
def BufWriter.WriteByte (b : BufWriter) (c : Byte) : BufWriter × Option GoError :=
  if b.err ≠ none then (b, b.err)
  else if b.Available ≤ 0 then
    let f := b.Flush
    if f.2 ≠ none then (f.1, f.1.err)
    else ({ f.1 with buf := f.1.buf ++ [c] }, none)
  else ({ b with buf := b.buf ++ [c] }, none)

/-- The loop `for len(p) > b.Available() && b.err == nil` of the method `Write`: the
writer, the bytes of `p` still to write and the count `nn` when the loop is left. -/
def BufWriter.writeLoop : Nat → BufWriter → List Byte → Nat →
    Option (BufWriter × List Byte × Nat)
  | 0, _, _, _ => none
  | fuel + 1, b, p, nn =>
    if p.length > b.Available ∧ b.err = none then
      if b.Buffered = 0 then
        -- Large write, empty buffer: write directly from p.
        let r := b.wr.Write p
        BufWriter.writeLoop fuel { b with wr := r.1, err := r.2.2 } (p.drop r.2.1) (nn + r.2.1)
      else
        let n := min p.length b.Available
        let b1 : BufWriter := { b with buf := b.buf ++ p.take n }
        BufWriter.writeLoop fuel b1.Flush.1 (p.drop n) (nn + n)
    else some (b, p, nn)

/-- The method `Write`: `(nn, err)` and the writer afterwards. -/
def BufWriter.Write (b : BufWriter) (p : List Byte) : Option (BufWriter × Nat × Option GoError) :=
  match BufWriter.writeLoop (p.length + 3) b p 0 with
  | none => none
  | some (b1, p1, nn) =>
    if b1.err ≠ none then some (b1, nn, b1.err)
    else
      let n := min p1.length b1.Available
      some ({ b1 with buf := b1.buf ++ p1.take n }, nn + n, none)

/-- The loop `for len(s) > b.Available() && b.err == nil` of the method `WriteString`.
A string too large for the buffer goes straight to the underlying writer only when
the buffer is empty and that writer is an `io.StringWriter`; otherwise the buffer is
filled with the head of the string and flushed. -/
def BufWriter.writeStringLoop : Nat → BufWriter → GoString → Nat →
    Option (BufWriter × GoString × Nat)
  | 0, _, _, _ => none
  | fuel + 1, b, s, nn =>
    if s.length > b.Available ∧ b.err = none then
      if b.Buffered = 0 ∧ b.wr.isStringWriter = true then
        -- Large write, empty buffer, and the underlying writer supports WriteString:
        -- forward the write to the underlying StringWriter.
        let r := b.wr.WriteString s
        BufWriter.writeStringLoop fuel { b with wr := r.1, err := r.2.2 } (s.drop r.2.1)
          (nn + r.2.1)
      else
        let n := min s.length b.Available
        let b1 : BufWriter := { b with buf := b.buf ++ s.take n }
        BufWriter.writeStringLoop fuel b1.Flush.1 (s.drop n) (nn + n)
    else some (b, s, nn)

/-- The method `WriteString`: `(nn, err)` and the writer afterwards. -/
def BufWriter.WriteString (b : BufWriter) (s : GoString) :
    Option (BufWriter × Nat × Option GoError) :=
  match BufWriter.writeStringLoop (s.length + 3) b s 0 with
  | none => none
  | some (b1, s1, nn) =>
    if b1.err ≠ none then some (b1, nn, b1.err)
    else
      let n := min s1.length b1.Available
      some ({ b1 with buf := b1.buf ++ s1.take n }, nn + n, none)

/-- The constant `utf8.RuneSelf`. -/
def RuneSelf : Nat := 0x80

/-- The constant `utf8.UTFMax`. -/
def UTFMax : Nat := 4

/-- The method `WriteRune`: `(size, err)` and the writer afterwards. -/
def BufWriter.WriteRune (b : BufWriter) (r : Rune) : Option (BufWriter × Nat × Option GoError) :=
  if uint32 r < RuneSelf then
    let w := b.WriteByte (byte (uint32 r))
    if w.2 ≠ none then some (w.1, 0, w.2) else some (w.1, 1, none)
  else if b.err ≠ none then some (b, 0, b.err)
  else if b.Available < UTFMax then
    let f := b.Flush.1
    if f.err ≠ none then some (f, 0, f.err)
    else if f.Available < UTFMax then
      -- Can only happen if buffer is silly small.
      f.WriteString (encodeRune r)
    else some ({ f with buf := f.buf ++ encodeRune r }, (encodeRune r).length, none)
  else some ({ b with buf := b.buf ++ encodeRune r }, (encodeRune r).length, none)

/-! ## writer.go -/

/-- A Writer writes records using the ccdv encoding. -/
structure Writer where
  w : BufWriter
  deriving DecidableEq, Repr

/-- NewWriter returns a new Writer that writes to w. -/
def NewWriter (w : Sink) : Writer := { w := bufioNewWriter w }

/-- The string literal `"\035\036\037"` of `validateField`. -/
def invalidChars : GoString := [0o35, 0o36, 0o37]

/-- The method `validateField`. -/
def Writer.validateField (_w : Writer) (field : GoString) : Option GoError :=
  if field = [] then none
  else if ContainsAny field invalidChars then some GoError.errInvalidField
  else none

/-- The loop `for n, field := range record` of `Write`, from index `n` on: the Writer
when the loop is left, and the error it returns with (`none` when it runs to its end). -/
def Writer.writeFields : Writer → Nat → List GoString → Option (Writer × Option GoError)
  | w, _, [] => some (w, none)
  | w, n, field :: rest =>
    let sep : Option (BufWriter × Option GoError) :=
      if n > 0 then
        match w.w.WriteRune UnitSep with
        | none => none
        | some r => some (r.1, r.2.2)
      else some (w.w, none)
    match sep with
    | none => none
    | some (b1, some err) => some ({ w := b1 }, some err)
    | some (b1, none) =>
      -- we don't allow the GroupSep, RecordSep, and UnitSep runes in strings
      match Writer.validateField { w := b1 } field with
      | some err => some ({ w := b1 }, some err)
      | none =>
        match b1.WriteString field with
        | none => none
        | some (b2, _, some err) => some ({ w := b2 }, some err)
        | some (b2, _, none) => Writer.writeFields { w := b2 } (n + 1) rest

/-- Write writes a single record to w: the Writer afterwards and the error returned. -/
def Writer.Write (w : Writer) (record : List GoString) : Option (Writer × Option GoError) :=
  match w.writeFields 0 record with
  | none => none
  | some (w1, some err) => some (w1, some err)
  | some (w1, none) =>
    match w1.w.WriteRune RecordSep with
    | none => none
    | some r => some ({ w := r.1 }, r.2.2)

/-- Flush writes any buffered data to the underlying io.Writer. -/
def Writer.Flush (w : Writer) : Writer := { w := w.w.Flush.1 }

/-- Error reports the error of a zero-length write to the buffered writer. -/
def Writer.Error (w : Writer) : Option (Writer × Option GoError) :=
  match w.w.Write [] with
  | none => none
  | some r => some ({ w := r.1 }, r.2.2)

/-- WriteAll writes the records using Write and then calls Flush, returning any
error from the Flush. -/
def Writer.WriteAll : Writer → List (List GoString) → Option (Writer × Option GoError)
  | w, [] => some ({ w := w.w.Flush.1 }, w.w.Flush.2)
  | w, record :: rest =>
    match w.Write record with
    | none => none
    | some (w1, some err) => some (w1, some err)
    | some (w1, none) => Writer.WriteAll w1 rest

/-- The harness of `TestWrite`: a new Writer over an empty `bytes.Buffer`, one call of
WriteAll; what the buffer holds afterwards, and the error returned. -/
def writeAllToBuffer (records : List (List GoString)) : Option (List Byte × Option GoError) :=
  match (NewWriter { received := [], faulty := false }).WriteAll records with
  | none => none
  | some r => some (r.1.w.wr.received, r.2)

/-- A call on a Writer in the course of a session. -/
inductive Op where
  | write (record : List GoString)
  | writeAll (records : List (List GoString))
  | flush
  | error
  deriving DecidableEq, Repr

/-- One call on a Writer: the Writer afterwards and the error returned (Flush returns
nothing: `none`). -/
def Writer.call (w : Writer) : Op → Option (Writer × Option GoError)
  | Op.write record => w.Write record
  | Op.writeAll records => w.WriteAll records
  | Op.flush => some (w.Flush, none)
  | Op.error => w.Error

/-- A session: the calls in order, each on the Writer the one before has left; the
Writer at the end and what each call returned. -/
def Writer.session : Writer → List Op → Option (Writer × List (Option GoError))
  | w, [] => some (w, [])
  | w, op :: ops =>
    match w.call op with
    | none => none
    | some (w1, result) =>
      match Writer.session w1 ops with
      | none => none
      | some (w2, results) => some (w2, result :: results)

/-! ## The decoder

`reader.go` is not among the sources at hand (its tests are): the decoder is
modelled from the specification, section 4.1. -/

/-- Modelled from the spec: the kinds of Parse Error of the decoder, missing with
`reader.go`; FieldCountMismatch is the only kind (`ErrFieldCount` in the tests). -/
inductive ParseErrorKind where
  | ErrFieldCount
  deriving DecidableEq, Repr

/-- Modelled from the spec: the Parse Error `{StartLine, Line, Kind}` of the decoder
(`ParseError{StartLine, Line, Err}` in the tests), missing with `reader.go`. -/
structure ParseError where
  StartLine : Nat
  Line : Nat
  Err : ParseErrorKind
  deriving DecidableEq, Repr

/-- Modelled from the spec: the Decoder of `reader.go`, which is missing: its three
configuration knobs and its session state, the unread remainder of the stream and
the number of lines read so far.  `FieldsPerRecord` is the expected field count:
-1 unconstrained, 0 infer from the first accepted record, N > 0 enforce N; inference
overwrites it. -/
structure Reader where
  FieldsPerRecord : Int
  TrimLeadingSpace : Bool
  ReuseRecord : Bool
  input : List Byte
  numLine : Nat
  deriving DecidableEq, Repr

/-- Modelled from the spec: the constructor of the missing `reader.go`, a Decoder over
a byte source that has read nothing yet.  The field count is inferred
(`FieldsPerRecord = 0`) and the two switches are off. -/
def NewReader (input : List Byte) : Reader :=
  { FieldsPerRecord := 0, TrimLeadingSpace := false, ReuseRecord := false,
    input := input, numLine := 0 }

/-- Modelled from the spec: what one decode-one call of the missing `reader.go` gives:
end-of-stream, a record, or a fault. -/
inductive ReadResult where
  | eof
  | record (fields : List GoString)
  | fault (e : ParseError)
  deriving DecidableEq, Repr

/-- Modelled from the spec: decode-one of the missing `reader.go` "reads forward from
the current stream position until a RecordSep is found or the stream ends": the line
read (without its RecordSep) and the remainder left unread. -/
def readLine : List Byte → List Byte × List Byte
  | [] => ([], [])
  | c :: rest =>
    if c = byte (uint32 RecordSep) then ([], rest)
    else (c :: (readLine rest).1, (readLine rest).2)

/-- Modelled from the spec: step 2 of decode-one of the missing `reader.go`, "split the
accumulated line content on UnitSep into raw field spans (a trailing field with no
following UnitSep still counts)". -/
def splitFields : List Byte → List GoString
  | [] => [[]]
  | c :: rest =>
    if c = byte (uint32 UnitSep) then [] :: splitFields rest
    else
      match splitFields rest with
      | [] => [[c]]
      | f :: fs => (c :: f) :: fs

/-- Modelled from the spec: `trimLeadingSpace` of the missing `reader.go`, "strip
leading space/tab characters" from a field. -/
def trimLeadingSpace (field : GoString) : GoString :=
  field.dropWhile (fun c => c = 0x20 || c = 0x09)

/-- Modelled from the spec: the number of literal newline characters in a line, by
which decode-one of the missing `reader.go` advances its line counter. -/
def countNewlines (line : List Byte) : Nat := line.count 0x0A

/-- Modelled from the spec: decode-one of the missing `reader.go`, steps 1 to 7 of
section 4.1.  A comment line or a blank line is discarded and the operation restarts
on the next line; a skipped line counts as a line read.  The fuel bounds the number
of lines looked at. -/
def Reader.readFuel : Nat → Reader → Option (Reader × ReadResult)
  | 0, _ => none
  | fuel + 1, r =>
    if r.input = [] then some (r, ReadResult.eof)
    else
      let line := (readLine r.input).1
      let rest := (readLine r.input).2
      let raw := splitFields line
      let next : Reader := { r with input := rest, numLine := r.numLine + countNewlines line + 1 }
      if line.head? = some (byte (uint32 Comment)) then Reader.readFuel fuel next
      else if line = [] then Reader.readFuel fuel next
      else
        let fields := if r.TrimLeadingSpace then raw.map trimLeadingSpace else raw
        if r.FieldsPerRecord = 0 then
          some ({ next with FieldsPerRecord := fields.length }, ReadResult.record fields)
        else if r.FieldsPerRecord ≥ 0 ∧ (fields.length : Int) ≠ r.FieldsPerRecord then
          some (next, ReadResult.fault
            { StartLine := r.numLine + 1, Line := r.numLine + 1 + countNewlines line,
              Err := ParseErrorKind.ErrFieldCount })
        else some (next, ReadResult.record fields)

/-- Modelled from the spec: the operation decode-one (`Read`) of the missing
`reader.go`. -/
def Reader.Read (r : Reader) : Option (Reader × ReadResult) :=
  Reader.readFuel (r.input.length + 1) r

/-- Modelled from the spec: the loop of decode-all of the missing `reader.go`,
"repeatedly invokes decode-one, accumulating records into an ordered sequence, until
end-of-stream is signaled or any decode-one call fails"; on a fault the caller
"receives exactly the error". -/
def Reader.readAllFuel : Nat → Reader → List (List GoString) →
    Option (Reader × List (List GoString) × Option ParseError)
  | 0, _, _ => none
  | fuel + 1, r, records =>
    match r.Read with
    | none => none
    | some (r1, ReadResult.eof) => some (r1, records, none)
    | some (r1, ReadResult.fault e) => some (r1, [], some e)
    | some (r1, ReadResult.record fields) => Reader.readAllFuel fuel r1 (records ++ [fields])

/-- Modelled from the spec: the operation decode-all (`ReadAll`) of the missing
`reader.go`: the records and the error, as the tests read them. -/
def Reader.ReadAll (r : Reader) : Option (List (List GoString) × Option ParseError) :=
  match Reader.readAllFuel (r.input.length + 1) r [] with
  | none => none
  | some x => some x.2

/-! ## The encoding, in the words of the specification -/

/-- The fields' bytes in order, one UnitSep byte (0x1F) between consecutive fields. -/
def joinFields : List GoString → List Byte
  | [] => []
  | [field] => field
  | field :: next :: rest => field ++ 0x1F :: joinFields (next :: rest)

/-- The encoding of a record: its fields joined by UnitSep, then one RecordSep byte
(0x1E). -/
def encodeRecord (record : List GoString) : List Byte := joinFields record ++ [0x1E]

/-- The encoding of a sequence of records: the records' encodings, in order. -/
def encodeAll : List (List GoString) → List Byte
  | [] => []
  | record :: rest => encodeRecord record ++ encodeAll rest

/-- A field is free of the three separators GroupSep, RecordSep and UnitSep. -/
def ValidField (field : GoString) : Prop :=
  ∀ c ∈ field, c ≠ 0x1D ∧ c ≠ 0x1E ∧ c ≠ 0x1F

/-- Every field of the record is free of the three separators. -/
def ValidRecord (record : List GoString) : Prop :=
  ∀ field ∈ record, ValidField field

/-- What the loop of Write emits up to and without the first invalid field, which
has index `k`: the fields before it joined by UnitSep, and one further UnitSep when
`k > 0`. -/
def emittedBefore (record : List GoString) (k : Nat) : List Byte :=
  joinFields (record.take k) ++ (if k > 0 then [0x1F] else [])

/-- The output stream of a buffered writer: what the sink has received, followed by
what is still buffered. -/
def BufWriter.output (b : BufWriter) : List Byte := b.wr.received ++ b.buf

/-- The output stream of a Writer. -/
def Writer.output (w : Writer) : List Byte := w.w.output

/-- The buffered writer `b` with the bytes `bs` appended to its buffer. -/
def BufWriter.buffer (b : BufWriter) (bs : List Byte) : BufWriter :=
  { err := b.err, buf := b.buf ++ bs, size := b.size, wr := b.wr }

/-- A buffered writer that has met no fault and whose sink does not fault. -/
def BufWriter.Healthy (b : BufWriter) : Prop := b.err = none ∧ b.wr.faulty = false

/-- The buffered writer `b1` is `b` after the bytes `bs` were appended to its output
stream without a fault. -/
def BufWriter.Extends (b b1 : BufWriter) (bs : List Byte) : Prop :=
  b1.Healthy ∧ b1.size = b.size ∧ b1.output = b.output ++ bs

/-- What the loop of Write, entered at index `n`, emits and returns with when no
write faults: a UnitSep before every field but the one of index 0, each valid field
as it is, and `errInvalidField` at the first field that fails validation. -/
def loopTrace : Nat → List GoString → List Byte × Option GoError
  | _, [] => ([], none)
  | n, field :: rest =>
    let sep : List Byte := if n > 0 then [0x1F] else []
    if Writer.validateField (NewWriter { received := [], faulty := false }) field ≠ none then
      (sep, some GoError.errInvalidField)
    else (sep ++ field ++ (loopTrace (n + 1) rest).1, (loopTrace (n + 1) rest).2)

/-- The fields' bytes in order, one UnitSep byte (0x1F) before every field. -/
def sepFields : List GoString → List Byte
  | [] => []
  | field :: rest => 0x1F :: field ++ sepFields rest

/-- What Write emits and returns when no write faults: the loop, and the RecordSep
when the loop ran to its end. -/
def writeTrace (record : List GoString) : List Byte × Option GoError :=
  if (loopTrace 0 record).2 = none then ((loopTrace 0 record).1 ++ [0x1E], none)
  else loopTrace 0 record

/-- What WriteAll emits and returns when no write faults: the records' traces up to
and with the first one that fails. -/
def writeAllTrace : List (List GoString) → List Byte × Option GoError
  | [] => ([], none)
  | record :: rest =>
    if (writeTrace record).2 = none then
      ((writeTrace record).1 ++ (writeAllTrace rest).1, (writeAllTrace rest).2)
    else writeTrace record

/-! ## The decoder, line by line -/

/-- The lines of a stream, in order: the spans that end at a RecordSep (0x1E), and
the span after the last RecordSep when it is not empty. -/
def linesOf : List Byte → List (List Byte)
  | [] => []
  | c :: rest =>
    if c = 0x1E then [] :: linesOf rest
    else
      match linesOf rest with
      | [] => [[c]]
      | line :: lines => (c :: line) :: lines

/-- A line that the decoder discards: a Comment Line, whose first byte is 0x10, or a
Blank Line. -/
def skipped (line : List Byte) : Bool :=
  decide (line.head? = some 0x10 ∨ line = [])

/-- The fields of a line: its spans between UnitSeps, each without its leading
spaces and tabs when `trim` is set. -/
def fieldsOf (trim : Bool) (line : List Byte) : List GoString :=
  if trim then (splitFields line).map trimLeadingSpace else splitFields line

/-- The candidate records of a list of lines: the fields of each line that is not
discarded, in order. -/
def candidatesOf (trim : Bool) (lines : List (List Byte)) : List (List GoString) :=
  (lines.filter (fun line => !skipped line)).map (fieldsOf trim)

/-- The candidate records of a stream. -/
def candidates (trim : Bool) (input : List Byte) : List (List GoString) :=
  candidatesOf trim (linesOf input)

/-- The field-count policy on a sequence of records: with `fpr = 0` the first record
sets the count, with `fpr > 0` every record has `fpr` fields, with `fpr < 0` nothing
is asked. -/
def countsOk : Int → List (List GoString) → Bool
  | _, [] => true
  | fpr, record :: rest =>
    if fpr = 0 then countsOk record.length rest
    else if fpr ≥ 0 ∧ (record.length : Int) ≠ fpr then false
    else countsOk fpr rest

/-- What decode-all does over the lines still to read, with the expected field count
`fpr`, `n` lines read so far and the records accumulated so far. -/
def decodeLines (trim : Bool) : Int → Nat → List (List Byte) → List (List GoString) →
    List (List GoString) × Option ParseError
  | _, _, [], records => (records, none)
  | fpr, n, line :: rest, records =>
    if skipped line then decodeLines trim fpr (n + countNewlines line + 1) rest records
    else if fpr = 0 then
      decodeLines trim (fieldsOf trim line).length (n + countNewlines line + 1) rest
        (records ++ [fieldsOf trim line])
    else if fpr ≥ 0 ∧ ((fieldsOf trim line).length : Int) ≠ fpr then
      ([], some { StartLine := n + 1, Line := n + 1 + countNewlines line,
                  Err := ParseErrorKind.ErrFieldCount })
    else
      decodeLines trim fpr (n + countNewlines line + 1) rest (records ++ [fieldsOf trim line])

/-- The reference parse of a stream: split it on RecordSep, discard every zero-length
piece and every piece whose first byte is Comment, and split each remaining piece on
UnitSep. -/
def referenceParse (input : List Byte) : List (List GoString) :=
  ((input.splitOn 0x1E).filter
    (fun piece => !(piece.isEmpty || piece.head? == some 0x10))).map
    (fun piece => piece.splitOn 0x1F)

/-- What decode-all gives, the line numbers of a fault left aside: the records it
returns, and whether it returns a fault. -/
def Reader.outcome (r : Reader) : Option (List (List GoString) × Bool) :=
  match r.ReadAll with
  | none => none
  | some x => some (x.1, x.2.isSome)

/-- A stream without embedded newlines, blank lines or comment lines. -/
def PlainInput (input : List Byte) : Prop :=
  ∀ line ∈ linesOf input, skipped line = false ∧ countNewlines line = 0

/-! ## bufio.Writer: a writer with a sticky error -/

theorem Flush_of_err (b : BufWriter) (h : b.err ≠ none) : b.Flush = (b, b.err) := by
  simp [BufWriter.Flush, h]

theorem WriteByte_of_err (b : BufWriter) (c : Byte) (h : b.err ≠ none) :
    b.WriteByte c = (b, b.err) := by
  simp [BufWriter.WriteByte, h]

theorem writeLoop_exit (fuel : Nat) (b : BufWriter) (p : List Byte) (nn : Nat)
    (h : ¬ (p.length > b.Available ∧ b.err = none)) :
    BufWriter.writeLoop (fuel + 1) b p nn = some (b, p, nn) := by
  simp only [BufWriter.writeLoop, if_neg h]

theorem Write_of_err (b : BufWriter) (p : List Byte) (h : b.err ≠ none) :
    b.Write p = some (b, 0, b.err) := by
  have hc : ¬ (p.length > b.Available ∧ b.err = none) := fun hc => h hc.2
  simp [BufWriter.Write, writeLoop_exit _ b p 0 hc, h]

theorem writeStringLoop_exit (fuel : Nat) (b : BufWriter) (s : GoString) (nn : Nat)
    (h : ¬ (s.length > b.Available ∧ b.err = none)) :
    BufWriter.writeStringLoop (fuel + 1) b s nn = some (b, s, nn) := by
  simp only [BufWriter.writeStringLoop, if_neg h]

theorem WriteString_of_err (b : BufWriter) (s : GoString) (h : b.err ≠ none) :
    b.WriteString s = some (b, 0, b.err) := by
  have hc : ¬ (s.length > b.Available ∧ b.err = none) := fun hc => h hc.2
  simp [BufWriter.WriteString, writeStringLoop_exit _ b s 0 hc, h]

theorem WriteRune_of_err (b : BufWriter) (r : Rune) (h : b.err ≠ none) :
    b.WriteRune r = some (b, 0, b.err) := by
  simp [BufWriter.WriteRune, WriteByte_of_err b _ h, h]

/-! ## bufio.Writer: writes that fit in the buffer -/

theorem WriteByte_fit (b : BufWriter) (c : Byte) (he : b.err = none) (ha : 0 < b.Available) :
    b.WriteByte c = (b.buffer [c], none) := by
  have : ¬ b.Available ≤ 0 := by omega
  simp [BufWriter.WriteByte, he, this, BufWriter.buffer]

theorem Write_fit (b : BufWriter) (p : List Byte) (he : b.err = none)
    (ha : p.length ≤ b.Available) :
    b.Write p = some (b.buffer p, p.length, none) := by
  have hc : ¬ (p.length > b.Available ∧ b.err = none) := fun hc => by omega
  simp [BufWriter.Write, writeLoop_exit _ b p 0 hc, he, Nat.min_eq_left ha, BufWriter.buffer]

theorem WriteString_fit (b : BufWriter) (s : GoString) (he : b.err = none)
    (ha : s.length ≤ b.Available) :
    b.WriteString s = some (b.buffer s, s.length, none) := by
  have hc : ¬ (s.length > b.Available ∧ b.err = none) := fun hc => by omega
  simp [BufWriter.WriteString, writeStringLoop_exit _ b s 0 hc, he, Nat.min_eq_left ha,
    BufWriter.buffer]

/-! ## bufio.Writer over a sink that does not fault -/

theorem Flush_healthy (b : BufWriter) (h : b.Healthy) :
    b.Flush.2 = none ∧ b.Flush.1.Healthy ∧ b.Flush.1.size = b.size ∧ b.Flush.1.buf = [] ∧
      b.Flush.1.wr.received = b.wr.received ++ b.buf := by
  obtain ⟨he, hf⟩ := h
  by_cases hb : b.buf = []
  · simp [BufWriter.Flush, he, hb, hf, BufWriter.Healthy]
  · have hl : b.buf.length ≠ 0 := by simpa using hb
    simp [BufWriter.Flush, he, hl, hf, BufWriter.Healthy, Sink.Write]

theorem WriteByte_healthy (b : BufWriter) (c : Byte) (h : b.Healthy) :
    (b.WriteByte c).2 = none ∧ b.Extends (b.WriteByte c).1 [c] := by
  obtain ⟨h2, h1, hs, hb, hr⟩ := Flush_healthy b h
  obtain ⟨he, hf⟩ := h
  by_cases ha : b.Available ≤ 0
  · simp [BufWriter.WriteByte, he, ha, h2, BufWriter.Extends, BufWriter.Healthy, h1.1, h1.2, hs,
      BufWriter.output, hb, hr]
  · simp [BufWriter.WriteByte, he, ha, BufWriter.Extends, BufWriter.Healthy, hf,
      BufWriter.output]

theorem writeLoop_step_direct (fuel : Nat) (b : BufWriter) (p : List Byte) (nn : Nat)
    (hc : p.length > b.Available ∧ b.err = none) (hb : b.Buffered = 0) :
    BufWriter.writeLoop (fuel + 1) b p nn =
      BufWriter.writeLoop fuel { b with wr := (b.wr.Write p).1, err := (b.wr.Write p).2.2 }
        (p.drop (b.wr.Write p).2.1) (nn + (b.wr.Write p).2.1) := by
  rw [BufWriter.writeLoop]
  simp only [if_pos hc, if_pos hb]

theorem writeLoop_step_flush (fuel : Nat) (b : BufWriter) (p : List Byte) (nn : Nat)
    (hc : p.length > b.Available ∧ b.err = none) (hb : ¬ b.Buffered = 0) :
    BufWriter.writeLoop (fuel + 1) b p nn =
      BufWriter.writeLoop fuel
        (BufWriter.Flush { b with buf := b.buf ++ p.take (min p.length b.Available) }).1
        (p.drop (min p.length b.Available)) (nn + min p.length b.Available) := by
  rw [BufWriter.writeLoop]
  simp only [if_pos hc, if_neg hb]

theorem writeLoop_healthy_empty (fuel : Nat) (b : BufWriter) (p : List Byte) (nn : Nat)
    (h : b.Healthy) (hb : b.buf = []) :
    ∃ b1 p1, BufWriter.writeLoop (fuel + 2) b p nn = some (b1, p1, nn + (p.length - p1.length)) ∧
      b1.Healthy ∧ b1.size = b.size ∧ b1.output ++ p1 = b.output ++ p ∧
      p1.length ≤ b1.Available ∧ p1.length ≤ p.length := by
  obtain ⟨he, hf⟩ := h
  by_cases hc : p.length > b.Available ∧ b.err = none
  · refine ⟨{ b with wr := { b.wr with received := b.wr.received ++ p } }, [], ?_⟩
    rw [writeLoop_step_direct _ b p nn hc (by simp [BufWriter.Buffered, hb])]
    simp [Sink.Write, hf, he, BufWriter.Healthy, BufWriter.output, hb]
    exact writeLoop_exit fuel _ [] _ (by simp)
  · refine ⟨b, p, ?_⟩
    simp only [writeLoop_exit _ b p nn hc]
    simp [BufWriter.Healthy, he, hf]
    simp [he] at hc
    exact hc

theorem writeLoop_healthy (fuel : Nat) (b : BufWriter) (p : List Byte) (nn : Nat)
    (h : b.Healthy) :
    ∃ b1 p1, BufWriter.writeLoop (fuel + 3) b p nn = some (b1, p1, nn + (p.length - p1.length)) ∧
      b1.Healthy ∧ b1.size = b.size ∧ b1.output ++ p1 = b.output ++ p ∧
      p1.length ≤ b1.Available ∧ p1.length ≤ p.length := by
  by_cases hb : b.buf = []
  · exact writeLoop_healthy_empty (fuel + 1) b p nn h hb
  by_cases hc : p.length > b.Available ∧ b.err = none
  · have hB : ¬ b.Buffered = 0 := by simpa [BufWriter.Buffered] using hb
    have hh : ({ b with buf := b.buf ++ p.take (min p.length b.Available) } : BufWriter).Healthy := h
    obtain ⟨h2, h1, hs, hbuf, hr⟩ := Flush_healthy _ hh
    obtain ⟨b1, p1, hw, hh1, hs1, ho1, ha1, hl1⟩ :=
      writeLoop_healthy_empty fuel _ (p.drop (min p.length b.Available))
        (nn + min p.length b.Available) h1 hbuf
    refine ⟨b1, p1, ?_, hh1, by simpa [hs] using hs1, ?_, ha1, ?_⟩
    · rw [writeLoop_step_flush _ b p nn hc hB, hw]
      have hm : min p.length b.Available ≤ p.length := Nat.min_le_left _ _
      have hd : (p.drop (min p.length b.Available)).length = p.length - min p.length b.Available :=
        List.length_drop _ _
      rw [hd] at hl1 ⊢
      have : nn + min p.length b.Available + (p.length - min p.length b.Available - p1.length) =
          nn + (p.length - p1.length) := by
        generalize min p.length b.Available = m at hm hl1
        omega
      rw [this]
    · rw [ho1]
      simp only [BufWriter.output, hbuf, hr, List.append_nil, List.append_assoc,
        List.take_append_drop]
    · exact le_trans hl1 (by simp)
  · refine ⟨b, p, ?_⟩
    simp only [writeLoop_exit _ b p nn hc]
    simp [h]
    simp [h.1] at hc
    exact hc

theorem Write_healthy (b : BufWriter) (p : List Byte) (h : b.Healthy) :
    ∃ b1, b.Write p = some (b1, p.length, none) ∧ b.Extends b1 p := by
  obtain ⟨b1, p1, hw, hh1, hs1, ho1, ha1, hl1⟩ := writeLoop_healthy p.length b p 0 h
  refine ⟨{ b1 with buf := b1.buf ++ p1 }, ?_, ?_⟩
  · simp only [BufWriter.Write, hw, hh1.1, Nat.min_eq_left ha1, List.take_length]
    simp
    omega
  · refine ⟨hh1, hs1, ?_⟩
    simp only [BufWriter.output] at ho1 ⊢
    rw [← ho1]
    simp

theorem Flush_sink_kind (b : BufWriter) : b.Flush.1.wr.faulty = b.wr.faulty := by
  have hw : ∀ p, (b.wr.Write p).1.faulty = b.wr.faulty := by
    intro p
    unfold Sink.Write
    split <;> rfl
  by_cases he : b.err ≠ none
  · simp [BufWriter.Flush, he]
  by_cases hl : b.buf.length = 0
  · simp [BufWriter.Flush, he, hl]
  simp only [BufWriter.Flush, if_neg he, if_neg hl]
  split_ifs <;> exact hw _

theorem writeStringLoop_step_direct (fuel : Nat) (b : BufWriter) (s : GoString) (nn : Nat)
    (hc : s.length > b.Available ∧ b.err = none)
    (hb : b.Buffered = 0 ∧ b.wr.isStringWriter = true) :
    BufWriter.writeStringLoop (fuel + 1) b s nn =
      BufWriter.writeStringLoop fuel
        { b with wr := (b.wr.WriteString s).1, err := (b.wr.WriteString s).2.2 }
        (s.drop (b.wr.WriteString s).2.1) (nn + (b.wr.WriteString s).2.1) := by
  rw [BufWriter.writeStringLoop]
  simp only [if_pos hc, if_pos hb]

theorem writeStringLoop_step_flush (fuel : Nat) (b : BufWriter) (s : GoString) (nn : Nat)
    (hc : s.length > b.Available ∧ b.err = none)
    (hb : ¬ (b.Buffered = 0 ∧ b.wr.isStringWriter = true)) :
    BufWriter.writeStringLoop (fuel + 1) b s nn =
      BufWriter.writeStringLoop fuel
        (BufWriter.Flush { b with buf := b.buf ++ s.take (min s.length b.Available) }).1
        (s.drop (min s.length b.Available)) (nn + min s.length b.Available) := by
  rw [BufWriter.writeStringLoop]
  simp only [if_pos hc, if_neg hb]

theorem writeStringLoop_healthy (fuel : Nat) (b : BufWriter) (s : GoString) (nn : Nat)
    (hf : b.wr.faulty = false) :
    BufWriter.writeStringLoop fuel b s nn = BufWriter.writeLoop fuel b s nn := by
  induction fuel generalizing b s nn with
  | zero => rfl
  | succ fuel ih =>
    by_cases hc : s.length > b.Available ∧ b.err = none
    · by_cases hb : b.Buffered = 0
      · have hsw : b.Buffered = 0 ∧ b.wr.isStringWriter = true :=
          ⟨hb, by simp [Sink.isStringWriter, hf]⟩
        have hw : b.wr.WriteString s = b.wr.Write s := by
          simp [Sink.WriteString, Sink.Write, hf]
        rw [writeStringLoop_step_direct _ b s nn hc hsw, writeLoop_step_direct _ b s nn hc hb,
          hw]
        exact ih _ _ _ (by simp [Sink.Write, hf])
      · rw [writeStringLoop_step_flush _ b s nn hc (fun h => hb h.1),
          writeLoop_step_flush _ b s nn hc hb]
        exact ih _ _ _ (by rw [Flush_sink_kind]; exact hf)
    · rw [writeStringLoop_exit _ b s nn hc, writeLoop_exit _ b s nn hc]

theorem WriteString_eq_Write (b : BufWriter) (s : GoString) (hf : b.wr.faulty = false) :
    b.WriteString s = b.Write s := by
  unfold BufWriter.WriteString BufWriter.Write
  rw [writeStringLoop_healthy _ b s 0 hf]
  generalize BufWriter.writeLoop (s.length + 3) b s 0 = r
  rcases r with _ | ⟨b1, s1, nn⟩ <;> rfl

theorem WriteString_healthy (b : BufWriter) (s : GoString) (h : b.Healthy) :
    ∃ b1, b.WriteString s = some (b1, s.length, none) ∧ b.Extends b1 s := by
  rw [WriteString_eq_Write b s h.2]
  exact Write_healthy b s h

/-! ## bufio.Writer over a sink whose every write faults -/

theorem Flush_faulty (b : BufWriter) (he : b.err = none) (hf : b.wr.faulty = true)
    (hb : b.buf ≠ []) :
    b.Flush = ({ b with err := some GoError.errSink }, some GoError.errSink) := by
  have hl : b.buf.length ≠ 0 := by simpa using hb
  have hp : 0 < b.buf.length := Nat.pos_of_ne_zero hl
  simp [BufWriter.Flush, he, hl, hf, Sink.Write, hp]

theorem WriteByte_faulty (b : BufWriter) (c : Byte) (he : b.err = none)
    (hf : b.wr.faulty = true) :
    (b.WriteByte c).1.wr = b.wr ∧ (b.WriteByte c).1.size = b.size ∧
      (((b.WriteByte c).2 = none ∧ (b.WriteByte c).1.err = none ∧
          (b.WriteByte c).1.buf = b.buf ++ [c]) ∨
        ((b.WriteByte c).2 ≠ none ∧ (b.WriteByte c).1.err ≠ none)) := by
  by_cases ha : b.Available ≤ 0
  · by_cases hb : b.buf = []
    · have hfl : b.Flush = (b, none) := by simp [BufWriter.Flush, he, hb]
      simp [BufWriter.WriteByte, he, ha, hfl]
    · simp [BufWriter.WriteByte, he, ha, Flush_faulty b he hf hb]
  · simp [BufWriter.WriteByte, he, ha]

theorem Write_faulty (b : BufWriter) (p : List Byte) (he : b.err = none)
    (hf : b.wr.faulty = true) :
    ∃ b1 n e, b.Write p = some (b1, n, e) ∧ b1.wr = b.wr ∧ b1.size = b.size ∧
      ((e = none ∧ b1.err = none ∧ b1.buf = b.buf ++ p) ∨ (e ≠ none ∧ b1.err ≠ none)) := by
  by_cases hc : p.length > b.Available ∧ b.err = none
  · by_cases hb : b.Buffered = 0
    · refine ⟨{ b with err := some GoError.errSink }, 0, some GoError.errSink, ?_, rfl, rfl, ?_⟩
      · have h1 := writeLoop_step_direct (p.length + 2) b p 0 hc hb
        simp only [Sink.Write, hf, if_true, List.drop_zero, Nat.add_zero] at h1
        rw [BufWriter.Write, h1, writeLoop_exit (p.length + 1) _ p 0 (by simp)]
        simp
      · right; simp
    · have hne : b.buf ++ p.take (min p.length b.Available) ≠ [] := by
        intro h
        have := (List.append_eq_nil.mp h).1
        simp [BufWriter.Buffered, this] at hb
      have hfl := Flush_faulty { b with buf := b.buf ++ p.take (min p.length b.Available) }
        he hf hne
      refine ⟨{ b with buf := b.buf ++ p.take (min p.length b.Available),
                       err := some GoError.errSink }, 0 + min p.length b.Available,
        some GoError.errSink, ?_, rfl, rfl, ?_⟩
      · have h1 := writeLoop_step_flush (p.length + 2) b p 0 hc hb
        rw [hfl] at h1
        rw [BufWriter.Write, h1, writeLoop_exit (p.length + 1) _ _ _ (by simp)]
        simp
      · right; simp
  · have ha : p.length ≤ b.Available := by
      simp only [he, and_true, not_lt, gt_iff_lt] at hc
      exact hc
    exact ⟨_, _, _, Write_fit b p he ha, rfl, rfl, Or.inl ⟨rfl, he, rfl⟩⟩

theorem WriteString_faulty (b : BufWriter) (s : GoString) (he : b.err = none)
    (hf : b.wr.faulty = true) (hs : 0 < b.size) :
    ∃ b1 n e, b.WriteString s = some (b1, n, e) ∧ b1.wr = b.wr ∧ b1.size = b.size ∧
      ((e = none ∧ b1.err = none ∧ b1.buf = b.buf ++ s) ∨ (e ≠ none ∧ b1.err ≠ none)) := by
  by_cases hc : s.length > b.Available ∧ b.err = none
  · have hsw : ¬ (b.Buffered = 0 ∧ b.wr.isStringWriter = true) := by
      simp [Sink.isStringWriter, hf]
    have hne : b.buf ++ s.take (min s.length b.Available) ≠ [] := by
      intro h
      obtain ⟨h1, h2⟩ := List.append_eq_nil.mp h
      have ha : b.Available = b.size := by simp [BufWriter.Available, h1]
      have hl : (s.take (min s.length b.Available)).length = min s.length b.Available := by
        rw [List.length_take]
        exact Nat.min_eq_left (Nat.min_le_left _ _)
      have hlt := hc.1
      rw [h2, ha] at hl
      rw [ha] at hlt
      have hm : min s.length b.size = b.size := Nat.min_eq_right (by omega)
      rw [hm] at hl
      simp at hl
      omega
    have hfl := Flush_faulty { b with buf := b.buf ++ s.take (min s.length b.Available) }
      he hf hne
    refine ⟨{ b with buf := b.buf ++ s.take (min s.length b.Available),
                     err := some GoError.errSink }, 0 + min s.length b.Available,
      some GoError.errSink, ?_, rfl, rfl, ?_⟩
    · have h1 := writeStringLoop_step_flush (s.length + 2) b s 0 hc hsw
      rw [hfl] at h1
      rw [BufWriter.WriteString, h1, writeStringLoop_exit (s.length + 1) _ _ _ (by simp)]
      simp
    · right; simp
  · have ha : s.length ≤ b.Available := by
      simp only [he, and_true, not_lt, gt_iff_lt] at hc
      exact hc
    exact ⟨_, _, _, WriteString_fit b s he ha, rfl, rfl, Or.inl ⟨rfl, he, rfl⟩⟩

/-! ## bufio.Writer: the write never runs out of fuel -/

theorem Write_total (b : BufWriter) (p : List Byte) : ∃ r, b.Write p = some r := by
  by_cases he : b.err = none
  · cases hf : b.wr.faulty
    · obtain ⟨b1, h, _⟩ := Write_healthy b p ⟨he, hf⟩
      exact ⟨_, h⟩
    · obtain ⟨b1, n, e, h, _⟩ := Write_faulty b p he hf
      exact ⟨_, h⟩
  · exact ⟨_, Write_of_err b p he⟩

theorem WriteString_total (b : BufWriter) (s : GoString) (hsize : 0 < b.size) :
    ∃ r, b.WriteString s = some r := by
  by_cases he : b.err = none
  · cases hf : b.wr.faulty
    · obtain ⟨b1, h, _⟩ := WriteString_healthy b s ⟨he, hf⟩
      exact ⟨_, h⟩
    · obtain ⟨b1, n, e, h, _⟩ := WriteString_faulty b s he hf hsize
      exact ⟨_, h⟩
  · exact ⟨_, WriteString_of_err b s he⟩

/-! ## bufio.Writer: a rune below `utf8.RuneSelf` -/

theorem WriteRune_ascii (b : BufWriter) (r : Rune) (h : uint32 r < RuneSelf) :
    b.WriteRune r = some ((b.WriteByte (byte (uint32 r))).1,
      (if (b.WriteByte (byte (uint32 r))).2 ≠ none then 0 else 1),
      (b.WriteByte (byte (uint32 r))).2) := by
  simp only [BufWriter.WriteRune, if_pos h]
  split <;> simp_all

theorem UnitSep_ascii : uint32 UnitSep < RuneSelf ∧ byte (uint32 UnitSep) = 0x1F := by decide

theorem RecordSep_ascii : uint32 RecordSep < RuneSelf ∧ byte (uint32 RecordSep) = 0x1E := by
  decide

/-! ## validateField -/

theorem mem_invalidChars (c : Byte) :
    c ∈ invalidChars ↔ (c = 0x1D ∨ c = 0x1E ∨ c = 0x1F) := by
  simp [invalidChars]

theorem ContainsAny_invalidChars (field : GoString) :
    ContainsAny field invalidChars = true ↔ ∃ c ∈ field, c = 0x1D ∨ c = 0x1E ∨ c = 0x1F := by
  simp [ContainsAny, invalidChars]

theorem validateField_eq_none_iff (w : Writer) (field : GoString) :
    w.validateField field = none ↔ ValidField field := by
  unfold Writer.validateField ValidField
  by_cases h : field = []
  · simp [h]
  · simp only [if_neg h]
    by_cases hx : ContainsAny field invalidChars = true
    · simp only [hx, if_true, reduceCtorEq, false_iff]
      obtain ⟨c, hc, hcc⟩ := (ContainsAny_invalidChars field).mp hx
      intro hv
      have := hv c hc
      tauto
    · simp only [hx, if_false, true_iff, Bool.false_eq_true]
      intro c hc
      have hn : ¬ ∃ c ∈ field, c = 0x1D ∨ c = 0x1E ∨ c = 0x1F :=
        fun he => hx ((ContainsAny_invalidChars field).mpr he)
      refine ⟨fun h => hn ⟨c, hc, Or.inl h⟩, fun h => hn ⟨c, hc, Or.inr (Or.inl h)⟩,
        fun h => hn ⟨c, hc, Or.inr (Or.inr h)⟩⟩

theorem validateField_cases (w : Writer) (field : GoString) :
    w.validateField field = none ∨ w.validateField field = some GoError.errInvalidField := by
  unfold Writer.validateField
  split
  · exact Or.inl rfl
  · split
    · exact Or.inr rfl
    · exact Or.inl rfl

theorem validateField_indep (w w1 : Writer) (field : GoString) :
    w.validateField field = w1.validateField field := rfl

/-! ## The trace of a record -/

theorem Extends_refl (b : BufWriter) (h : b.Healthy) : b.Extends b [] := by
  exact ⟨h, rfl, by simp⟩

theorem Extends_trans (b b1 b2 : BufWriter) (x y : List Byte) (h1 : b.Extends b1 x)
    (h2 : b1.Extends b2 y) : b.Extends b2 (x ++ y) := by
  obtain ⟨_, hs1, ho1⟩ := h1
  obtain ⟨hh2, hs2, ho2⟩ := h2
  exact ⟨hh2, hs2.trans hs1, by rw [ho2, ho1, List.append_assoc]⟩

theorem WriteRune_UnitSep (b : BufWriter) :
    b.WriteRune UnitSep = some ((b.WriteByte 0x1F).1,
      (if (b.WriteByte 0x1F).2 ≠ none then 0 else 1), (b.WriteByte 0x1F).2) := by
  have := WriteRune_ascii b UnitSep UnitSep_ascii.1
  rw [UnitSep_ascii.2] at this
  exact this

theorem WriteRune_RecordSep (b : BufWriter) :
    b.WriteRune RecordSep = some ((b.WriteByte 0x1E).1,
      (if (b.WriteByte 0x1E).2 ≠ none then 0 else 1), (b.WriteByte 0x1E).2) := by
  have := WriteRune_ascii b RecordSep RecordSep_ascii.1
  rw [RecordSep_ascii.2] at this
  exact this

theorem writeFields_healthy (fields : List GoString) (w : Writer) (n : Nat)
    (h : w.w.Healthy) :
    ∃ w1, w.writeFields n fields = some (w1, (loopTrace n fields).2) ∧
      w.w.Extends w1.w (loopTrace n fields).1 := by
  induction fields generalizing w n with
  | nil => exact ⟨w, rfl, Extends_refl _ h⟩
  | cons field rest ih =>
    -- the separator
    have hsep : ∃ b1, (if n > 0 then
          match w.w.WriteRune UnitSep with
          | none => none
          | some r => some (r.1, r.2.2)
        else some (w.w, none)) = some (b1, none) ∧
        w.w.Extends b1 (if n > 0 then [0x1F] else []) := by
      by_cases hn : n > 0
      · obtain ⟨he, hx⟩ := WriteByte_healthy w.w 0x1F h
        refine ⟨(w.w.WriteByte 0x1F).1, ?_, by simpa [hn] using hx⟩
        simp [hn, WriteRune_UnitSep, he]
      · exact ⟨w.w, by simp [hn], by simpa [hn] using Extends_refl _ h⟩
    obtain ⟨b1, hs, hx1⟩ := hsep
    rw [Writer.writeFields]
    simp only [hs]
    rcases validateField_cases { w := b1 } field with hv | hv
    · obtain ⟨b2, hw, hx2⟩ := WriteString_healthy b1 field hx1.1
      obtain ⟨w3, hw3, hx3⟩ := ih { w := b2 } (n + 1) hx2.1
      refine ⟨w3, ?_, ?_⟩
      · have hv0 : Writer.validateField (NewWriter { received := [], faulty := false }) field
            = none := hv
        simp only [hv, hw, hw3, loopTrace, hv0, ne_eq, not_true_eq_false, if_false]
      · have hv0 : Writer.validateField (NewWriter { received := [], faulty := false }) field
            = none := hv
        simp only [loopTrace, hv0, ne_eq, not_true_eq_false, if_false]
        exact Extends_trans _ _ _ _ _ (Extends_trans _ _ _ _ _ hx1 hx2) hx3
    · have hv0 : Writer.validateField (NewWriter { received := [], faulty := false }) field
          = some GoError.errInvalidField := hv
      refine ⟨{ w := b1 }, ?_, ?_⟩
      · simp [hv, loopTrace, hv0]
      · simpa [loopTrace, hv0] using hx1

theorem buffer_nil (b : BufWriter) : b.buffer [] = b := by
  simp [BufWriter.buffer]

theorem buffer_buffer (b : BufWriter) (x y : List Byte) :
    (b.buffer x).buffer y = b.buffer (x ++ y) := by
  simp [BufWriter.buffer]

theorem buffer_Available (b : BufWriter) (x : List Byte) :
    (b.buffer x).Available = b.Available - x.length := by
  simp only [BufWriter.buffer, BufWriter.Available, List.length_append]
  omega

theorem writeFields_fit (fields : List GoString) (w : Writer) (n : Nat)
    (he : w.w.err = none) (ha : (loopTrace n fields).1.length ≤ w.w.Available) :
    w.writeFields n fields =
      some ({ w := w.w.buffer (loopTrace n fields).1 }, (loopTrace n fields).2) := by
  induction fields generalizing w n with
  | nil => simp [Writer.writeFields, loopTrace, buffer_nil]
  | cons field rest ih =>
    have hsep : (if n > 0 then
          match w.w.WriteRune UnitSep with
          | none => none
          | some r => some (r.1, r.2.2)
        else some (w.w, none)) =
        some (w.w.buffer (if n > 0 then [0x1F] else []), none) := by
      by_cases hn : n > 0
      · have hpos : 0 < w.w.Available := by
          have : 1 ≤ (loopTrace n (field :: rest)).1.length := by
            simp only [loopTrace, hn, if_true]
            split <;> simp
          omega
        simp [hn, WriteRune_UnitSep, WriteByte_fit w.w 0x1F he hpos]
      · simp [hn, buffer_nil]
    rw [Writer.writeFields]
    simp only [hsep]
    rcases validateField_cases { w := w.w.buffer (if n > 0 then [0x1F] else []) } field
      with hv | hv
    · have hv0 : Writer.validateField (NewWriter { received := [], faulty := false }) field
          = none := hv
      simp only [loopTrace, hv0, ne_eq, not_true_eq_false, if_false, List.length_append] at ha
      have hfit : field.length ≤ (w.w.buffer (if n > 0 then [0x1F] else [])).Available := by
        rw [buffer_Available]
        omega
      have hw := WriteString_fit (w.w.buffer (if n > 0 then [0x1F] else [])) field he hfit
      have hrest := ih { w := (w.w.buffer (if n > 0 then [0x1F] else [])).buffer field }
        (n + 1) he (by
          simp only [buffer_Available]
          omega)
      simp only [buffer_buffer, List.append_assoc] at hrest hw
      simp only [hv, hw, hrest, loopTrace, hv0, ne_eq, not_true_eq_false, if_false,
        List.append_assoc]
    · have hv0 : Writer.validateField (NewWriter { received := [], faulty := false }) field
          = some GoError.errInvalidField := hv
      simp [hv, loopTrace, hv0]

/-! ## The traces, in the words of the specification -/

theorem joinFields_cons (field : GoString) (rest : List GoString) :
    joinFields (field :: rest) = field ++ sepFields rest := by
  induction rest generalizing field with
  | nil => simp [joinFields, sepFields]
  | cons next rest ih => simp [joinFields, sepFields, ih next]

theorem validateField_new_eq_none (field : GoString) (h : ValidField field) :
    Writer.validateField (NewWriter { received := [], faulty := false }) field = none :=
  (validateField_eq_none_iff _ field).mpr h

theorem validateField_new_eq_some (field : GoString) (h : ¬ ValidField field) :
    Writer.validateField (NewWriter { received := [], faulty := false }) field =
      some GoError.errInvalidField := by
  rcases validateField_cases (NewWriter { received := [], faulty := false }) field with hv | hv
  · exact absurd ((validateField_eq_none_iff _ field).mp hv) h
  · exact hv

theorem loopTrace_succ_valid (fields : List GoString) (n : Nat) (h : ValidRecord fields) :
    loopTrace (n + 1) fields = (sepFields fields, none) := by
  induction fields generalizing n with
  | nil => simp [loopTrace, sepFields]
  | cons field rest ih =>
    have hf := validateField_new_eq_none field (h field (List.mem_cons_self _ _))
    have hr := ih (n + 1) (fun f hm => h f (List.mem_cons_of_mem _ hm))
    simp [loopTrace, hf, hr, sepFields]

theorem loopTrace_zero_valid (fields : List GoString) (h : ValidRecord fields) :
    loopTrace 0 fields = (joinFields fields, none) := by
  cases fields with
  | nil => simp [loopTrace, joinFields]
  | cons field rest =>
    have hf := validateField_new_eq_none field (h field (List.mem_cons_self _ _))
    have hr := loopTrace_succ_valid rest 0 (fun f hm => h f (List.mem_cons_of_mem _ hm))
    simp [loopTrace, hf, hr, joinFields_cons]

theorem writeTrace_valid (record : List GoString) (h : ValidRecord record) :
    writeTrace record = (encodeRecord record, none) := by
  simp [writeTrace, loopTrace_zero_valid record h, encodeRecord]

theorem loopTrace_succ_invalid (before after : List GoString) (bad : GoString) (n : Nat)
    (h : ValidRecord before) (hb : ¬ ValidField bad) :
    loopTrace (n + 1) (before ++ bad :: after) =
      (sepFields before ++ [0x1F], some GoError.errInvalidField) := by
  induction before generalizing n with
  | nil => simp [loopTrace, sepFields, validateField_new_eq_some bad hb]
  | cons field rest ih =>
    have hf := validateField_new_eq_none field (h field (List.mem_cons_self _ _))
    have hr := ih (n + 1) (fun f hm => h f (List.mem_cons_of_mem _ hm))
    simp [loopTrace, hf, hr, sepFields]

theorem loopTrace_zero_invalid (before after : List GoString) (bad : GoString)
    (h : ValidRecord before) (hb : ¬ ValidField bad) :
    loopTrace 0 (before ++ bad :: after) =
      (emittedBefore (before ++ bad :: after) before.length, some GoError.errInvalidField) := by
  cases before with
  | nil => simp [loopTrace, emittedBefore, joinFields, validateField_new_eq_some bad hb]
  | cons field rest =>
    have hf := validateField_new_eq_none field (h field (List.mem_cons_self _ _))
    have hr := loopTrace_succ_invalid rest after bad 0
      (fun f hm => h f (List.mem_cons_of_mem _ hm)) hb
    simp [loopTrace, hf, hr, emittedBefore, joinFields_cons]

theorem writeTrace_invalid (before after : List GoString) (bad : GoString)
    (h : ValidRecord before) (hb : ¬ ValidField bad) :
    writeTrace (before ++ bad :: after) =
      (emittedBefore (before ++ bad :: after) before.length, some GoError.errInvalidField) := by
  simp [writeTrace, loopTrace_zero_invalid before after bad h hb]

theorem writeAllTrace_valid (records : List (List GoString))
    (h : ∀ record ∈ records, ValidRecord record) :
    writeAllTrace records = (encodeAll records, none) := by
  induction records with
  | nil => simp [writeAllTrace, encodeAll]
  | cons record rest ih =>
    have hr := writeTrace_valid record (h record (List.mem_cons_self _ _))
    have ht := ih (fun r hm => h r (List.mem_cons_of_mem _ hm))
    simp [writeAllTrace, hr, ht, encodeAll]

theorem writeAllTrace_invalid (pre post : List (List GoString)) (bad : List GoString)
    (h : ∀ record ∈ pre, ValidRecord record) (hb : (writeTrace bad).2 ≠ none) :
    writeAllTrace (pre ++ bad :: post) = (encodeAll pre ++ (writeTrace bad).1, (writeTrace bad).2) := by
  induction pre with
  | nil => simp [writeAllTrace, encodeAll, hb]
  | cons record rest ih =>
    have hr := writeTrace_valid record (h record (List.mem_cons_self _ _))
    have ht := ih (fun r hm => h r (List.mem_cons_of_mem _ hm))
    simp [writeAllTrace, hr, ht, encodeAll]

/-! ## Write and WriteAll -/

theorem Write_healthy_trace (w : Writer) (record : List GoString) (h : w.w.Healthy) :
    ∃ w1, w.Write record = some (w1, (writeTrace record).2) ∧
      w.w.Extends w1.w (writeTrace record).1 := by
  obtain ⟨w1, hw, hx⟩ := writeFields_healthy record w 0 h
  cases ht : (loopTrace 0 record).2 with
  | none =>
    obtain ⟨he, hx2⟩ := WriteByte_healthy w1.w 0x1E hx.1
    refine ⟨{ w := (w1.w.WriteByte 0x1E).1 }, ?_, ?_⟩
    · rw [ht] at hw
      simp [Writer.Write, hw, WriteRune_RecordSep, he, writeTrace, ht]
    · simpa [writeTrace, ht] using Extends_trans _ _ _ _ _ hx hx2
  | some e =>
    refine ⟨w1, ?_, ?_⟩
    · rw [ht] at hw
      simp [Writer.Write, hw, writeTrace, ht]
    · simpa [writeTrace, ht] using hx

theorem Write_fit_trace (w : Writer) (record : List GoString) (he : w.w.err = none)
    (ha : (writeTrace record).1.length ≤ w.w.Available) :
    w.Write record = some ({ w := w.w.buffer (writeTrace record).1 }, (writeTrace record).2) := by
  cases ht : (loopTrace 0 record).2 with
  | none =>
    simp only [writeTrace, ht, if_true, List.length_append, List.length_singleton] at ha
    have hw := writeFields_fit record w 0 he (by omega)
    rw [ht] at hw
    have hb := WriteByte_fit (w.w.buffer (loopTrace 0 record).1) 0x1E he (by
      rw [buffer_Available]; omega)
    simp [Writer.Write, hw, WriteRune_RecordSep, hb, writeTrace, ht, buffer_buffer]
  | some e =>
    simp only [writeTrace, ht, reduceCtorEq, if_false] at ha
    have hw := writeFields_fit record w 0 he ha
    rw [ht] at hw
    simp [Writer.Write, hw, writeTrace, ht]

theorem Write_sticky (w : Writer) (record : List GoString) (h : w.w.err ≠ none) :
    ∃ e, w.Write record = some (w, some e) := by
  obtain ⟨e0, he0⟩ := Option.ne_none_iff_exists'.mp h
  cases record with
  | nil =>
    refine ⟨e0, ?_⟩
    simp [Writer.Write, Writer.writeFields, WriteRune_of_err w.w _ h, he0]
  | cons field rest =>
    rcases validateField_cases w field with hv | hv
    · refine ⟨e0, ?_⟩
      have hv1 : Writer.validateField { w := w.w } field = none := hv
      simp [Writer.Write, Writer.writeFields, hv1, WriteString_of_err w.w _ h, he0]
    · refine ⟨GoError.errInvalidField, ?_⟩
      have hv1 : Writer.validateField { w := w.w } field = some GoError.errInvalidField := hv
      simp [Writer.Write, Writer.writeFields, hv1]

theorem Flush_Extends (b : BufWriter) (h : b.Healthy) :
    b.Flush.2 = none ∧ b.Extends b.Flush.1 [] ∧ b.Flush.1.buf = [] := by
  obtain ⟨h2, h1, hs, hb, hr⟩ := Flush_healthy b h
  exact ⟨h2, ⟨h1, hs, by simp [BufWriter.output, hb, hr]⟩, hb⟩

theorem WriteAll_healthy_trace (records : List (List GoString)) (w : Writer)
    (h : w.w.Healthy) :
    ∃ w1, w.WriteAll records = some (w1, (writeAllTrace records).2) ∧
      w.w.Extends w1.w (writeAllTrace records).1 ∧
      ((writeAllTrace records).2 = none → w1.w.buf = []) := by
  induction records generalizing w with
  | nil =>
    obtain ⟨h2, hx, hb⟩ := Flush_Extends w.w h
    exact ⟨{ w := w.w.Flush.1 }, by simp [Writer.WriteAll, h2, writeAllTrace],
      by simpa [writeAllTrace] using hx, fun _ => hb⟩
  | cons record rest ih =>
    obtain ⟨w1, hw, hx⟩ := Write_healthy_trace w record h
    cases ht : (writeTrace record).2 with
    | none =>
      obtain ⟨w2, hw2, hx2, hb2⟩ := ih w1 hx.1
      rw [ht] at hw
      refine ⟨w2, ?_, ?_, ?_⟩
      · simp [Writer.WriteAll, hw, hw2, writeAllTrace, ht]
      · simpa [writeAllTrace, ht] using Extends_trans _ _ _ _ _ hx hx2
      · simpa [writeAllTrace, ht] using hb2
    | some e =>
      rw [ht] at hw
      refine ⟨w1, ?_, ?_, ?_⟩
      · simp [Writer.WriteAll, hw, writeAllTrace, ht]
      · simpa [writeAllTrace, ht] using hx
      · simp [writeAllTrace, ht]

theorem WriteAll_fit_trace (records : List (List GoString)) (w : Writer)
    (he : w.w.err = none) (hf : (writeAllTrace records).2 ≠ none)
    (ha : (writeAllTrace records).1.length ≤ w.w.Available) :
    w.WriteAll records =
      some ({ w := w.w.buffer (writeAllTrace records).1 }, (writeAllTrace records).2) := by
  induction records generalizing w with
  | nil => simp [writeAllTrace] at hf
  | cons record rest ih =>
    cases ht : (writeTrace record).2 with
    | none =>
      simp only [writeAllTrace, ht, if_true, List.length_append] at ha hf
      have hw := Write_fit_trace w record he (by omega)
      rw [ht] at hw
      have hr := ih { w := w.w.buffer (writeTrace record).1 } he hf (by
        simp only [buffer_Available]; omega)
      simp [Writer.WriteAll, hw, hr, writeAllTrace, ht, buffer_buffer]
    | some e =>
      simp only [writeAllTrace, ht, reduceCtorEq, if_false] at ha
      have hw := Write_fit_trace w record he ha
      rw [ht] at hw
      simp [Writer.WriteAll, hw, writeAllTrace, ht]

theorem Error_eq (w : Writer) : w.Error = some (w, w.w.err) := by
  by_cases he : w.w.err = none
  · have := Write_fit w.w [] he (by simp)
    simp [Writer.Error, this, buffer_nil, he]
  · simp [Writer.Error, Write_of_err w.w [] he]

theorem split_at_index (record : List GoString) (k : Nat) (bad : GoString)
    (hk : record[k]? = some bad) :
    record = record.take k ++ bad :: record.drop (k + 1) ∧ (record.take k).length = k := by
  have hlt : k < record.length := by
    by_contra hge
    rw [List.getElem?_eq_none (by omega)] at hk
    exact absurd hk (by simp)
  have hb : record[k] = bad := by
    rw [List.getElem?_eq_getElem hlt] at hk
    exact Option.some.inj hk
  constructor
  · rw [← hb, ← List.drop_eq_getElem_cons hlt, List.take_append_drop]
  · simp [List.length_take, Nat.min_eq_left (Nat.le_of_lt hlt)]

theorem writeTrace_at_index (record : List GoString) (k : Nat) (bad : GoString)
    (hk : record[k]? = some bad) (hbad : ¬ ValidField bad)
    (hbefore : ValidRecord (record.take k)) :
    writeTrace record = (emittedBefore record k, some GoError.errInvalidField) := by
  obtain ⟨hsplit, hlen⟩ := split_at_index record k bad hk
  have := writeTrace_invalid (record.take k) (record.drop (k + 1)) bad hbefore hbad
  rw [← hsplit, hlen] at this
  exact this

theorem writeFields_accepted (fields : List GoString) (w w1 : Writer) (n : Nat)
    (h : w.writeFields n fields = some (w1, none)) : ValidRecord fields := by
  induction fields generalizing w n with
  | nil => intro f hf; simp at hf
  | cons field rest ih =>
    rw [Writer.writeFields] at h
    split at h
    · simp at h
    · simp at h
    · rename_i b1 hsep
      split at h
      · simp at h
      · rename_i hv
        split at h
        · simp at h
        · simp at h
        · rename_i b2 n2 hw
          intro f hf
          rcases List.mem_cons.mp hf with hf | hf
          · rw [hf]; exact (validateField_eq_none_iff _ field).mp hv
          · exact ih _ _ h f hf

theorem Write_accepted (w w1 : Writer) (record : List GoString)
    (h : w.Write record = some (w1, none)) : ValidRecord record := by
  unfold Writer.Write at h
  split at h
  · simp at h
  · simp at h
  · rename_i w2 hw
    exact writeFields_accepted record w w2 0 hw

/-! ## A Writer over a sink whose every write faults -/

theorem writeFields_faulty (fields : List GoString) (w : Writer) (n : Nat)
    (he : w.w.err = none) (hf : w.w.wr.faulty = true) (hsize : 0 < w.w.size) :
    ∃ w1 e, w.writeFields n fields = some (w1, e) ∧ w1.w.wr = w.w.wr ∧
      w1.w.size = w.w.size ∧
      ((w1.w.err ≠ none ∧ e ≠ none) ∨
        (w1.w.err = none ∧ w1.w.buf = w.w.buf ++ (loopTrace n fields).1 ∧
          e = (loopTrace n fields).2)) := by
  induction fields generalizing w n with
  | nil => exact ⟨w, none, rfl, rfl, rfl, Or.inr ⟨he, by simp [loopTrace], rfl⟩⟩
  | cons field rest ih =>
    -- the separator
    have hsep : ∃ b1 e1, (if n > 0 then
          match w.w.WriteRune UnitSep with
          | none => none
          | some r => some (r.1, r.2.2)
        else some (w.w, none)) = some (b1, e1) ∧ b1.wr = w.w.wr ∧ b1.size = w.w.size ∧
        ((e1 ≠ none ∧ b1.err ≠ none) ∨
          (e1 = none ∧ b1.err = none ∧ b1.buf = w.w.buf ++ (if n > 0 then [0x1F] else []))) := by
      by_cases hn : n > 0
      · obtain ⟨hwr, hsz, hc⟩ := WriteByte_faulty w.w 0x1F he hf
        refine ⟨(w.w.WriteByte 0x1F).1, (w.w.WriteByte 0x1F).2, ?_, hwr, hsz, ?_⟩
        · simp [hn, WriteRune_UnitSep]
        · rcases hc with ⟨h1, h2, h3⟩ | ⟨h1, h2⟩
          · exact Or.inr ⟨h1, h2, by simpa [hn] using h3⟩
          · exact Or.inl ⟨h1, h2⟩
      · exact ⟨w.w, none, by simp [hn], rfl, rfl, Or.inr ⟨rfl, he, by simp [hn]⟩⟩
    obtain ⟨b1, e1, hs, hwr1, hsz1, hc1⟩ := hsep
    rw [Writer.writeFields]
    simp only [hs]
    rcases hc1 with ⟨h1, h2⟩ | ⟨h1, h2, h3⟩
    · obtain ⟨e0, he0⟩ := Option.ne_none_iff_exists'.mp h1
      subst he0
      exact ⟨{ w := b1 }, some e0, rfl, hwr1, hsz1, Or.inl ⟨h2, by simp⟩⟩
    · subst h1
      rcases validateField_cases { w := b1 } field with hv | hv
      · have hv0 : Writer.validateField (NewWriter { received := [], faulty := false }) field
            = none := hv
        obtain ⟨b2, n2, e2, hw, hwr2, hsz2, hc2⟩ :=
          WriteString_faulty b1 field h2 (by rw [hwr1]; exact hf) (by rw [hsz1]; exact hsize)
        rcases hc2 with ⟨k1, k2, k3⟩ | ⟨k1, k2⟩
        · subst k1
          obtain ⟨w3, e3, hw3, hwr3, hsz3, hc3⟩ := ih { w := b2 } (n + 1) k2
            (by rw [hwr2, hwr1]; exact hf) (by rw [hsz2, hsz1]; exact hsize)
          refine ⟨w3, e3, ?_, by rw [hwr3, hwr2, hwr1], by rw [hsz3, hsz2, hsz1], ?_⟩
          · simp only [hv, hw, hw3]
          · rcases hc3 with hc3 | ⟨m1, m2, m3⟩
            · exact Or.inl hc3
            · refine Or.inr ⟨m1, ?_, ?_⟩
              · simp only [m2, k3, h3, loopTrace, hv0, ne_eq, not_true_eq_false, if_false,
                  List.append_assoc]
              · simp only [m3, loopTrace, hv0, ne_eq, not_true_eq_false, if_false]
        · obtain ⟨e0, he0⟩ := Option.ne_none_iff_exists'.mp k1
          subst he0
          refine ⟨{ w := b2 }, some e0, ?_, by rw [hwr2, hwr1], by rw [hsz2, hsz1],
            Or.inl ⟨k2, by simp⟩⟩
          simp only [hv, hw]
      · have hv0 : Writer.validateField (NewWriter { received := [], faulty := false }) field
            = some GoError.errInvalidField := hv
        refine ⟨{ w := b1 }, some GoError.errInvalidField, ?_, hwr1, hsz1, Or.inr ⟨h2, ?_, ?_⟩⟩
        · simp only [hv]
        · simp [h3, loopTrace, hv0]
        · simp [loopTrace, hv0]

theorem Write_faulty_trace (w : Writer) (record : List GoString)
    (he : w.w.err = none) (hf : w.w.wr.faulty = true) (hsize : 0 < w.w.size) :
    ∃ w1 e, w.Write record = some (w1, e) ∧ w1.w.wr = w.w.wr ∧ w1.w.size = w.w.size ∧
      (w1.w.err ≠ none ∨
        (w1.w.err = none ∧ w1.w.buf = w.w.buf ++ (writeTrace record).1)) := by
  obtain ⟨w1, e, hw, hwr, hsz, hc⟩ := writeFields_faulty record w 0 he hf hsize
  rcases hc with ⟨h1, h2⟩ | ⟨h1, h2, h3⟩
  · obtain ⟨e0, he0⟩ := Option.ne_none_iff_exists'.mp h2
    subst he0
    exact ⟨w1, some e0, by simp [Writer.Write, hw], hwr, hsz, Or.inl h1⟩
  · cases ht : (loopTrace 0 record).2 with
    | none =>
      rw [ht] at h3
      subst h3
      obtain ⟨hwr2, hsz2, hc2⟩ := WriteByte_faulty w1.w 0x1E h1 (by rw [hwr]; exact hf)
      refine ⟨{ w := (w1.w.WriteByte 0x1E).1 }, (w1.w.WriteByte 0x1E).2, ?_,
        by rw [hwr2, hwr], by rw [hsz2, hsz], ?_⟩
      · simp [Writer.Write, hw, WriteRune_RecordSep]
      · rcases hc2 with ⟨_, k2, k3⟩ | ⟨_, k2⟩
        · exact Or.inr ⟨k2, by simp [k3, h2, writeTrace, ht]⟩
        · exact Or.inl k2
    | some e0 =>
      rw [ht] at h3
      subst h3
      exact ⟨w1, some e0, by simp [Writer.Write, hw], hwr, hsz,
        Or.inr ⟨h1, by simp [h2, writeTrace, ht]⟩⟩

theorem writeTrace_ne_nil (record : List GoString)
    (hfirst : ∀ field, record.head? = some field → ValidField field) :
    (writeTrace record).1 ≠ [] := by
  cases record with
  | nil => simp [writeTrace, loopTrace]
  | cons field rest =>
    have hv := validateField_new_eq_none field (hfirst field rfl)
    cases rest with
    | nil => simp [writeTrace, loopTrace, hv]
    | cons next rest =>
      have h1 : (loopTrace 1 (next :: rest)).1 ≠ [] := by
        simp only [loopTrace]
        split <;> simp
      have h0 : (loopTrace 0 (field :: next :: rest)).1 =
          field ++ (loopTrace 1 (next :: rest)).1 := by
        rw [loopTrace]
        simp only [hv, ne_eq, not_true_eq_false, if_false]
        simp
      unfold writeTrace
      split
      · simp
      · rw [h0]
        simp [h1]

/-! ## A Writer with a sticky error -/

theorem Flush_sticky (w : Writer) (h : w.w.err ≠ none) : w.Flush = w := by
  simp [Writer.Flush, Flush_of_err w.w h]

theorem WriteAll_sticky (w : Writer) (records : List (List GoString)) (h : w.w.err ≠ none) :
    ∃ e, w.WriteAll records = some (w, some e) := by
  obtain ⟨e0, he0⟩ := Option.ne_none_iff_exists'.mp h
  cases records with
  | nil => exact ⟨e0, by simp [Writer.WriteAll, Flush_of_err w.w h, he0]⟩
  | cons record rest =>
    obtain ⟨e, hw⟩ := Write_sticky w record h
    exact ⟨e, by simp [Writer.WriteAll, hw]⟩

theorem session_sticky (ops : List Op) (w : Writer) (h : w.w.err ≠ none) :
    ∃ results, w.session ops = some (w, results) ∧
      List.Forall₂ (fun op result => op = Op.flush ∨ result ≠ none) ops results := by
  induction ops with
  | nil => exact ⟨[], rfl, List.Forall₂.nil⟩
  | cons op ops ih =>
    obtain ⟨results, hs, hall⟩ := ih
    have hcall : ∃ result, w.call op = some (w, result) ∧ (op = Op.flush ∨ result ≠ none) := by
      cases op with
      | write record =>
        obtain ⟨e, hw⟩ := Write_sticky w record h
        exact ⟨some e, hw, Or.inr (by simp)⟩
      | writeAll records =>
        obtain ⟨e, hw⟩ := WriteAll_sticky w records h
        exact ⟨some e, hw, Or.inr (by simp)⟩
      | flush => exact ⟨none, by simp [Writer.call, Flush_sticky w h], Or.inl rfl⟩
      | error => exact ⟨w.w.err, by simp [Writer.call, Error_eq], Or.inr h⟩
    obtain ⟨result, hc, hr⟩ := hcall
    exact ⟨result :: results, by simp [Writer.session, hc, hs], List.Forall₂.cons hr hall⟩

/-! ## Every operation returns: the fuel is enough -/

theorem Writer_Write_total (w : Writer) (record : List GoString) (hsize : 0 < w.w.size) :
    ∃ w1 e, w.Write record = some (w1, e) ∧ w1.w.size = w.w.size := by
  by_cases he : w.w.err = none
  · cases hf : w.w.wr.faulty
    · obtain ⟨w1, h, hx⟩ := Write_healthy_trace w record ⟨he, hf⟩
      exact ⟨_, _, h, hx.2.1⟩
    · obtain ⟨w1, e, h, _, hsz, _⟩ := Write_faulty_trace w record he hf hsize
      exact ⟨_, _, h, hsz⟩
  · obtain ⟨e, h⟩ := Write_sticky w record he
    exact ⟨_, _, h, rfl⟩

theorem Writer_WriteAll_total (records : List (List GoString)) (w : Writer)
    (hsize : 0 < w.w.size) :
    ∃ r, w.WriteAll records = some r := by
  induction records generalizing w with
  | nil => exact ⟨_, rfl⟩
  | cons record rest ih =>
    obtain ⟨w1, e, hr, hsz⟩ := Writer_Write_total w record hsize
    cases e with
    | none =>
      obtain ⟨r2, hr2⟩ := ih w1 (by rw [hsz]; exact hsize)
      exact ⟨r2, by simp [Writer.WriteAll, hr, hr2]⟩
    | some e => exact ⟨(w1, some e), by simp [Writer.WriteAll, hr]⟩

theorem readLine_length (c : Byte) (input : List Byte) :
    (readLine (c :: input)).2.length < (c :: input).length := by
  induction input generalizing c with
  | nil =>
    simp only [readLine]
    split <;> simp
  | cons d input ih =>
    have := ih d
    rw [readLine]
    split
    · simp
    · simp only [List.length_cons] at this ⊢
      omega

theorem readFuel_total (fuel : Nat) (r : Reader) (h : r.input.length < fuel) :
    ∃ x, Reader.readFuel fuel r = some x ∧ x.1.input.length ≤ r.input.length ∧
      (∀ fields, x.2 = ReadResult.record fields → x.1.input.length < r.input.length) := by
  induction fuel generalizing r with
  | zero => omega
  | succ fuel ih =>
    rw [Reader.readFuel]
    by_cases hin : r.input = []
    · exact ⟨(r, ReadResult.eof), by simp [hin], le_refl _, by simp⟩
    · obtain ⟨c, rest, hcr⟩ := List.exists_cons_of_ne_nil hin
      have hlt := readLine_length c rest
      rw [← hcr] at hlt
      have hnext : ∀ n : Nat, ∃ x, Reader.readFuel fuel
          { r with input := (readLine r.input).2, numLine := n } = some x ∧
          x.1.input.length ≤ r.input.length ∧
          (∀ fields, x.2 = ReadResult.record fields → x.1.input.length < r.input.length) := by
        intro n
        obtain ⟨x, hx, hle, hrec⟩ := ih { r with input := (readLine r.input).2, numLine := n }
          (by simp only; omega)
        exact ⟨x, hx, by simp only at hle; omega, fun f hf => by
          have := hrec f hf
          simp only at this
          omega⟩
      simp only [hin, if_false]
      split
      · exact hnext _
      · split
        · exact hnext _
        · split_ifs
          all_goals exact ⟨_, rfl, by simp only; omega, fun _ _ => by simp only; omega⟩

theorem Read_total (r : Reader) :
    ∃ x, r.Read = some x ∧ x.1.input.length ≤ r.input.length ∧
      (∀ fields, x.2 = ReadResult.record fields → x.1.input.length < r.input.length) :=
  readFuel_total _ r (Nat.lt_succ_self _)

theorem readAllFuel_total (fuel : Nat) (r : Reader) (records : List (List GoString))
    (h : r.input.length < fuel) : ∃ x, Reader.readAllFuel fuel r records = some x := by
  induction fuel generalizing r records with
  | zero => omega
  | succ fuel ih =>
    obtain ⟨x, hx, hle, hrec⟩ := Read_total r
    obtain ⟨r1, res⟩ := x
    rw [Reader.readAllFuel, hx]
    cases res with
    | eof => exact ⟨_, rfl⟩
    | fault e => exact ⟨_, rfl⟩
    | record fields =>
      have := hrec fields rfl
      exact ih r1 _ (by simp only at this; omega)

theorem ReadAll_total (r : Reader) : ∃ x, r.ReadAll = some x := by
  obtain ⟨x, hx⟩ := readAllFuel_total (r.input.length + 1) r [] (Nat.lt_succ_self _)
  exact ⟨x.2, by simp [Reader.ReadAll, hx]⟩

/-! ## The decoder on the encoding of one record -/

theorem readLine_terminated (line rest : List Byte) (h : ∀ c ∈ line, c ≠ 0x1E) :
    readLine (line ++ 0x1E :: rest) = (line, rest) := by
  have hR : byte (uint32 RecordSep) = 0x1E := by decide
  induction line with
  | nil => simp [readLine, hR]
  | cons c line ih =>
    have hc : c ≠ 0x1E := h c (List.mem_cons_self _ _)
    have := ih (fun d hd => h d (List.mem_cons_of_mem _ hd))
    simp [readLine, hR, hc, this]

theorem splitFields_ne_nil (line : List Byte) : splitFields line ≠ [] := by
  induction line with
  | nil => simp [splitFields]
  | cons c line ih =>
    simp only [splitFields]
    split
    · simp
    · split <;> simp

theorem splitFields_field (field : GoString) (h : ∀ c ∈ field, c ≠ 0x1F) :
    splitFields field = [field] := by
  have hU : byte (uint32 UnitSep) = 0x1F := by decide
  induction field with
  | nil => simp [splitFields]
  | cons c field ih =>
    have hc : c ≠ 0x1F := h c (List.mem_cons_self _ _)
    have := ih (fun d hd => h d (List.mem_cons_of_mem _ hd))
    simp [splitFields, hU, hc, this]

theorem splitFields_append (field more : List Byte) (h : ∀ c ∈ field, c ≠ 0x1F) :
    splitFields (field ++ 0x1F :: more) = field :: splitFields more := by
  have hU : byte (uint32 UnitSep) = 0x1F := by decide
  induction field with
  | nil => simp [splitFields, hU]
  | cons c field ih =>
    have hc : c ≠ 0x1F := h c (List.mem_cons_self _ _)
    have := ih (fun d hd => h d (List.mem_cons_of_mem _ hd))
    simp [splitFields, hU, hc, this]

theorem splitFields_joinFields (rest : List GoString) (field : GoString)
    (h : ∀ f ∈ field :: rest, ∀ c ∈ f, c ≠ 0x1F) :
    splitFields (joinFields (field :: rest)) = field :: rest := by
  induction rest generalizing field with
  | nil =>
    simp only [joinFields]
    exact splitFields_field field (h field (List.mem_cons_self _ _))
  | cons next rest ih =>
    have hj : joinFields (field :: next :: rest) = field ++ 0x1F :: joinFields (next :: rest) := by
      simp [joinFields]
    rw [hj, splitFields_append field _ (h field (List.mem_cons_self _ _)),
      ih next (fun f hf => h f (List.mem_cons_of_mem _ hf))]

theorem mem_sepFields (rest : List GoString) (c : Byte) (h : c ∈ sepFields rest) :
    c = 0x1F ∨ ∃ f ∈ rest, c ∈ f := by
  induction rest with
  | nil => simp [sepFields] at h
  | cons field rest ih =>
    simp only [sepFields, List.mem_cons, List.mem_append] at h
    rcases h with (h | h) | h
    · exact Or.inl h
    · exact Or.inr ⟨field, List.mem_cons_self _ _, h⟩
    · rcases ih h with h1 | ⟨f, hf, hc⟩
      · exact Or.inl h1
      · exact Or.inr ⟨f, List.mem_cons_of_mem _ hf, hc⟩

theorem mem_joinFields (record : List GoString) (c : Byte) (h : c ∈ joinFields record) :
    c = 0x1F ∨ ∃ f ∈ record, c ∈ f := by
  cases record with
  | nil => simp [joinFields] at h
  | cons field rest =>
    rw [joinFields_cons, List.mem_append] at h
    rcases h with h | h
    · exact Or.inr ⟨field, List.mem_cons_self _ _, h⟩
    · rcases mem_sepFields rest c h with h1 | ⟨f, hf, hc⟩
      · exact Or.inl h1
      · exact Or.inr ⟨f, List.mem_cons_of_mem _ hf, hc⟩

theorem joinFields_head (record : List GoString) (hne : record ≠ []) (hne1 : record ≠ [[]])
    (hcomment : ∀ field, record.head? = some field → field.head? ≠ some 0x10) :
    joinFields record ≠ [] ∧ (joinFields record).head? ≠ some 0x10 := by
  cases record with
  | nil => exact absurd rfl hne
  | cons field rest =>
    rw [joinFields_cons]
    cases field with
    | nil =>
      cases rest with
      | nil => exact absurd rfl hne1
      | cons next rest => simp [sepFields]
    | cons c field =>
      have := hcomment (c :: field) rfl
      simp only [List.head?_cons, ne_eq, Option.some.injEq] at this
      simp [this]

theorem WriteAll_valid_stream (w : Writer) (records : List (List GoString))
    (hsink : w.w.wr.faulty = false) (herr : w.w.err = none)
    (hvalid : ∀ record ∈ records, ValidRecord record) :
    (∃ w1, w.WriteAll records = some (w1, none) ∧
      w1.w.wr.received = w.w.wr.received ++ w.w.buf ++ encodeAll records ∧
      w1.w.buf = [] ∧ w1.w.err = none) ∧
    writeAllToBuffer records = some (encodeAll records, none) := by
  have key : ∀ w : Writer, w.w.wr.faulty = false → w.w.err = none →
      ∃ w1, w.WriteAll records = some (w1, none) ∧
        w1.w.wr.received = w.w.wr.received ++ w.w.buf ++ encodeAll records ∧
        w1.w.buf = [] ∧ w1.w.err = none := by
    intro w hsink herr
    obtain ⟨w1, hw, hx, hb⟩ := WriteAll_healthy_trace records w ⟨herr, hsink⟩
    have ht := writeAllTrace_valid records hvalid
    rw [ht] at hw hx hb
    refine ⟨w1, hw, ?_, hb rfl, hx.1.1⟩
    have ho := hx.2.2
    simp only [BufWriter.output, hb rfl, List.append_nil] at ho
    exact ho
  refine ⟨key w hsink herr, ?_⟩
  obtain ⟨w1, hw, hr, _, _⟩ := key (NewWriter { received := [], faulty := false }) rfl rfl
  simp only [writeAllToBuffer, hw, hr]
  simp [NewWriter, bufioNewWriter]

theorem WriteAll_stops (pre post : List (List GoString)) (bad : List GoString) (w : Writer)
    (hbad : ¬ ValidRecord bad) :
    w.WriteAll (pre ++ bad :: post) = w.WriteAll (pre ++ [bad]) := by
  induction pre generalizing w with
  | nil =>
    simp only [List.nil_append, Writer.WriteAll]
    cases hw : w.Write bad with
    | none => rfl
    | some r =>
      obtain ⟨w1, e⟩ := r
      cases e with
      | none => exact absurd (Write_accepted w w1 bad hw) hbad
      | some e => rfl
  | cons record rest ih =>
    simp only [List.cons_append, Writer.WriteAll]
    cases hw : w.Write record with
    | none => rfl
    | some r =>
      obtain ⟨w1, e⟩ := r
      cases e with
      | none => exact ih w1
      | some e => rfl

theorem Read_one_record (record : List GoString) (fpr : Int) (reuse : Bool) (n : Nat)
    (hfpr : fpr = -1 ∨ fpr = 0 ∨ fpr = record.length)
    (hvalid : ValidRecord record) (hne : record ≠ []) (hne1 : record ≠ [[]])
    (hcomment : ∀ field, record.head? = some field → field.head? ≠ some 0x10) :
    ∃ fpr1, Reader.Read (Reader.mk fpr false reuse (joinFields record ++ [0x1E]) n) =
      some (Reader.mk fpr1 false reuse [] (n + countNewlines (joinFields record) + 1),
        ReadResult.record record) := by
  have hC : byte (uint32 Comment) = 0x10 := by decide
  have hline : readLine (joinFields record ++ [0x1E]) = (joinFields record, []) := by
    apply readLine_terminated
    intro c hc
    rcases mem_joinFields record c hc with h | ⟨f, hf, hcf⟩
    · rw [h]; decide
    · exact (hvalid f hf c hcf).2.1
  obtain ⟨hnil, hhead⟩ := joinFields_head record hne hne1 hcomment
  have hsplit : splitFields (joinFields record) = record := by
    cases record with
    | nil => exact absurd rfl hne
    | cons field rest =>
      exact splitFields_joinFields rest field (fun f hf c hc => (hvalid f hf c hc).2.2)
  have hin : joinFields record ++ [0x1E] ≠ [] := by simp
  unfold Reader.Read
  simp only [List.length_append, List.length_singleton]
  rw [Reader.readFuel]
  simp only [hin, if_false, hline, hC, hhead, hnil, hsplit, Bool.false_eq_true]
  by_cases h0 : fpr = 0
  · exact ⟨record.length, by simp [h0]⟩
  · refine ⟨fpr, ?_⟩
    have hcond : ¬ (fpr ≥ 0 ∧ (record.length : Int) ≠ fpr) := by
      rintro ⟨hge, hneq⟩
      rcases hfpr with h | h | h
      · omega
      · exact h0 h
      · exact hneq h.symm
    simp [h0, hcond]

/-! ## The decoder reads the lines of the stream -/

theorem linesOf_cons_readLine (c : Byte) (rest : List Byte) :
    linesOf (c :: rest) = (readLine (c :: rest)).1 :: linesOf (readLine (c :: rest)).2 := by
  have hR : byte (uint32 RecordSep) = 0x1E := by decide
  induction rest generalizing c with
  | nil =>
    simp only [linesOf, readLine, hR]
    split <;> rfl
  | cons d rest ih =>
    rw [linesOf, readLine, hR]
    split
    · rfl
    · rw [ih d]

theorem skipped_iff (line : List Byte) :
    skipped line = true ↔ (line.head? = some (byte (uint32 Comment)) ∨ line = []) := by
  have hC : byte (uint32 Comment) = 0x10 := by decide
  simp [skipped, hC]

theorem readFuel_decodeLines (fuel : Nat) (r : Reader) (h : r.input.length < fuel) :
    ∃ r1 res, Reader.readFuel fuel r = some (r1, res) ∧
      r1.TrimLeadingSpace = r.TrimLeadingSpace ∧ r1.input.length ≤ r.input.length ∧
      ∀ records, decodeLines r.TrimLeadingSpace r.FieldsPerRecord r.numLine (linesOf r.input)
          records =
        match res with
        | ReadResult.eof => (records, none)
        | ReadResult.fault e => ([], some e)
        | ReadResult.record fields =>
          decodeLines r1.TrimLeadingSpace r1.FieldsPerRecord r1.numLine (linesOf r1.input)
            (records ++ [fields]) := by
  induction fuel generalizing r with
  | zero => omega
  | succ fuel ih =>
    obtain ⟨fpr, trim, reuse, input, n⟩ := r
    cases input with
    | nil =>
      refine ⟨_, ReadResult.eof, by simp [Reader.readFuel], rfl, le_refl _, ?_⟩
      intro records
      simp [linesOf, decodeLines]
    | cons c rest =>
      have hlt := readLine_length c rest
      have hlines := linesOf_cons_readLine c rest
      simp only [List.length_cons] at h hlt
      rw [Reader.readFuel]
      simp only [reduceCtorEq, if_false]
      by_cases hs : skipped (readLine (c :: rest)).1 = true
      · -- a comment line or a blank line: the decoder restarts on the next line
        obtain ⟨r1, res, hr, ht, hl, hd⟩ := ih
          (Reader.mk fpr trim reuse (readLine (c :: rest)).2
            (n + countNewlines (readLine (c :: rest)).1 + 1)) (by simp only; omega)
        refine ⟨r1, res, ?_, ht, by simp only at hl ⊢; simp only [List.length_cons]; omega, ?_⟩
        · have hor := (skipped_iff _).mp hs
          by_cases h1 : (readLine (c :: rest)).1.head? = some (byte (uint32 Comment))
          · rw [if_pos h1]
            exact hr
          · have h2 : (readLine (c :: rest)).1 = [] := hor.resolve_left h1
            rw [if_neg h1, if_pos h2]
            exact hr
        · intro records
          rw [← hd records]
          simp only [hlines]
          rw [decodeLines]
          simp only [hs, if_true]
      · have hns := (not_congr (skipped_iff _)).mp hs
        have hc : ¬ (readLine (c :: rest)).1.head? = some (byte (uint32 Comment)) :=
          fun h => hns (Or.inl h)
        have hb : ¬ (readLine (c :: rest)).1 = [] := fun h => hns (Or.inr h)
        have hf : (if trim = true then (splitFields (readLine (c :: rest)).1).map trimLeadingSpace
            else splitFields (readLine (c :: rest)).1) = fieldsOf trim (readLine (c :: rest)).1 := rfl
        simp only [hc, hb, if_false, hf]
        have hs1 : skipped (readLine (c :: rest)).1 = false := by simpa using hs
        by_cases h0 : fpr = 0
        · refine ⟨Reader.mk (fieldsOf trim (readLine (c :: rest)).1).length trim reuse
              (readLine (c :: rest)).2 (n + countNewlines (readLine (c :: rest)).1 + 1),
            ReadResult.record (fieldsOf trim (readLine (c :: rest)).1), ?_, rfl, ?_, ?_⟩
          · simp only [h0, if_true]
          · simp only [List.length_cons]; omega
          · intro records
            simp only [hlines]
            rw [decodeLines]
            simp [hs1, h0]
        · by_cases hv : fpr ≥ 0 ∧ ((fieldsOf trim (readLine (c :: rest)).1).length : Int) ≠ fpr
          · refine ⟨Reader.mk fpr trim reuse (readLine (c :: rest)).2
                (n + countNewlines (readLine (c :: rest)).1 + 1),
              ReadResult.fault { StartLine := n + 1,
                                 Line := n + 1 + countNewlines (readLine (c :: rest)).1,
                                 Err := ParseErrorKind.ErrFieldCount }, ?_, rfl, ?_, ?_⟩
            · rw [if_neg h0, if_pos hv]
            · simp only [List.length_cons]; omega
            · intro records
              simp only [hlines]
              rw [decodeLines]
              simp only [hs1, Bool.false_eq_true, if_false]
              rw [if_neg h0, if_pos hv]
          · refine ⟨Reader.mk fpr trim reuse (readLine (c :: rest)).2
                (n + countNewlines (readLine (c :: rest)).1 + 1),
              ReadResult.record (fieldsOf trim (readLine (c :: rest)).1), ?_, rfl, ?_, ?_⟩
            · rw [if_neg h0, if_neg hv]
            · simp only [List.length_cons]; omega
            · intro records
              simp only [hlines]
              rw [decodeLines]
              simp only [hs1, Bool.false_eq_true, if_false]
              rw [if_neg h0, if_neg hv]

theorem readAllFuel_decodeLines (fuel : Nat) (r : Reader) (records : List (List GoString))
    (h : r.input.length < fuel) :
    ∃ r1, Reader.readAllFuel fuel r records =
      some (r1, decodeLines r.TrimLeadingSpace r.FieldsPerRecord r.numLine (linesOf r.input)
        records) := by
  induction fuel generalizing r records with
  | zero => omega
  | succ fuel ih =>
    obtain ⟨r1, res, hr, _, _, hd⟩ := readFuel_decodeLines (r.input.length + 1) r
      (Nat.lt_succ_self _)
    obtain ⟨x, hx, _, hrec⟩ := Read_total r
    have hread : r.Read = some (r1, res) := hr
    rw [hread] at hx
    have hx1 : x = (r1, res) := (Option.some.inj hx).symm
    subst hx1
    rw [Reader.readAllFuel, hread, hd records]
    cases res with
    | eof => exact ⟨r1, rfl⟩
    | fault e => exact ⟨r1, rfl⟩
    | record fields =>
      have hlt := hrec fields rfl
      exact ih r1 (records ++ [fields]) (by simp only at hlt; omega)

theorem ReadAll_eq_decodeLines (r : Reader) :
    r.ReadAll = some (decodeLines r.TrimLeadingSpace r.FieldsPerRecord r.numLine
      (linesOf r.input) []) := by
  obtain ⟨r1, h⟩ := readAllFuel_decodeLines (r.input.length + 1) r [] (Nat.lt_succ_self _)
  simp [Reader.ReadAll, h]

/-! ## decode-all over the lines: the records and the fault -/

theorem candidatesOf_cons (trim : Bool) (line : List Byte) (lines : List (List Byte)) :
    candidatesOf trim (line :: lines) =
      if skipped line then candidatesOf trim lines
      else fieldsOf trim line :: candidatesOf trim lines := by
  unfold candidatesOf
  cases hs : skipped line <;> simp [List.filter, hs]

theorem decodeLines_ok (trim : Bool) (lines : List (List Byte)) (fpr : Int) (n : Nat)
    (records : List (List GoString)) (h : countsOk fpr (candidatesOf trim lines) = true) :
    decodeLines trim fpr n lines records = (records ++ candidatesOf trim lines, none) := by
  induction lines generalizing fpr n records with
  | nil => simp [decodeLines, candidatesOf]
  | cons line lines ih =>
    rw [candidatesOf_cons] at h ⊢
    rw [decodeLines]
    cases hs : skipped line with
    | true =>
      simp only [hs, if_true] at h ⊢
      exact ih fpr _ records h
    | false =>
      simp only [hs, Bool.false_eq_true, if_false] at h ⊢
      rw [countsOk] at h
      by_cases h0 : fpr = 0
      · rw [if_pos h0] at h ⊢
        rw [ih _ _ _ h]
        simp
      · rw [if_neg h0] at h ⊢
        by_cases hv : fpr ≥ 0 ∧ ((fieldsOf trim line).length : Int) ≠ fpr
        · rw [if_pos hv] at h
          exact absurd h (by simp)
        · rw [if_neg hv] at h ⊢
          rw [ih _ _ _ h]
          simp

theorem decodeLines_fault (trim : Bool) (lines : List (List Byte)) (fpr : Int) (n : Nat)
    (records : List (List GoString)) (h : countsOk fpr (candidatesOf trim lines) = false) :
    ∃ e, decodeLines trim fpr n lines records = ([], some e) ∧
      e.Err = ParseErrorKind.ErrFieldCount ∧ n + 1 ≤ e.StartLine ∧ e.StartLine ≤ e.Line := by
  induction lines generalizing fpr n records with
  | nil => simp [candidatesOf, countsOk] at h
  | cons line lines ih =>
    rw [candidatesOf_cons] at h
    rw [decodeLines]
    cases hs : skipped line with
    | true =>
      rw [hs, if_pos rfl] at h
      rw [if_pos rfl]
      obtain ⟨e, he, hk, h1, h2⟩ := ih fpr (n + countNewlines line + 1) records h
      exact ⟨e, he, hk, by omega, h2⟩
    | false =>
      rw [hs, if_neg (by simp)] at h
      rw [if_neg (by simp)]
      rw [countsOk] at h
      by_cases h0 : fpr = 0
      · rw [if_pos h0] at h ⊢
        obtain ⟨e, he, hk, h1, h2⟩ := ih _ (n + countNewlines line + 1) _ h
        exact ⟨e, he, hk, by omega, h2⟩
      · rw [if_neg h0] at h ⊢
        by_cases hv : fpr ≥ 0 ∧ ((fieldsOf trim line).length : Int) ≠ fpr
        · rw [if_pos hv]
          exact ⟨_, rfl, rfl, le_refl _, by simp⟩
        · rw [if_neg hv] at h ⊢
          obtain ⟨e, he, hk, h1, h2⟩ := ih _ (n + countNewlines line + 1) _ h
          exact ⟨e, he, hk, by omega, h2⟩

theorem ReadAll_ok (r : Reader)
    (h : countsOk r.FieldsPerRecord (candidates r.TrimLeadingSpace r.input) = true) :
    r.ReadAll = some (candidates r.TrimLeadingSpace r.input, none) := by
  rw [ReadAll_eq_decodeLines, decodeLines_ok _ _ _ _ _ h]
  simp [candidates]

theorem ReadAll_fault (r : Reader)
    (h : countsOk r.FieldsPerRecord (candidates r.TrimLeadingSpace r.input) = false) :
    ∃ e, r.ReadAll = some ([], some e) ∧ e.Err = ParseErrorKind.ErrFieldCount ∧
      r.numLine + 1 ≤ e.StartLine ∧ e.StartLine ≤ e.Line := by
  obtain ⟨e, he, hk⟩ := decodeLines_fault r.TrimLeadingSpace (linesOf r.input)
    r.FieldsPerRecord r.numLine [] h
  exact ⟨e, by rw [ReadAll_eq_decodeLines, he], hk⟩

theorem ReadAll_cases (r : Reader) (records : List (List GoString)) (err : Option ParseError)
    (h : r.ReadAll = some (records, err)) :
    (err = none ∧ records = candidates r.TrimLeadingSpace r.input ∧
        countsOk r.FieldsPerRecord (candidates r.TrimLeadingSpace r.input) = true) ∨
    (∃ e, err = some e ∧ records = [] ∧ e.Err = ParseErrorKind.ErrFieldCount ∧
        countsOk r.FieldsPerRecord (candidates r.TrimLeadingSpace r.input) = false) := by
  cases hc : countsOk r.FieldsPerRecord (candidates r.TrimLeadingSpace r.input) with
  | true =>
    rw [ReadAll_ok r hc] at h
    simp only [Option.some.injEq, Prod.mk.injEq] at h
    exact Or.inl ⟨h.2.symm, h.1.symm, rfl⟩
  | false =>
    obtain ⟨e, he, hk, _⟩ := ReadAll_fault r hc
    rw [he] at h
    simp only [Option.some.injEq, Prod.mk.injEq] at h
    exact Or.inr ⟨e, h.2.symm, h.1.symm, hk, rfl⟩

/-! ## The reference parse -/

theorem splitFields_eq_splitOn (line : List Byte) : splitFields line = line.splitOn 0x1F := by
  have hU : byte (uint32 UnitSep) = 0x1F := by decide
  induction line with
  | nil => rfl
  | cons c line ih =>
    rw [splitFields, List.splitOn, List.splitOnP_cons, hU]
    by_cases hc : c = 0x1F
    · simp only [hc, if_true, beq_self_eq_true]
      rw [ih]
      rfl
    · have hb : (c == 0x1F) = false := by simpa using hc
      simp only [hc, if_false, hb, Bool.false_eq_true]
      rw [ih]
      cases hsp : List.splitOn 0x1F line with
      | nil => exact absurd hsp (List.splitOnP_ne_nil _ _)
      | cons p ps =>
        have : List.splitOnP (fun x => x == 0x1F) line = p :: ps := hsp
        rw [this]
        rfl

theorem splitOn_linesOf (input : List Byte) :
    input.splitOn 0x1E = linesOf input ++ [[]] ∨ input.splitOn 0x1E = linesOf input := by
  induction input with
  | nil => left; rfl
  | cons c input ih =>
    rw [List.splitOn, List.splitOnP_cons, linesOf]
    by_cases hc : c = 0x1E
    · simp only [hc, if_true, beq_self_eq_true]
      rcases ih with h | h
      · left
        have : List.splitOnP (fun x => x == 0x1E) input = linesOf input ++ [[]] := h
        rw [this]; rfl
      · right
        have : List.splitOnP (fun x => x == 0x1E) input = linesOf input := h
        rw [this]
    · have hb : (c == 0x1E) = false := by simpa using hc
      simp only [hc, if_false, hb, Bool.false_eq_true]
      rcases ih with h | h
      · have h1 : List.splitOnP (fun x => x == 0x1E) input = linesOf input ++ [[]] := h
        rw [h1]
        cases hl : linesOf input with
        | nil => right; rfl
        | cons l ls => left; rfl
      · have h1 : List.splitOnP (fun x => x == 0x1E) input = linesOf input := h
        rw [h1]
        cases hl : linesOf input with
        | nil =>
          rw [hl] at h1
          exact absurd h1 (List.splitOnP_ne_nil _ _)
        | cons l ls => right; rfl

theorem referenceParse_eq_candidates (input : List Byte) :
    referenceParse input = candidates false input := by
  have hkeep : ∀ piece : List Byte,
      (!(piece.isEmpty || piece.head? == some 0x10)) = !skipped piece := by
    intro piece
    cases piece with
    | nil => rfl
    | cons c piece =>
      simp only [skipped, List.isEmpty_cons, List.head?_cons, Bool.false_or, reduceCtorEq,
        or_false]
      by_cases h : c = 0x10
      · simp [h]
      · simp [h]
  have hsplit : (fun piece : List Byte => piece.splitOn 0x1F) = fieldsOf false := by
    funext piece
    simp [fieldsOf, splitFields_eq_splitOn]
  have hfilter : (input.splitOn 0x1E).filter (fun piece => !skipped piece) =
      (linesOf input).filter (fun piece => !skipped piece) := by
    rcases splitOn_linesOf input with h | h
    · rw [h, List.filter_append]
      simp [skipped]
    · rw [h]
  unfold referenceParse candidates candidatesOf
  simp only [hkeep, hsplit, hfilter]

theorem countsOk_neg (fpr : Int) (records : List (List GoString)) (h : fpr < 0) :
    countsOk fpr records = true := by
  induction records with
  | nil => rfl
  | cons record rest ih =>
    rw [countsOk]
    have h0 : ¬ fpr = 0 := by omega
    have hv : ¬ (fpr ≥ 0 ∧ (record.length : Int) ≠ fpr) := by omega
    rw [if_neg h0, if_neg hv]
    exact ih

/-! ## The field-count policy -/

theorem fieldsOf_ne_nil (trim : Bool) (line : List Byte) : fieldsOf trim line ≠ [] := by
  unfold fieldsOf
  cases trim
  · simpa using splitFields_ne_nil line
  · simpa using splitFields_ne_nil line

theorem candidatesOf_ne_nil (trim : Bool) (lines : List (List Byte)) :
    ∀ record ∈ candidatesOf trim lines, record ≠ [] := by
  intro record h
  simp only [candidatesOf, List.mem_map] at h
  obtain ⟨line, _, hl⟩ := h
  rw [← hl]
  exact fieldsOf_ne_nil trim line

theorem countsOk_pos (fpr : Int) (records : List (List GoString)) (h : 0 < fpr) :
    countsOk fpr records = true ↔ ∀ record ∈ records, (record.length : Int) = fpr := by
  induction records with
  | nil => simp [countsOk]
  | cons record rest ih =>
    rw [countsOk]
    have h0 : ¬ fpr = 0 := by omega
    rw [if_neg h0]
    by_cases hv : fpr ≥ 0 ∧ (record.length : Int) ≠ fpr
    · rw [if_pos hv]
      simp only [Bool.false_eq_true, List.mem_cons, forall_eq_or_imp, false_iff, not_and]
      intro hr
      exact absurd hr hv.2
    · rw [if_neg hv, ih]
      have hr : (record.length : Int) = fpr := by
        by_contra hne
        exact hv ⟨by omega, hne⟩
      simp [hr]

theorem countsOk_zero (first : List GoString) (rest : List (List GoString))
    (hfirst : first ≠ []) :
    countsOk 0 (first :: rest) = true ↔ ∀ record ∈ rest, record.length = first.length := by
  have hpos : 0 < (first.length : Int) := by
    have := List.length_pos.mpr hfirst
    omega
  rw [countsOk, if_pos rfl, countsOk_pos _ _ hpos]
  constructor
  · intro h record hr
    exact_mod_cast h record hr
  · intro h record hr
    exact_mod_cast h record hr

theorem countsOk_first_violation (records : List (List GoString)) (fpr : Int)
    (h : countsOk fpr records = false) :
    ∃ good bad post, records = good ++ bad :: post ∧ countsOk fpr good = true ∧
      countsOk fpr (good ++ [bad]) = false := by
  induction records generalizing fpr with
  | nil => simp [countsOk] at h
  | cons record rest ih =>
    rw [countsOk] at h
    by_cases h0 : fpr = 0
    · rw [if_pos h0] at h
      obtain ⟨good, bad, post, hr, hg, hb⟩ := ih _ h
      refine ⟨record :: good, bad, post, by rw [hr]; rfl, ?_, ?_⟩
      · rw [countsOk, if_pos h0]; exact hg
      · rw [List.cons_append, countsOk, if_pos h0]; exact hb
    · rw [if_neg h0] at h
      by_cases hv : fpr ≥ 0 ∧ (record.length : Int) ≠ fpr
      · refine ⟨[], record, rest, rfl, rfl, ?_⟩
        rw [List.nil_append, countsOk, if_neg h0, if_pos hv]
      · rw [if_neg hv] at h
        obtain ⟨good, bad, post, hr, hg, hb⟩ := ih _ h
        refine ⟨record :: good, bad, post, by rw [hr]; rfl, ?_, ?_⟩
        · rw [countsOk, if_neg h0, if_neg hv]; exact hg
        · rw [List.cons_append, countsOk, if_neg h0, if_neg hv]; exact hb

theorem countsOk_violation_append (good post : List (List GoString)) (bad : List GoString)
    (fpr : Int) (hb : countsOk fpr (good ++ [bad]) = false) :
    countsOk fpr (good ++ bad :: post) = false := by
  induction good generalizing fpr with
  | nil =>
    simp only [List.nil_append] at hb ⊢
    rw [countsOk] at hb ⊢
    by_cases h0 : fpr = 0
    · rw [if_pos h0] at hb
      simp [countsOk] at hb
    · rw [if_neg h0] at hb ⊢
      by_cases hv : fpr ≥ 0 ∧ (bad.length : Int) ≠ fpr
      · rw [if_pos hv]
      · rw [if_neg hv] at hb
        simp [countsOk] at hb
  | cons record good ih =>
    simp only [List.cons_append] at hb ⊢
    rw [countsOk] at hb ⊢
    by_cases h0 : fpr = 0
    · rw [if_pos h0] at hb ⊢
      exact ih _ hb
    · rw [if_neg h0] at hb ⊢
      by_cases hv : fpr ≥ 0 ∧ (record.length : Int) ≠ fpr
      · rw [if_pos hv]
      · rw [if_neg hv] at hb ⊢
        exact ih _ hb

theorem countsOk_violation_nonneg (good : List (List GoString)) (bad : List GoString)
    (fpr : Int) (hb : countsOk fpr (good ++ [bad]) = false) : 0 ≤ fpr := by
  by_contra hneg
  rw [countsOk_neg fpr _ (by omega)] at hb
  exact absurd hb (by simp)

theorem countsOk_violation_pos (good : List (List GoString)) (bad : List GoString)
    (fpr : Int) (hpos : 0 < fpr) (hg : countsOk fpr good = true)
    (hb : countsOk fpr (good ++ [bad]) = false) :
    (∀ record ∈ good, (record.length : Int) = fpr) ∧ (bad.length : Int) ≠ fpr := by
  have h1 := (countsOk_pos fpr good hpos).mp hg
  refine ⟨h1, ?_⟩
  intro hbad
  have : countsOk fpr (good ++ [bad]) = true := by
    rw [countsOk_pos _ _ hpos]
    intro record hr
    rcases List.mem_append.mp hr with h | h
    · exact h1 record h
    · rw [List.mem_singleton.mp h]; exact hbad
  rw [this] at hb
  exact absurd hb (by simp)

theorem countsOk_violation_zero (good : List (List GoString)) (bad : List GoString)
    (hne : ∀ record ∈ good, record ≠ [])
    (hg : countsOk 0 good = true) (hb : countsOk 0 (good ++ [bad]) = false) :
    ∃ first rest, good = first :: rest ∧ (∀ record ∈ rest, record.length = first.length) ∧
      bad.length ≠ first.length := by
  cases good with
  | nil => simp [countsOk] at hb
  | cons first rest =>
    have hf : first ≠ [] := hne first (List.mem_cons_self _ _)
    have h1 := (countsOk_zero first rest hf).mp hg
    refine ⟨first, rest, rfl, h1, ?_⟩
    intro hbad
    have : countsOk 0 (first :: (rest ++ [bad])) = true := by
      rw [countsOk_zero first _ hf]
      intro record hr
      rcases List.mem_append.mp hr with h | h
      · exact h1 record h
      · rw [List.mem_singleton.mp h]; exact hbad
    rw [List.cons_append, this] at hb
    exact absurd hb (by simp)

theorem candidatesOf_plain (trim : Bool) (lines : List (List Byte))
    (h : ∀ line ∈ lines, skipped line = false ∧ countNewlines line = 0) :
    candidatesOf trim lines = lines.map (fieldsOf trim) := by
  induction lines with
  | nil => rfl
  | cons line lines ih =>
    rw [candidatesOf_cons, (h line (List.mem_cons_self _ _)).1,
      ih (fun l hl => h l (List.mem_cons_of_mem _ hl))]
    simp

theorem decodeLines_fault_line (trim : Bool) (good : List (List GoString))
    (lines : List (List Byte)) (bad : List GoString) (post : List (List GoString))
    (fpr : Int) (n : Nat) (records : List (List GoString))
    (hplain : ∀ line ∈ lines, skipped line = false ∧ countNewlines line = 0)
    (hc : lines.map (fieldsOf trim) = good ++ bad :: post)
    (hg : countsOk fpr good = true) (hb : countsOk fpr (good ++ [bad]) = false) :
    decodeLines trim fpr n lines records =
      ([], some { StartLine := n + good.length + 1, Line := n + good.length + 1,
                  Err := ParseErrorKind.ErrFieldCount }) := by
  induction good generalizing lines fpr n records with
  | nil =>
    cases lines with
    | nil => simp at hc
    | cons line lines =>
      simp only [List.map_cons, List.nil_append, List.cons.injEq] at hc
      obtain ⟨hs, hn⟩ := hplain line (List.mem_cons_self _ _)
      rw [List.nil_append, countsOk] at hb
      rw [decodeLines, hs, if_neg (by simp)]
      by_cases h0 : fpr = 0
      · rw [if_pos h0] at hb
        simp [countsOk] at hb
      · rw [if_neg h0] at hb ⊢
        by_cases hv : fpr ≥ 0 ∧ (bad.length : Int) ≠ fpr
        · rw [hc.1, if_pos hv, hn]
          simp
        · rw [if_neg hv] at hb
          simp [countsOk] at hb
  | cons record good ih =>
    cases lines with
    | nil => simp at hc
    | cons line lines =>
      simp only [List.map_cons, List.cons_append, List.cons.injEq] at hc
      obtain ⟨hs, hn⟩ := hplain line (List.mem_cons_self _ _)
      have hrest : ∀ l ∈ lines, skipped l = false ∧ countNewlines l = 0 :=
        fun l hl => hplain l (List.mem_cons_of_mem _ hl)
      rw [List.cons_append, countsOk] at hb
      rw [countsOk] at hg
      rw [decodeLines, hs, if_neg (by simp), hc.1, hn]
      by_cases h0 : fpr = 0
      · rw [if_pos h0] at hb hg ⊢
        rw [ih lines _ (n + 0 + 1) _ hrest hc.2 hg hb]
        simp only [List.length_cons, Prod.mk.injEq, Option.some.injEq, ParseError.mk.injEq,
          and_true, true_and]
        omega
      · rw [if_neg h0] at hb hg ⊢
        by_cases hv : fpr ≥ 0 ∧ (record.length : Int) ≠ fpr
        · rw [if_pos hv] at hg
          exact absurd hg (by simp)
        · rw [if_neg hv] at hb hg ⊢
          rw [ih lines _ (n + 0 + 1) _ hrest hc.2 hg hb]
          simp only [List.length_cons, Prod.mk.injEq, Option.some.injEq, ParseError.mk.injEq,
            and_true, true_and]
          omega

theorem ReadAll_fault_line (r : Reader) (good post : List (List GoString)) (bad : List GoString)
    (hplain : PlainInput r.input)
    (hc : candidates r.TrimLeadingSpace r.input = good ++ bad :: post)
    (hg : countsOk r.FieldsPerRecord good = true)
    (hb : countsOk r.FieldsPerRecord (good ++ [bad]) = false) :
    r.ReadAll = some ([], some { StartLine := r.numLine + good.length + 1,
                                 Line := r.numLine + good.length + 1,
                                 Err := ParseErrorKind.ErrFieldCount }) := by
  rw [ReadAll_eq_decodeLines]
  rw [candidates, candidatesOf_plain _ _ hplain] at hc
  rw [decodeLines_fault_line r.TrimLeadingSpace good (linesOf r.input) bad post
    r.FieldsPerRecord r.numLine [] hplain hc hg hb]

/-! ## The outcome of decode-all depends on the candidate records only -/

theorem outcome_eq (r : Reader) :
    r.outcome = some (if countsOk r.FieldsPerRecord (candidates r.TrimLeadingSpace r.input)
      then (candidates r.TrimLeadingSpace r.input, false) else ([], true)) := by
  cases hc : countsOk r.FieldsPerRecord (candidates r.TrimLeadingSpace r.input) with
  | true => simp [Reader.outcome, ReadAll_ok r hc]
  | false =>
    obtain ⟨e, he, _⟩ := ReadAll_fault r hc
    simp [Reader.outcome, he]

theorem outcome_congr (fpr : Int) (trim reuse reuse1 : Bool) (input input1 : List Byte)
    (n n1 : Nat) (h : candidates trim input = candidates trim input1) :
    (Reader.mk fpr trim reuse input n).outcome = (Reader.mk fpr trim reuse1 input1 n1).outcome := by
  rw [outcome_eq, outcome_eq]
  simp only [h]

/-! ## The lines of a stream with one more line -/

theorem linesOf_ne_nil (c : Byte) (input : List Byte) : linesOf (c :: input) ≠ [] := by
  rw [linesOf]
  split
  · simp
  · split <;> simp

theorem linesOf_append_sep (a b : List Byte) :
    linesOf (a ++ 0x1E :: b) = linesOf (a ++ [0x1E]) ++ linesOf b := by
  induction a with
  | nil => simp [linesOf]
  | cons c a ih =>
    simp only [List.cons_append]
    rw [linesOf, linesOf]
    by_cases hc : c = 0x1E
    · simp only [hc, if_true, ih, List.cons_append]
    · simp only [hc, if_false, ih]
      cases hl : linesOf (a ++ [0x1E]) with
      | nil =>
        cases a with
        | nil => simp [linesOf] at hl
        | cons d a => exact absurd hl (linesOf_ne_nil d _)
      | cons l ls => simp

theorem linesOf_terminated (line : List Byte) (h : ∀ c ∈ line, c ≠ 0x1E) :
    linesOf (line ++ [0x1E]) = [line] := by
  induction line with
  | nil => simp [linesOf]
  | cons c line ih =>
    have hc : c ≠ 0x1E := h c (List.mem_cons_self _ _)
    simp only [List.cons_append]
    rw [linesOf, if_neg hc, ih (fun d hd => h d (List.mem_cons_of_mem _ hd))]

theorem linesOf_unterminated (line : List Byte) (h : ∀ c ∈ line, c ≠ 0x1E) (hne : line ≠ []) :
    linesOf line = [line] := by
  induction line with
  | nil => exact absurd rfl hne
  | cons c line ih =>
    have hc : c ≠ 0x1E := h c (List.mem_cons_self _ _)
    rw [linesOf, if_neg hc]
    cases line with
    | nil => simp [linesOf]
    | cons d line =>
      rw [ih (fun e he => h e (List.mem_cons_of_mem _ he)) (by simp)]

theorem linesOf_append_last (a : List Byte) :
    linesOf (a ++ [0x1E]) = linesOf a ∨ linesOf (a ++ [0x1E]) = linesOf a ++ [[]] := by
  induction a with
  | nil => right; simp [linesOf]
  | cons c a ih =>
    simp only [List.cons_append]
    rw [linesOf, linesOf]
    by_cases hc : c = 0x1E
    · simp only [hc, if_true]
      rcases ih with h | h
      · left; rw [h]
      · right; rw [h]; rfl
    · simp only [hc, if_false]
      rcases ih with h | h
      · left; rw [h]
      · rw [h]
        cases hl : linesOf a with
        | nil => left; rfl
        | cons l ls => right; rfl

theorem candidatesOf_append (trim : Bool) (l1 l2 : List (List Byte)) :
    candidatesOf trim (l1 ++ l2) = candidatesOf trim l1 ++ candidatesOf trim l2 := by
  simp [candidatesOf, List.filter_append]

theorem candidatesOf_skipped (trim : Bool) (line : List Byte) (h : skipped line = true) :
    candidatesOf trim [line] = [] := by
  simp [candidatesOf, List.filter, h]

theorem candidatesOf_kept (trim : Bool) (line : List Byte) (h : skipped line = false) :
    candidatesOf trim [line] = [fieldsOf trim line] := by
  simp [candidatesOf, List.filter, h]

theorem candidates_append_sep (trim : Bool) (a b : List Byte) :
    candidates trim (a ++ 0x1E :: b) = candidates trim (a ++ [0x1E]) ++ candidates trim b := by
  simp only [candidates, linesOf_append_sep a b, candidatesOf_append]

theorem candidates_line (trim : Bool) (line b : List Byte) (h : ∀ c ∈ line, c ≠ 0x1E) :
    candidates trim (line ++ 0x1E :: b) = candidatesOf trim [line] ++ candidates trim b := by
  rw [candidates_append_sep, candidates, linesOf_terminated line h]

theorem candidates_append_last (trim : Bool) (a : List Byte) :
    candidates trim (a ++ [0x1E]) = candidates trim a := by
  rcases linesOf_append_last a with h | h
  · simp only [candidates, h]
  · simp only [candidates, h, candidatesOf_append]
    rw [candidatesOf_skipped trim [] (by decide)]
    simp

theorem candidates_blank (trim : Bool) (a b : List Byte) :
    candidates trim (a ++ 0x1E :: 0x1E :: b) = candidates trim (a ++ 0x1E :: b) := by
  rw [candidates_append_sep trim a (0x1E :: b), candidates_append_sep trim a b]
  have : candidates trim (0x1E :: b) = candidates trim b := by
    have := candidates_line trim [] b (by simp)
    simp only [List.nil_append] at this
    rw [this, candidatesOf_skipped trim [] (by decide)]
    simp
  rw [this]

theorem candidates_comment (trim : Bool) (a comment b : List Byte)
    (hc : comment.head? = some 0x10) (hs : ∀ c ∈ comment, c ≠ 0x1E) :
    candidates trim (a ++ 0x1E :: (comment ++ 0x1E :: b)) = candidates trim (a ++ 0x1E :: b) ∧
    candidates trim (comment ++ 0x1E :: b) = candidates trim b ∧
    candidates trim (a ++ 0x1E :: comment) = candidates trim (a ++ [0x1E]) := by
  have hsk : skipped comment = true := by simp [skipped, hc]
  have h1 : candidates trim (comment ++ 0x1E :: b) = candidates trim b := by
    rw [candidates_line trim comment b hs, candidatesOf_skipped trim comment hsk]
    simp
  refine ⟨?_, h1, ?_⟩
  · rw [candidates_append_sep trim a (comment ++ 0x1E :: b), h1, ← candidates_append_sep]
  · rw [candidates_append_sep trim a comment]
    have hne : comment ≠ [] := by
      intro h
      rw [h] at hc
      simp at hc
    rw [candidates, candidates, linesOf_unterminated comment hs hne,
      candidatesOf_skipped trim comment hsk]
    simp [candidates]

/-! ## Trimming -/

theorem candidates_trim (input : List Byte) :
    candidates true input = (candidates false input).map (List.map trimLeadingSpace) := by
  simp [candidates, candidatesOf, fieldsOf, List.map_map, Function.comp_def]

theorem countsOk_map (f : GoString → GoString) (records : List (List GoString)) (fpr : Int) :
    countsOk fpr (records.map (List.map f)) = countsOk fpr records := by
  induction records generalizing fpr with
  | nil => rfl
  | cons record rest ih =>
    simp only [List.map_cons]
    rw [countsOk, countsOk]
    simp only [List.length_map, ih]

theorem trimLeadingSpace_spec (field : GoString) :
    ∃ spaces, field = spaces ++ trimLeadingSpace field ∧
      (∀ c ∈ spaces, c = 0x20 ∨ c = 0x09) ∧
      ∀ c, (trimLeadingSpace field).head? = some c → c ≠ 0x20 ∧ c ≠ 0x09 := by
  refine ⟨field.takeWhile (fun c => c = 0x20 || c = 0x09), ?_, ?_, ?_⟩
  · exact (List.takeWhile_append_dropWhile _ field).symm
  · intro c hc
    have := List.mem_takeWhile_imp hc
    simpa using this
  · intro c hc
    induction field with
    | nil => simp [trimLeadingSpace] at hc
    | cons d field ih =>
      unfold trimLeadingSpace at hc ih
      rw [List.dropWhile_cons] at hc
      by_cases hd : (decide (d = 0x20) || decide (d = 0x09)) = true
      · rw [if_pos hd] at hc
        exact ih hc
      · rw [if_neg hd] at hc
        simp only [List.head?_cons, Option.some.injEq] at hc
        rw [← hc]
        simpa using hd

/-! ## The encodings of records with at least one field -/

theorem joinFields_no_RS (record : List GoString) (h : ValidRecord record) :
    ∀ c ∈ joinFields record, c ≠ 0x1E := by
  intro c hc
  rcases mem_joinFields record c hc with h1 | ⟨f, hf, hcf⟩
  · rw [h1]; decide
  · exact (h f hf c hcf).2.1

theorem splitFields_joinFields_record (record : List GoString) (hne : record ≠ [])
    (h : ValidRecord record) : splitFields (joinFields record) = record := by
  cases record with
  | nil => exact absurd rfl hne
  | cons field rest =>
    exact splitFields_joinFields rest field (fun f hf c hc => (h f hf c hc).2.2)

theorem encodeAll_cons (record : List GoString) (rest : List (List GoString)) :
    encodeAll (record :: rest) = joinFields record ++ 0x1E :: encodeAll rest := by
  simp [encodeAll, encodeRecord]

theorem linesOf_encodeAll (records : List (List GoString))
    (h : ∀ record ∈ records, ValidRecord record) :
    linesOf (encodeAll records) = records.map joinFields := by
  induction records with
  | nil => rfl
  | cons record rest ih =>
    rw [encodeAll_cons, linesOf_append_sep,
      linesOf_terminated _ (joinFields_no_RS record (h record (List.mem_cons_self _ _))),
      ih (fun r hr => h r (List.mem_cons_of_mem _ hr))]
    rfl

theorem decode_encodeAll (records : List (List GoString))
    (h : ∀ record ∈ records, record ≠ [] ∧ ValidRecord record) :
    (linesOf (encodeAll records)).map (fun line => line.splitOn 0x1F) = records := by
  rw [linesOf_encodeAll records (fun r hr => (h r hr).2), List.map_map]
  have : ∀ record ∈ records, ((fun line : List Byte => line.splitOn 0x1F) ∘ joinFields) record
      = id record := by
    intro record hr
    simp only [Function.comp_apply, id]
    rw [← splitFields_eq_splitOn]
    exact splitFields_joinFields_record record (h record hr).1 (h record hr).2
  rw [List.map_congr_left this, List.map_id]

/-! ## The output of a session of writes -/

theorem loopTrace_bytes (fields : List GoString) (n : Nat) :
    ∀ c ∈ (loopTrace n fields).1, c ≠ 0x1D ∧ c ≠ 0x1E := by
  induction fields generalizing n with
  | nil => simp [loopTrace]
  | cons field rest ih =>
    have hsep : ∀ c ∈ (if n > 0 then [(0x1F : Byte)] else []), c ≠ 0x1D ∧ c ≠ 0x1E := by
      intro c hc
      split at hc
      · rw [List.mem_singleton.mp hc]; decide
      · simp at hc
    rcases validateField_cases (NewWriter { received := [], faulty := false }) field with hv | hv
    · have hvalid := (validateField_eq_none_iff _ field).mp hv
      intro c hc
      simp only [loopTrace, hv, ne_eq, not_true_eq_false, if_false, List.mem_append] at hc
      rcases hc with (hc | hc) | hc
      · exact hsep c hc
      · exact ⟨(hvalid c hc).1, (hvalid c hc).2.1⟩
      · exact ih (n + 1) c hc
    · intro c hc
      simp only [loopTrace, hv, ne_eq, reduceCtorEq, not_false_eq_true, if_true] at hc
      exact hsep c hc

theorem writeTrace_bytes (record : List GoString) :
    (0x1D : Byte) ∉ (writeTrace record).1 ∧
      (writeTrace record).1.count 0x1E = if (writeTrace record).2 = none then 1 else 0 := by
  have hb := loopTrace_bytes record 0
  have hcount : (loopTrace 0 record).1.count 0x1E = 0 := by
    rw [List.count_eq_zero]
    intro hm
    exact (hb _ hm).2 rfl
  have hno : (0x1D : Byte) ∉ (loopTrace 0 record).1 := fun hm => (hb _ hm).1 rfl
  unfold writeTrace
  split
  · refine ⟨?_, ?_⟩
    · simp only [List.mem_append, List.mem_singleton, not_or]
      exact ⟨hno, by decide⟩
    · simp [List.count_append, hcount]
  · rename_i hne
    exact ⟨hno, by simp [hne, hcount]⟩

theorem session_writes (records : List (List GoString)) (w : Writer) (h : w.w.Healthy) :
    ∃ w1 results, w.session (records.map Op.write) = some (w1, results) ∧
      results.length = records.length ∧
      ((0x1D : Byte) ∉ w.output → (0x1D : Byte) ∉ w1.output) ∧
      w1.output.count 0x1E = w.output.count 0x1E + results.count none := by
  induction records generalizing w with
  | nil => exact ⟨w, [], rfl, rfl, id, by simp⟩
  | cons record rest ih =>
    obtain ⟨w1, hw, hx⟩ := Write_healthy_trace w record h
    obtain ⟨w2, results, hs, hl, hg, hc⟩ := ih w1 hx.1
    obtain ⟨hno, hcount⟩ := writeTrace_bytes record
    have ho : w1.output = w.output ++ (writeTrace record).1 := hx.2.2
    refine ⟨w2, (writeTrace record).2 :: results, ?_, by simp [hl], ?_, ?_⟩
    · simp [Writer.session, Writer.call, hw, hs]
    · intro hw0
      apply hg
      rw [ho, List.mem_append, not_or]
      exact ⟨hw0, hno⟩
    · rw [hc, ho, List.count_append, hcount, List.count_cons]
      by_cases hn : (writeTrace record).2 = none
      · simp [hn]; omega
      · simp [hn]

/-! ## The record without a field -/

theorem Write_nil_eq (w : Writer) : w.Write [] = w.Write [[]] := by
  by_cases he : w.w.err = none
  · have hw := WriteString_fit w.w [] he (by simp)
    simp [Writer.Write, Writer.writeFields, Writer.validateField, hw, buffer_nil]
  · obtain ⟨e0, he0⟩ := Option.ne_none_iff_exists'.mp he
    have h1 : w.Write [] = some (w, some e0) := by
      simp [Writer.Write, Writer.writeFields, WriteRune_of_err w.w _ he, he0]
    have h2 : w.Write [[]] = some (w, some e0) := by
      simp [Writer.Write, Writer.writeFields, Writer.validateField,
        WriteString_of_err w.w _ he, he0]
    rw [h1, h2]

/-! ## The decoder on one more line -/

theorem readFuel_succ (fuel : Nat) (r : Reader) (x : Reader × ReadResult)
    (h : Reader.readFuel fuel r = some x) : Reader.readFuel (fuel + 1) r = some x := by
  induction fuel generalizing r with
  | zero => simp [Reader.readFuel] at h
  | succ fuel ih =>
    rw [Reader.readFuel] at h ⊢
    by_cases hin : r.input = []
    · rw [if_pos hin] at h ⊢
      exact h
    · rw [if_neg hin] at h ⊢
      simp only at h ⊢
      by_cases h1 : (readLine r.input).1.head? = some (byte (uint32 Comment))
      · rw [if_pos h1] at h ⊢
        exact ih _ h
      · rw [if_neg h1] at h ⊢
        by_cases h2 : (readLine r.input).1 = []
        · rw [if_pos h2] at h ⊢
          exact ih _ h
        · rw [if_neg h2] at h ⊢
          exact h

theorem readFuel_enough (fuel : Nat) (r : Reader) (h : r.input.length < fuel) :
    Reader.readFuel fuel r = r.Read := by
  obtain ⟨x, hx, _⟩ := Read_total r
  rw [hx]
  have hk : ∀ k, Reader.readFuel (r.input.length + 1 + k) r = some x := by
    intro k
    induction k with
    | zero => exact hx
    | succ k ih => exact readFuel_succ _ r x ih
  have := hk (fuel - (r.input.length + 1))
  rw [show r.input.length + 1 + (fuel - (r.input.length + 1)) = fuel by omega] at this
  exact this

theorem Read_skipped_line (fpr : Int) (trim reuse : Bool) (line b : List Byte) (n : Nat)
    (hsk : line.head? = some 0x10) (hs : ∀ c ∈ line, c ≠ 0x1E) :
    Reader.Read (Reader.mk fpr trim reuse (line ++ 0x1E :: b) n) =
      Reader.Read (Reader.mk fpr trim reuse b (n + countNewlines line + 1)) := by
  have hC : byte (uint32 Comment) = 0x10 := by decide
  have hin : line ++ 0x1E :: b ≠ [] := by simp
  rw [Reader.Read, Reader.readFuel]
  simp only [if_neg hin, readLine_terminated line b hs, hC, hsk, if_true]
  exact readFuel_enough _ _ (by simp only [List.length_append, List.length_cons]; omega)

theorem fieldsOf_eq_splitOn (trim : Bool) (line : List Byte) :
    fieldsOf trim line =
      if trim then (line.splitOn 0x1F).map trimLeadingSpace else line.splitOn 0x1F := by
  rw [fieldsOf, splitFields_eq_splitOn]

theorem Read_kept_line (fpr : Int) (trim reuse : Bool) (line b : List Byte) (n : Nat)
    (hne : line ≠ []) (hhead : line.head? ≠ some 0x10) (hs : ∀ c ∈ line, c ≠ 0x1E) :
    Reader.Read (Reader.mk fpr trim reuse (line ++ 0x1E :: b) n) =
      if 0 < fpr ∧ ((fieldsOf trim line).length : Int) ≠ fpr then
        some (Reader.mk fpr trim reuse b (n + countNewlines line + 1),
          ReadResult.fault (ParseError.mk (n + 1) (n + 1 + countNewlines line)
            ParseErrorKind.ErrFieldCount))
      else
        some (Reader.mk (if fpr = 0 then ((fieldsOf trim line).length : Int) else fpr) trim reuse b
            (n + countNewlines line + 1),
          ReadResult.record (fieldsOf trim line)) := by
  have hC : byte (uint32 Comment) = 0x10 := by decide
  have hin : line ++ 0x1E :: b ≠ [] := by simp
  rw [Reader.Read, Reader.readFuel]
  simp only [if_neg hin, readLine_terminated line b hs, hC, if_neg hhead, if_neg hne]
  have hf : (if trim = true then (splitFields line).map trimLeadingSpace else splitFields line) =
      fieldsOf trim line := rfl
  rw [hf]
  by_cases h0 : fpr = 0
  · have hv : ¬ (0 < fpr ∧ ((fieldsOf trim line).length : Int) ≠ fpr) := by
      rintro ⟨h, _⟩
      omega
    rw [if_pos h0, if_neg hv, if_pos h0]
  · rw [if_neg h0]
    by_cases hv : 0 < fpr ∧ ((fieldsOf trim line).length : Int) ≠ fpr
    · rw [if_pos hv, if_pos ⟨le_of_lt hv.1, hv.2⟩]
    · have hv1 : ¬ (fpr ≥ 0 ∧ ((fieldsOf trim line).length : Int) ≠ fpr) := by
        rintro ⟨h, hl⟩
        exact hv ⟨by omega, hl⟩
      rw [if_neg hv, if_neg hv1, if_neg h0]

theorem ReadAll_skipped_line (fpr : Int) (trim reuse : Bool) (line b : List Byte) (n : Nat)
    (hsk : line.head? = some 0x10) (hs : ∀ c ∈ line, c ≠ 0x1E) :
    Reader.ReadAll (Reader.mk fpr trim reuse (line ++ 0x1E :: b) n) =
      Reader.ReadAll (Reader.mk fpr trim reuse b (n + countNewlines line + 1)) := by
  have hskip : skipped line = true := by simp [skipped, hsk]
  rw [ReadAll_eq_decodeLines, ReadAll_eq_decodeLines]
  simp only
  rw [linesOf_append_sep, linesOf_terminated line hs, List.singleton_append, decodeLines,
    if_pos hskip]

theorem ReadAll_skipped_last (fpr : Int) (trim reuse : Bool) (line : List Byte) (n : Nat)
    (hsk : line.head? = some 0x10) (hs : ∀ c ∈ line, c ≠ 0x1E) :
    Reader.ReadAll (Reader.mk fpr trim reuse line n) = some ([], none) := by
  have hskip : skipped line = true := by simp [skipped, hsk]
  have hne : line ≠ [] := by
    intro h
    rw [h] at hsk
    simp at hsk
  rw [ReadAll_eq_decodeLines]
  simp only
  rw [linesOf_unterminated line hs hne, decodeLines, if_pos hskip, decodeLines]

theorem ReadAll_nil (fpr : Int) (trim reuse : Bool) (n : Nat) :
    Reader.ReadAll (Reader.mk fpr trim reuse [] n) = some ([], none) := by
  rw [ReadAll_eq_decodeLines]
  simp only [linesOf, decodeLines]

theorem ReadAll_congr (fpr : Int) (trim reuse : Bool) (input input1 : List Byte) (n n1 : Nat)
    (h : candidates trim input = candidates trim input1) :
    (∀ records, Reader.ReadAll (Reader.mk fpr trim reuse input n) = some (records, none) ↔
      Reader.ReadAll (Reader.mk fpr trim reuse input1 n1) = some (records, none)) ∧
    ((∃ e, Reader.ReadAll (Reader.mk fpr trim reuse input n) = some ([], some e)) ↔
      ∃ e, Reader.ReadAll (Reader.mk fpr trim reuse input1 n1) = some ([], some e)) := by
  cases hc : countsOk fpr (candidates trim input) with
  | true =>
    have h1 := ReadAll_ok (Reader.mk fpr trim reuse input n) hc
    have h2 := ReadAll_ok (Reader.mk fpr trim reuse input1 n1) (by simp only; rw [← h]; exact hc)
    simp only at h1 h2
    rw [h1, h2, h]
    simp
  | false =>
    obtain ⟨e1, h1, _⟩ := ReadAll_fault (Reader.mk fpr trim reuse input n) hc
    obtain ⟨e2, h2, _⟩ := ReadAll_fault (Reader.mk fpr trim reuse input1 n1)
      (by simp only; rw [← h]; exact hc)
    rw [h1, h2]
    simp

theorem decodeLines_fault_records (trim : Bool) (lines : List (List Byte)) (fpr : Int) (n : Nat)
    (records records1 : List (List GoString))
    (h : countsOk fpr (candidatesOf trim lines) = false) :
    decodeLines trim fpr n lines records = decodeLines trim fpr n lines records1 := by
  induction lines generalizing fpr n records records1 with
  | nil => simp [candidatesOf, countsOk] at h
  | cons line lines ih =>
    rw [candidatesOf_cons] at h
    rw [decodeLines, decodeLines]
    cases hs : skipped line with
    | true =>
      simp only [hs, if_true] at h ⊢
      exact ih fpr _ records records1 h
    | false =>
      simp only [hs, Bool.false_eq_true, if_false] at h ⊢
      rw [countsOk] at h
      by_cases h0 : fpr = 0
      · rw [if_pos h0] at h
        rw [if_pos h0, if_pos h0]
        exact ih _ _ _ _ h
      · rw [if_neg h0] at h
        rw [if_neg h0, if_neg h0]
        by_cases hv : fpr ≥ 0 ∧ ((fieldsOf trim line).length : Int) ≠ fpr
        · rw [if_pos hv, if_pos hv]
        · rw [if_neg hv] at h
          rw [if_neg hv, if_neg hv]
          exact ih _ _ _ _ h

theorem ReadAll_kept_line (fpr : Int) (trim reuse : Bool) (line b : List Byte) (n : Nat)
    (hne : line ≠ []) (hhead : line.head? ≠ some 0x10) (hs : ∀ c ∈ line, c ≠ 0x1E) :
    (0 < fpr ∧ ((fieldsOf trim line).length : Int) ≠ fpr →
      Reader.ReadAll (Reader.mk fpr trim reuse (line ++ 0x1E :: b) n) =
        some ([], some (ParseError.mk (n + 1) (n + 1 + countNewlines line)
          ParseErrorKind.ErrFieldCount))) ∧
    (¬ (0 < fpr ∧ ((fieldsOf trim line).length : Int) ≠ fpr) →
      (∀ records,
        Reader.ReadAll (Reader.mk (if fpr = 0 then ((fieldsOf trim line).length : Int) else fpr)
          trim reuse b (n + countNewlines line + 1)) = some (records, none) →
        Reader.ReadAll (Reader.mk fpr trim reuse (line ++ 0x1E :: b) n) =
          some (fieldsOf trim line :: records, none)) ∧
      (∀ e,
        Reader.ReadAll (Reader.mk (if fpr = 0 then ((fieldsOf trim line).length : Int) else fpr)
          trim reuse b (n + countNewlines line + 1)) = some ([], some e) →
        Reader.ReadAll (Reader.mk fpr trim reuse (line ++ 0x1E :: b) n) =
          some ([], some e))) := by
  have hskip : skipped line = false := by simp [skipped, hne, hhead]
  have hlines : linesOf (line ++ 0x1E :: b) = line :: linesOf b := by
    rw [linesOf_append_sep, linesOf_terminated line hs, List.singleton_append]
  have hstep : Reader.ReadAll (Reader.mk fpr trim reuse (line ++ 0x1E :: b) n) =
      some (decodeLines trim fpr n (line :: linesOf b) []) := by
    rw [ReadAll_eq_decodeLines]
    simp only
    rw [hlines]
  constructor
  · intro hv
    have h0 : fpr ≠ 0 := by
      intro h
      omega
    rw [hstep, decodeLines, if_neg (by simp [hskip]), if_neg h0,
      if_pos ⟨le_of_lt hv.1, hv.2⟩]
  · intro hv
    have hnext : decodeLines trim fpr n (line :: linesOf b) [] =
        decodeLines trim (if fpr = 0 then ((fieldsOf trim line).length : Int) else fpr)
          (n + countNewlines line + 1) (linesOf b) [fieldsOf trim line] := by
      rw [decodeLines, if_neg (by simp [hskip])]
      by_cases h0 : fpr = 0
      · rw [if_pos h0, if_pos h0]
        rfl
      · have hv1 : ¬ (fpr ≥ 0 ∧ ((fieldsOf trim line).length : Int) ≠ fpr) := by
          rintro ⟨h, hl⟩
          exact hv ⟨by omega, hl⟩
        rw [if_neg h0, if_neg hv1, if_neg h0]
        rfl
    constructor
    · intro records hr
      rcases ReadAll_cases _ records none hr with ⟨_, hrec, hok⟩ | ⟨e, he, _⟩
      · simp only at hrec hok
        rw [hstep, hnext, decodeLines_ok trim _ _ _ _ hok, hrec]
        rfl
      · exact absurd he (by simp)
    · intro e hr
      rcases ReadAll_cases _ [] (some e) hr with ⟨he, _⟩ | ⟨e1, _, _, _, hbad⟩
      · exact absurd he (by simp)
      · simp only at hbad
        rw [ReadAll_eq_decodeLines] at hr
        simp only at hr
        rw [hstep, hnext, decodeLines_fault_records trim _ _ _ _ [] hbad]
        exact hr

/-! ## The claims -/

/-- C1: on a Writer that has met no fault, over a sink that does not fault, Write of a
record whose fields are free of GroupSep, RecordSep and UnitSep returns no error and
appends to the output stream exactly the fields' bytes, unchanged and in order, one
UnitSep byte between consecutive fields and one RecordSep byte at the end; when
these bytes fit in the buffer they are appended to the buffer and the sink is not
touched. -/
theorem Write_valid_record (w : Writer) (record : List GoString)
    (hsink : w.w.wr.faulty = false) (herr : w.w.err = none) (hvalid : ValidRecord record) :
    ∃ w1, w.Write record = some (w1, none) ∧
      w1.output = w.output ++ (joinFields record ++ [0x1E]) ∧
      w1.w.err = none ∧
      ((joinFields record ++ [0x1E]).length ≤ w.w.Available →
        w1.w.wr = w.w.wr ∧ w1.w.buf = w.w.buf ++ (joinFields record ++ [0x1E])) := by
  obtain ⟨w1, hw, hx⟩ := Write_healthy_trace w record ⟨herr, hsink⟩
  have ht := writeTrace_valid record hvalid
  rw [ht] at hw hx
  refine ⟨w1, hw, hx.2.2, hx.1.1, ?_⟩
  intro hfit
  have hf := Write_fit_trace w record herr (by rw [ht]; exact hfit)
  rw [ht, hw] at hf
  have : w1 = { w := w.w.buffer (encodeRecord record) } := by
    simpa using hf
  rw [this]
  exact ⟨rfl, rfl⟩

/-- The witness of C1: a record with a quote, a comma, CR, LF and a byte above 0x7F. -/
theorem Write_valid_record_witness :
    ValidRecord [[0x22, 0x2C], [], [0x0D, 0x0A, 0xB4]] ∧
    ∃ w1, (NewWriter { received := [], faulty := false }).Write
        [[0x22, 0x2C], [], [0x0D, 0x0A, 0xB4]] = some (w1, none) ∧
      w1.output = (NewWriter { received := [], faulty := false }).output ++
        (joinFields [[0x22, 0x2C], [], [0x0D, 0x0A, 0xB4]] ++ [0x1E]) ∧
      w1.w.err = none ∧
      ((joinFields [[0x22, 0x2C], [], [0x0D, 0x0A, 0xB4]] ++ [0x1E]).length ≤
          (NewWriter { received := [], faulty := false }).w.Available →
        w1.w.wr = (NewWriter { received := [], faulty := false }).w.wr ∧
        w1.w.buf = (NewWriter { received := [], faulty := false }).w.buf ++
          (joinFields [[0x22, 0x2C], [], [0x0D, 0x0A, 0xB4]] ++ [0x1E])) :=
  ⟨by unfold ValidRecord ValidField; decide,
    Write_valid_record _ _ rfl rfl (by unfold ValidRecord ValidField; decide)⟩

/-- C2, as stated, fails: the record of one empty field, `{""}`, is valid and WriteAll
writes it as the single byte RecordSep (as `TestWrite` expects); ReadAll, inferring
the field count or unconstrained, reads that as a blank line and returns no record. -/
theorem roundtrip_empty_field_fails :
    ValidRecord [[]] ∧
    writeAllToBuffer [[[]]] = some ([0x1E], none) ∧
    (NewReader [0x1E]).ReadAll = some ([], none) ∧
    Reader.ReadAll { NewReader [0x1E] with FieldsPerRecord := -1 } = some ([], none) ∧
    ¬ (∃ bytes, writeAllToBuffer [[[]]] = some (bytes, none) ∧
      (NewReader bytes).ReadAll = some ([[[]]], none)) := by
  refine ⟨by unfold ValidRecord ValidField; decide, by decide, by decide, by decide, ?_⟩
  rintro ⟨bytes, hw, hr⟩
  have hb : writeAllToBuffer [[[]]] = some ([0x1E], none) := by decide
  rw [hb] at hw
  have : bytes = [0x1E] := by simpa using hw.symm
  rw [this] at hr
  exact absurd hr (by decide)

/-- C2, amended: for a record of at least one field, other than the record `{""}` of one
empty field, whose fields are free of GroupSep, RecordSep and UnitSep and whose first
field does not begin with the Comment byte 0x10: WriteAll of it alone, over a new
Writer and an empty sink, succeeds, and ReadAll of the bytes written, without
trimming and with the field count unconstrained (-1), inferred (0) or set to the
record's own, returns that one record, byte for byte, and no error. -/
theorem roundtrip (record : List GoString) (fpr : Int) (reuse : Bool)
    (hfpr : fpr = -1 ∨ fpr = 0 ∨ fpr = record.length)
    (hvalid : ValidRecord record) (hne : record ≠ []) (hne1 : record ≠ [[]])
    (hcomment : ∀ field, record.head? = some field → field.head? ≠ some 0x10) :
    ∃ bytes, writeAllToBuffer [record] = some (bytes, none) ∧
      Reader.ReadAll { NewReader bytes with FieldsPerRecord := fpr, ReuseRecord := reuse } =
        some ([record], none) := by
  have hw := (WriteAll_valid_stream (NewWriter { received := [], faulty := false }) [record] rfl rfl
    (by simpa using hvalid)).2
  refine ⟨joinFields record ++ [0x1E], by simpa [encodeAll, encodeRecord] using hw, ?_⟩
  obtain ⟨fpr1, hread⟩ := Read_one_record record fpr reuse 0 hfpr hvalid hne hne1 hcomment
  have hfuel : (joinFields record ++ [0x1E]).length + 1 =
      ((joinFields record).length) + 1 + 1 := by simp
  unfold Reader.ReadAll
  simp only [NewReader, hfuel]
  rw [Reader.readAllFuel, hread]
  simp only [List.nil_append]
  rw [Reader.readAllFuel]
  simp [Reader.Read, Reader.readFuel]

/-- The witness of C2: the record `{"two\nline", "", "a,\"b\r"}`. -/
theorem roundtrip_witness :
    ((0 : Int) = -1 ∨ (0 : Int) = 0 ∨
      (0 : Int) = ([[0x74, 0x0A, 0x6C], [], [0x61, 0x2C, 0x22, 0x62, 0x0D]] : List GoString).length) ∧
    ValidRecord [[0x74, 0x0A, 0x6C], [], [0x61, 0x2C, 0x22, 0x62, 0x0D]] ∧
    ([[0x74, 0x0A, 0x6C], [], [0x61, 0x2C, 0x22, 0x62, 0x0D]] : List GoString) ≠ [] ∧
    ([[0x74, 0x0A, 0x6C], [], [0x61, 0x2C, 0x22, 0x62, 0x0D]] : List GoString) ≠ [[]] ∧
    ∃ bytes, writeAllToBuffer [[[0x74, 0x0A, 0x6C], [], [0x61, 0x2C, 0x22, 0x62, 0x0D]]] =
        some (bytes, none) ∧
      Reader.ReadAll { NewReader bytes with FieldsPerRecord := 0, ReuseRecord := false } =
        some ([[[0x74, 0x0A, 0x6C], [], [0x61, 0x2C, 0x22, 0x62, 0x0D]]], none) :=
  ⟨by decide, by unfold ValidRecord ValidField; decide, by decide, by decide,
    roundtrip _ 0 false (by decide) (by unfold ValidRecord ValidField; decide) (by decide)
      (by decide) (by
        intro field h
        have hf : field = [0x74, 0x0A, 0x6C] := by simpa using h.symm
        rw [hf]
        decide)⟩

/-- C3: validateField returns errInvalidField exactly for the fields with a byte equal
to GroupSep, RecordSep or UnitSep, and nil for every other field, the empty field
among them; the literal `"\035\036\037"` it tests is the three constants, written as
strings. -/
theorem validateField_iff (w : Writer) (field : GoString) :
    (w.validateField field = some GoError.errInvalidField ↔
      ∃ c ∈ field, c = byte (uint32 GroupSep) ∨ c = byte (uint32 RecordSep) ∨
        c = byte (uint32 UnitSep)) ∧
    (w.validateField field = none ↔
      ¬ ∃ c ∈ field, c = byte (uint32 GroupSep) ∨ c = byte (uint32 RecordSep) ∨
        c = byte (uint32 UnitSep)) ∧
    w.validateField [] = none ∧
    invalidChars = encodeRune GroupSep ++ encodeRune RecordSep ++ encodeRune UnitSep ∧
    byte (uint32 GroupSep) = 0x1D ∧ byte (uint32 RecordSep) = 0x1E ∧
    byte (uint32 UnitSep) = 0x1F := by
  have hG : byte (uint32 GroupSep) = 0x1D := by decide
  have hR : byte (uint32 RecordSep) = 0x1E := by decide
  have hU : byte (uint32 UnitSep) = 0x1F := by decide
  have hnone : w.validateField field = none ↔
      ¬ ∃ c ∈ field, c = (0x1D : Byte) ∨ c = 0x1E ∨ c = 0x1F := by
    rw [validateField_eq_none_iff]
    unfold ValidField
    constructor
    · rintro h ⟨c, hc, hcc⟩
      have := h c hc
      tauto
    · intro h c hc
      refine ⟨fun h1 => h ⟨c, hc, Or.inl h1⟩, fun h1 => h ⟨c, hc, Or.inr (Or.inl h1)⟩,
        fun h1 => h ⟨c, hc, Or.inr (Or.inr h1)⟩⟩
  rw [hG, hR, hU]
  refine ⟨?_, hnone, rfl, by decide, rfl, rfl, rfl⟩
  rcases validateField_cases w field with hv | hv
  · rw [hv]
    have := hnone.mp hv
    simp only [reduceCtorEq, false_iff]
    exact this
  · rw [hv]
    simp only [true_iff]
    by_contra hne
    have := hnone.mpr hne
    rw [hv] at this
    exact absurd this (by simp)

/-- C4: on a Writer that has met no fault, over a sink that does not fault, Write of a
record whose first invalid field has index `k` returns errInvalidField, and what it
has appended to the output stream is the fields before `k` joined by UnitSep,
followed by one further UnitSep when `k > 0`: neither the invalid field, nor a later
one, nor the RecordSep.  When these bytes fit in the buffer they are appended to the
buffer, where they stay, and the sink is not touched. -/
theorem Write_invalid_record (w : Writer) (record : List GoString) (k : Nat) (bad : GoString)
    (hsink : w.w.wr.faulty = false) (herr : w.w.err = none)
    (hk : record[k]? = some bad) (hbad : ¬ ValidField bad)
    (hbefore : ValidRecord (record.take k)) :
    ∃ w1, w.Write record = some (w1, some GoError.errInvalidField) ∧
      w1.output = w.output ++ (joinFields (record.take k) ++ if k > 0 then [0x1F] else []) ∧
      w1.w.err = none ∧
      ((joinFields (record.take k) ++ if k > 0 then [0x1F] else []).length ≤ w.w.Available →
        w1.w.wr = w.w.wr ∧
        w1.w.buf = w.w.buf ++ (joinFields (record.take k) ++ if k > 0 then [0x1F] else [])) := by
  obtain ⟨w1, hw, hx⟩ := Write_healthy_trace w record ⟨herr, hsink⟩
  have ht := writeTrace_at_index record k bad hk hbad hbefore
  rw [ht] at hw hx
  refine ⟨w1, hw, hx.2.2, hx.1.1, ?_⟩
  intro hfit
  have hf := Write_fit_trace w record herr (by rw [ht]; exact hfit)
  rw [ht, hw] at hf
  have : w1 = { w := w.w.buffer (emittedBefore record k) } := by
    simpa using hf
  rw [this]
  exact ⟨rfl, rfl⟩

/-- The witness of C4: the third field holds a RecordSep. -/
theorem Write_invalid_record_witness :
    ([[0x61], [], [0x62, 0x1E], [0x63]] : List GoString)[2]? = some [0x62, 0x1E] ∧
    ¬ ValidField [0x62, 0x1E] ∧
    ValidRecord (([[0x61], [], [0x62, 0x1E], [0x63]] : List GoString).take 2) ∧
    ∃ w1, (NewWriter { received := [], faulty := false }).Write
        [[0x61], [], [0x62, 0x1E], [0x63]] = some (w1, some GoError.errInvalidField) ∧
      w1.output = (NewWriter { received := [], faulty := false }).output ++
        (joinFields (([[0x61], [], [0x62, 0x1E], [0x63]] : List GoString).take 2) ++
          if 2 > 0 then [0x1F] else []) ∧
      w1.w.err = none ∧
      ((joinFields (([[0x61], [], [0x62, 0x1E], [0x63]] : List GoString).take 2) ++
          if 2 > 0 then [0x1F] else []).length ≤
          (NewWriter { received := [], faulty := false }).w.Available →
        w1.w.wr = (NewWriter { received := [], faulty := false }).w.wr ∧
        w1.w.buf = (NewWriter { received := [], faulty := false }).w.buf ++
          (joinFields (([[0x61], [], [0x62, 0x1E], [0x63]] : List GoString).take 2) ++
            if 2 > 0 then [0x1F] else [])) :=
  ⟨rfl, by unfold ValidField; decide, by unfold ValidRecord ValidField; decide,
    Write_invalid_record _ _ 2 [0x62, 0x1E] rfl rfl rfl (by unfold ValidField; decide)
      (by unfold ValidRecord ValidField; decide)⟩

/-- C5: on a Writer that has met no fault, over a sink that does not fault, WriteAll of
records whose fields are all valid (the empty sequence among them) returns no error;
the sink then holds what was in the output stream before, followed by the records'
encodings in order, and nothing is left in the buffer.  Over a new Writer and an
empty sink, as in `TestWrite`, the sink holds exactly the encodings. -/
theorem WriteAll_valid (w : Writer) (records : List (List GoString))
    (hsink : w.w.wr.faulty = false) (herr : w.w.err = none)
    (hvalid : ∀ record ∈ records, ValidRecord record) :
    (∃ w1, w.WriteAll records = some (w1, none) ∧
      w1.w.wr.received = w.w.wr.received ++ w.w.buf ++ encodeAll records ∧
      w1.w.buf = [] ∧ w1.w.err = none) ∧
    writeAllToBuffer records = some (encodeAll records, none) :=
  WriteAll_valid_stream w records hsink herr hvalid

/-- The witness of C5: the two records of `TestWrite`, `{"abc"}` and `{"def"}`. -/
theorem WriteAll_valid_witness :
    (∀ record ∈ ([[[0x61, 0x62, 0x63]], [[0x64, 0x65, 0x66]]] : List (List GoString)),
      ValidRecord record) ∧
    ((∃ w1, (NewWriter { received := [], faulty := false }).WriteAll
        [[[0x61, 0x62, 0x63]], [[0x64, 0x65, 0x66]]] = some (w1, none) ∧
      w1.w.wr.received = (NewWriter { received := [], faulty := false }).w.wr.received ++
        (NewWriter { received := [], faulty := false }).w.buf ++
        encodeAll [[[0x61, 0x62, 0x63]], [[0x64, 0x65, 0x66]]] ∧
      w1.w.buf = [] ∧ w1.w.err = none) ∧
    writeAllToBuffer [[[0x61, 0x62, 0x63]], [[0x64, 0x65, 0x66]]] =
      some (encodeAll [[[0x61, 0x62, 0x63]], [[0x64, 0x65, 0x66]]], none)) :=
  ⟨by unfold ValidRecord ValidField; decide,
    WriteAll_valid _ _ rfl rfl (by unfold ValidRecord ValidField; decide)⟩

/-- C6: on a Writer that has met no fault, WriteAll of records of which `bad` is the
first with an invalid field (its first invalid field has index `k`) returns
errInvalidField, whatever records follow `bad`: none of them is written.  Over a sink
that does not fault, the output stream has grown by the encodings of the records
before `bad` and by what Write emits of `bad`.  While these bytes fit in the buffer,
whatever the sink, they are all in the buffer and the sink is as it was: nothing was
flushed. -/
theorem WriteAll_invalid (w : Writer) (pre post : List (List GoString)) (bad : List GoString)
    (k : Nat) (field : GoString) (herr : w.w.err = none)
    (hpre : ∀ record ∈ pre, ValidRecord record)
    (hk : bad[k]? = some field) (hfield : ¬ ValidField field)
    (hbefore : ValidRecord (bad.take k))
    (hsink : w.w.wr.faulty = false ∨
      (encodeAll pre ++ (joinFields (bad.take k) ++ if k > 0 then [0x1F] else [])).length
        ≤ w.w.Available) :
    ∃ w1, w.WriteAll (pre ++ bad :: post) = some (w1, some GoError.errInvalidField) ∧
      w.WriteAll (pre ++ [bad]) = some (w1, some GoError.errInvalidField) ∧
      (w.w.wr.faulty = false →
        w1.output = w.output ++
          (encodeAll pre ++ (joinFields (bad.take k) ++ if k > 0 then [0x1F] else []))) ∧
      ((encodeAll pre ++ (joinFields (bad.take k) ++ if k > 0 then [0x1F] else [])).length
          ≤ w.w.Available →
        w1.w.wr = w.w.wr ∧
        w1.w.buf = w.w.buf ++
          (encodeAll pre ++ (joinFields (bad.take k) ++ if k > 0 then [0x1F] else []))) := by
  have htb := writeTrace_at_index bad k field hk hfield hbefore
  have hne : (writeTrace bad).2 ≠ none := by rw [htb]; simp
  have ht : ∀ post, writeAllTrace (pre ++ bad :: post) =
      (encodeAll pre ++ emittedBefore bad k, some GoError.errInvalidField) := by
    intro post
    rw [writeAllTrace_invalid pre post bad hpre hne, htb]
  have hfitcase : (encodeAll pre ++ emittedBefore bad k).length ≤ w.w.Available →
      ∀ post, w.WriteAll (pre ++ bad :: post) =
        some ({ w := w.w.buffer (encodeAll pre ++ emittedBefore bad k) },
          some GoError.errInvalidField) := by
    intro hfit post
    have := WriteAll_fit_trace (pre ++ bad :: post) w herr (by rw [ht]; simp)
      (by rw [ht]; exact hfit)
    rw [ht] at this
    exact this
  have hnv : ¬ ValidRecord bad := by
    intro hv
    have := writeTrace_valid bad hv
    rw [htb] at this
    simp at this
  have hstop := WriteAll_stops pre post bad w hnv
  by_cases hfit : (encodeAll pre ++ emittedBefore bad k).length ≤ w.w.Available
  · refine ⟨{ w := w.w.buffer (encodeAll pre ++ emittedBefore bad k) }, hfitcase hfit post,
      by rw [← hstop]; exact hfitcase hfit post, ?_, fun _ => ⟨rfl, rfl⟩⟩
    intro _
    simp [Writer.output, BufWriter.output, BufWriter.buffer, emittedBefore]
  · have hs : w.w.wr.faulty = false := by
      rcases hsink with hs | hs
      · exact hs
      · exact absurd hs hfit
    obtain ⟨w1, hw, hx, _⟩ := WriteAll_healthy_trace (pre ++ bad :: post) w ⟨herr, hs⟩
    rw [ht] at hw hx
    exact ⟨w1, hw, by rw [← hstop]; exact hw, fun _ => hx.2.2, fun h => absurd h hfit⟩

/-- The witness of C6: the record `{"fo\036o"}` of `TestWrite`, after a valid record and
before another. -/
theorem WriteAll_invalid_witness :
    (NewWriter { received := [], faulty := true }).w.err = none ∧
    (∀ record ∈ ([[[0x61], []]] : List (List GoString)), ValidRecord record) ∧
    ([[0x66, 0x6F, 0x1E, 0x6F]] : List GoString)[0]? = some [0x66, 0x6F, 0x1E, 0x6F] ∧
    ¬ ValidField [0x66, 0x6F, 0x1E, 0x6F] ∧
    ValidRecord (([[0x66, 0x6F, 0x1E, 0x6F]] : List GoString).take 0) ∧
    ∃ w1, (NewWriter { received := [], faulty := true }).WriteAll
        ([[[0x61], []]] ++ [[0x66, 0x6F, 0x1E, 0x6F]] :: [[[0x62]]]) =
          some (w1, some GoError.errInvalidField) ∧
      (NewWriter { received := [], faulty := true }).WriteAll
        ([[[0x61], []]] ++ [[[0x66, 0x6F, 0x1E, 0x6F]]]) =
          some (w1, some GoError.errInvalidField) ∧
      ((NewWriter { received := [], faulty := true }).w.wr.faulty = false →
        w1.output = (NewWriter { received := [], faulty := true }).output ++
          (encodeAll [[[0x61], []]] ++
            (joinFields (([[0x66, 0x6F, 0x1E, 0x6F]] : List GoString).take 0) ++
              if 0 > 0 then [0x1F] else []))) ∧
      ((encodeAll [[[0x61], []]] ++
          (joinFields (([[0x66, 0x6F, 0x1E, 0x6F]] : List GoString).take 0) ++
            if 0 > 0 then [0x1F] else [])).length
          ≤ (NewWriter { received := [], faulty := true }).w.Available →
        w1.w.wr = (NewWriter { received := [], faulty := true }).w.wr ∧
        w1.w.buf = (NewWriter { received := [], faulty := true }).w.buf ++
          (encodeAll [[[0x61], []]] ++
            (joinFields (([[0x66, 0x6F, 0x1E, 0x6F]] : List GoString).take 0) ++
              if 0 > 0 then [0x1F] else []))) :=
  ⟨rfl, by unfold ValidRecord ValidField; decide, rfl, by unfold ValidField; decide,
    by unfold ValidRecord ValidField; decide,
    WriteAll_invalid _ _ _ _ 0 [0x66, 0x6F, 0x1E, 0x6F] rfl
      (by unfold ValidRecord ValidField; decide) rfl (by unfold ValidField; decide)
      (by unfold ValidRecord ValidField; decide) (Or.inr (by decide))⟩

/-- C7, as stated, fails: Write accepts the record whose one field is the Comment
byte 0x10 followed by `a`, although that field holds one of the four reserved
delimiters. -/
theorem Write_accepts_Comment :
    ¬ (∀ w1, (NewWriter { received := [], faulty := false }).Write [[0x10, 0x61]] =
        some (w1, none) →
      ∀ field ∈ ([[0x10, 0x61]] : List GoString), ∀ c ∈ field,
        c ≠ byte (uint32 Comment) ∧ c ≠ byte (uint32 GroupSep) ∧
        c ≠ byte (uint32 RecordSep) ∧ c ≠ byte (uint32 UnitSep)) := by
  intro h
  have hw : (NewWriter { received := [], faulty := false }).Write [[0x10, 0x61]] =
      some (Writer.mk (BufWriter.buffer (bufioNewWriter { received := [], faulty := false })
        [0x10, 0x61, 0x1E]), none) := by decide
  have := h _ hw [0x10, 0x61] (by simp) 0x10 (by simp)
  exact this.1 (by decide)

/-- C7, amended: a record that Write accepts, on any Writer over any sink, has no field
with a GroupSep, RecordSep or UnitSep byte (the Comment byte is not looked for). -/
theorem Write_accepted_no_separator (w w1 : Writer) (record : List GoString)
    (h : w.Write record = some (w1, none)) :
    ∀ field ∈ record, ∀ c ∈ field,
      c ≠ byte (uint32 GroupSep) ∧ c ≠ byte (uint32 RecordSep) ∧ c ≠ byte (uint32 UnitSep) := by
  have hG : byte (uint32 GroupSep) = 0x1D := by decide
  have hR : byte (uint32 RecordSep) = 0x1E := by decide
  have hU : byte (uint32 UnitSep) = 0x1F := by decide
  rw [hG, hR, hU]
  exact Write_accepted w w1 record h

/-- The witness of C7: the record `{"abc", "def"}` of `TestWrite` is accepted. -/
theorem Write_accepted_no_separator_witness :
    (NewWriter { received := [], faulty := false }).Write [[0x61, 0x62, 0x63], [0x64, 0x65, 0x66]] =
      some (Writer.mk (BufWriter.buffer (bufioNewWriter { received := [], faulty := false })
        [0x61, 0x62, 0x63, 0x1F, 0x64, 0x65, 0x66, 0x1E]), none) ∧
    ∀ field ∈ ([[0x61, 0x62, 0x63], [0x64, 0x65, 0x66]] : List GoString), ∀ c ∈ field,
      c ≠ byte (uint32 GroupSep) ∧ c ≠ byte (uint32 RecordSep) ∧ c ≠ byte (uint32 UnitSep) :=
  ⟨by decide, Write_accepted_no_separator (NewWriter { received := [], faulty := false })
    (Writer.mk (BufWriter.buffer (bufioNewWriter { received := [], faulty := false })
      [0x61, 0x62, 0x63, 0x1F, 0x64, 0x65, 0x66, 0x1E]))
    [[0x61, 0x62, 0x63], [0x64, 0x65, 0x66]] (by decide)⟩

/-- C8, on the code: over a new Writer and a sink that does not fault, Write of the
record `{"fo\036o"}` of `TestWrite` returns errInvalidField and leaves the Writer as
it was, and Error then returns nil. -/
theorem Error_nil_after_invalid_Write :
    (NewWriter { received := [], faulty := false }).Write [[0x66, 0x6F, 0x1E, 0x6F]] =
      some (NewWriter { received := [], faulty := false }, some GoError.errInvalidField) ∧
    (NewWriter { received := [], faulty := false }).Error =
      some (NewWriter { received := [], faulty := false }, none) := by
  decide

/-- C9, on the code: over a sink whose every write faults (`errorWriter` of
`TestError`), Write of the record `{"\036"}` returns errInvalidField before a byte is
buffered, Flush then has nothing to hand to the sink, and Error returns nil, where the
doc comment of Error promises any error of a previous Write or Flush.  The defect is
the one met for C8: Write returns the validation error without recording it. -/
theorem Error_nil_over_faulting_sink :
    (NewWriter { received := [], faulty := true }).Write [[0x1E]] =
      some (NewWriter { received := [], faulty := true }, some GoError.errInvalidField) ∧
    (NewWriter { received := [], faulty := true }).Flush =
      NewWriter { received := [], faulty := true } ∧
    (NewWriter { received := [], faulty := true }).Error =
      some (NewWriter { received := [], faulty := true }, none) := by
  decide

/-- Error after a flush, when Write has buffered something: take a Writer that has met
no fault and a record that is empty or whose first field is valid, so that Write
buffers at least one byte.  Over a sink that never faults, after Write of the record,
if valid, and Flush, Error returns nil and the sink holds the output stream of before
followed by the record's encoding.  Over a sink whose every write faults, after Write
and Flush, Error returns an error, and in every session that follows each Write,
WriteAll and Error returns an error and the Writer, its sink with it, stays as it
is. -/
theorem Error_after_Flush (w : Writer) (record : List GoString) (herr : w.w.err = none)
    (hsize : 0 < w.w.size)
    (hfirst : ∀ field, record.head? = some field → ValidField field) :
    (w.w.wr.faulty = false → ValidRecord record →
      ∃ w1, w.Write record = some (w1, none) ∧
        w1.Flush.Error = some (w1.Flush, none) ∧
        w1.Flush.w.wr.received = w.output ++ (joinFields record ++ [0x1E]) ∧
        w1.Flush.w.buf = []) ∧
    (w.w.wr.faulty = true →
      ∃ w1 e, w.Write record = some (w1, e) ∧
        (∃ e1, w1.Flush.Error = some (w1.Flush, some e1)) ∧
        w1.Flush.w.wr = w.w.wr ∧
        ∀ ops, ∃ results, w1.Flush.session ops = some (w1.Flush, results) ∧
          List.Forall₂ (fun op result => op = Op.flush ∨ result ≠ none) ops results) := by
  constructor
  · intro hsink hvalid
    obtain ⟨w1, hw, hx⟩ := Write_healthy_trace w record ⟨herr, hsink⟩
    rw [writeTrace_valid record hvalid] at hw hx
    obtain ⟨_, h1, _, hb, hr⟩ := Flush_healthy w1.w hx.1
    refine ⟨w1, hw, ?_, ?_, hb⟩
    · rw [Error_eq]
      simp only [Writer.Flush, h1.1]
    · have ho := hx.2.2
      simp only [BufWriter.output] at ho
      simp only [Writer.Flush, hr, ho, Writer.output, BufWriter.output, encodeRecord]
  · intro hsink
    obtain ⟨w1, e, hw, hwr, _, hc⟩ := Write_faulty_trace w record herr hsink hsize
    have hfl : w1.Flush.w.err ≠ none ∧ w1.Flush.w.wr = w.w.wr := by
      rcases hc with h1 | ⟨h1, h2⟩
      · rw [Flush_sticky w1 h1]
        exact ⟨h1, hwr⟩
      · have hne : w1.w.buf ≠ [] := by
          rw [h2]
          intro h
          exact writeTrace_ne_nil record hfirst (List.append_eq_nil.mp h).2
        simp only [Writer.Flush, Flush_faulty w1.w h1 (by rw [hwr]; exact hsink) hne]
        exact ⟨by simp, hwr⟩
    obtain ⟨e1, he1⟩ := Option.ne_none_iff_exists'.mp hfl.1
    refine ⟨w1, e, hw, ⟨e1, ?_⟩, hfl.2, fun ops => session_sticky ops _ hfl.1⟩
    rw [Error_eq, he1]

/-- The record `{"abc"}` of `TestError`, over `errorWriter`: Error after Write and
Flush returns an error. -/
theorem Error_after_Flush_TestError :
    (NewWriter { received := [], faulty := true }).w.err = none ∧
    0 < (NewWriter { received := [], faulty := true }).w.size ∧
    (∀ field, ([[0x61, 0x62, 0x63]] : List GoString).head? = some field → ValidField field) ∧
    ((NewWriter { received := [], faulty := true }).w.wr.faulty = false →
      ValidRecord [[0x61, 0x62, 0x63]] →
      ∃ w1, (NewWriter { received := [], faulty := true }).Write [[0x61, 0x62, 0x63]] =
          some (w1, none) ∧
        w1.Flush.Error = some (w1.Flush, none) ∧
        w1.Flush.w.wr.received = (NewWriter { received := [], faulty := true }).output ++
          (joinFields [[0x61, 0x62, 0x63]] ++ [0x1E]) ∧
        w1.Flush.w.buf = []) ∧
    ((NewWriter { received := [], faulty := true }).w.wr.faulty = true →
      ∃ w1 e, (NewWriter { received := [], faulty := true }).Write [[0x61, 0x62, 0x63]] =
          some (w1, e) ∧
        (∃ e1, w1.Flush.Error = some (w1.Flush, some e1)) ∧
        w1.Flush.w.wr = (NewWriter { received := [], faulty := true }).w.wr ∧
        ∀ ops, ∃ results, w1.Flush.session ops = some (w1.Flush, results) ∧
          List.Forall₂ (fun op result => op = Op.flush ∨ result ≠ none) ops results) :=
  ⟨rfl, by decide, by
      intro field h
      have hf : field = [0x61, 0x62, 0x63] := by simpa using h.symm
      rw [hf]
      unfold ValidField
      decide,
    Error_after_Flush _ _ rfl (by decide) (by
      intro field h
      have hf : field = [0x61, 0x62, 0x63] := by simpa using h.symm
      rw [hf]
      unfold ValidField
      decide)⟩

/-- C10: the four delimiters are the code points 0x10, 0x1D, 0x1E and 0x1F, pairwise
distinct; each is below `utf8.RuneSelf`, its UTF-8 encoding is the one byte of its
value, and WriteRune of it, on a writer that has met no fault over a sink that does
not fault, writes exactly that one byte. -/
theorem delimiters_single_byte (b : BufWriter) (r : Rune)
    (hr : r ∈ [Comment, GroupSep, RecordSep, UnitSep])
    (herr : b.err = none) (hsink : b.wr.faulty = false) :
    (Comment = 0x10 ∧ GroupSep = 0x1D ∧ RecordSep = 0x1E ∧ UnitSep = 0x1F) ∧
    [Comment, GroupSep, RecordSep, UnitSep].Pairwise (fun x y => x ≠ y) ∧
    uint32 r < 0x80 ∧ ((byte (uint32 r)).toNat : Int) = r ∧
    encodeRune r = [byte (uint32 r)] ∧
    ∃ b1, b.WriteRune r = some (b1, 1, none) ∧ b1.output = b.output ++ [byte (uint32 r)] := by
  have hlt : uint32 r < RuneSelf ∧ ((byte (uint32 r)).toNat : Int) = r ∧
      encodeRune r = [byte (uint32 r)] := by
    simp only [List.mem_cons, List.mem_singleton, List.not_mem_nil, or_false] at hr
    rcases hr with h | h | h | h <;> subst h <;> decide
  refine ⟨by decide, by decide, hlt.1, hlt.2.1, hlt.2.2, ?_⟩
  obtain ⟨he, hx⟩ := WriteByte_healthy b (byte (uint32 r)) ⟨herr, hsink⟩
  refine ⟨(b.WriteByte (byte (uint32 r))).1, ?_, hx.2.2⟩
  rw [WriteRune_ascii b r hlt.1]
  simp [he]

/-- The witness of C10: the RecordSep, on a new writer. -/
theorem delimiters_single_byte_witness :
    RecordSep ∈ [Comment, GroupSep, RecordSep, UnitSep] ∧
    ((Comment = 0x10 ∧ GroupSep = 0x1D ∧ RecordSep = 0x1E ∧ UnitSep = 0x1F) ∧
    [Comment, GroupSep, RecordSep, UnitSep].Pairwise (fun x y => x ≠ y) ∧
    uint32 RecordSep < 0x80 ∧ ((byte (uint32 RecordSep)).toNat : Int) = RecordSep ∧
    encodeRune RecordSep = [byte (uint32 RecordSep)] ∧
    ∃ b1, (bufioNewWriter { received := [], faulty := false }).WriteRune RecordSep =
        some (b1, 1, none) ∧
      b1.output = (bufioNewWriter { received := [], faulty := false }).output ++
        [byte (uint32 RecordSep)]) :=
  ⟨by decide, delimiters_single_byte _ RecordSep (by decide) rfl rfl⟩

/-- C11: with the field count unconstrained (-1) and trimming off, ReadAll of any
stream succeeds and returns the reference parse: the stream split on RecordSep, the
zero-length pieces and the pieces whose first byte is Comment left out, each other
piece split on UnitSep, in order.  So CR and LF end neither a field nor a record
(the tests `BareCR` and `MultiLine`), and a last piece without RecordSep is a record
(the test `NoEOLTest`). -/
theorem ReadAll_reference_parse (input : List Byte) (reuse : Bool) :
    Reader.ReadAll (Reader.mk (-1) false reuse input 0) = some (referenceParse input, none) ∧
    referenceParse [0x61, 0x1F, 0x62, 0x0D, 0x63, 0x1F, 0x64, 0x1E] =
      [[[0x61], [0x62, 0x0D, 0x63], [0x64]]] ∧
    referenceParse [0x74, 0x0A, 0x6C, 0x1F, 0x6F, 0x1F, 0x68, 0x0A, 0x0A, 0x66, 0x1E] =
      [[[0x74, 0x0A, 0x6C], [0x6F], [0x68, 0x0A, 0x0A, 0x66]]] ∧
    referenceParse [0x61, 0x1F, 0x62, 0x1F, 0x63] = [[[0x61], [0x62], [0x63]]] := by
  refine ⟨?_, by decide, by decide, by decide⟩
  rw [referenceParse_eq_candidates]
  exact ReadAll_ok (Reader.mk (-1) false reuse input 0)
    (countsOk_neg (-1) _ (by decide))

/-- C12: let ReadAll, on a new decoder with expected field count `fpr`, return the
records `records` and the error `err`.  Without an error the records are the
candidate records of the stream (the fields of its lines, comment and blank lines
left out), with `fpr > 0` each of them has `fpr` fields, and with `fpr = 0` each has
as many fields as the first.  With `fpr = -1` there is no error.  An error is a
ParseError of kind ErrFieldCount, comes with no record, and arises at the first
candidate record `bad` that violates the expectation: those before it conform; on a
stream without embedded newlines, blank lines or comment lines, StartLine and Line
are both the 1-based index of `bad`. -/
theorem field_count_enforced (fpr : Int) (trim reuse : Bool) (input : List Byte)
    (records : List (List GoString)) (err : Option ParseError)
    (h : Reader.ReadAll (Reader.mk fpr trim reuse input 0) = some (records, err)) :
    (err = none → records = candidates trim input ∧
      (0 < fpr → ∀ record ∈ records, (record.length : Int) = fpr) ∧
      (fpr = 0 → ∀ first rest, records = first :: rest →
        ∀ record ∈ rest, record.length = first.length)) ∧
    (fpr = -1 → err = none) ∧
    (∀ e, err = some e → records = [] ∧ e.Err = ParseErrorKind.ErrFieldCount ∧ 0 ≤ fpr ∧
      ∃ good bad post, candidates trim input = good ++ bad :: post ∧
        (0 < fpr → (∀ record ∈ good, (record.length : Int) = fpr) ∧ (bad.length : Int) ≠ fpr) ∧
        (fpr = 0 → ∃ first rest, good = first :: rest ∧
          (∀ record ∈ rest, record.length = first.length) ∧ bad.length ≠ first.length) ∧
        (PlainInput input → e.StartLine = good.length + 1 ∧ e.Line = good.length + 1)) := by
  have hcases := ReadAll_cases _ records err h
  simp only at hcases
  refine ⟨?_, ?_, ?_⟩
  · intro hnone
    rcases hcases with ⟨_, hrec, hok⟩ | ⟨e, he, _⟩
    · refine ⟨hrec, ?_, ?_⟩
      · intro hpos
        rw [hrec]
        exact (countsOk_pos fpr _ hpos).mp hok
      · intro h0 first rest hfr
        rw [hrec] at hfr
        rw [h0, hfr] at hok
        have hf : first ≠ [] := by
          apply candidatesOf_ne_nil trim (linesOf input)
          show first ∈ candidates trim input
          rw [hfr]
          exact List.mem_cons_self _ _
        exact (countsOk_zero first rest hf).mp hok
    · rw [he] at hnone
      exact absurd hnone (by simp)
  · intro hneg
    rcases hcases with ⟨hnone, _⟩ | ⟨e, _, _, _, hbad⟩
    · exact hnone
    · rw [countsOk_neg fpr _ (by omega)] at hbad
      exact absurd hbad (by simp)
  · intro e he
    rcases hcases with ⟨hnone, _⟩ | ⟨e1, he1, hrec, _, hbad⟩
    · rw [hnone] at he
      exact absurd he (by simp)
    · obtain ⟨good, bad, post, hc, hg, hb⟩ := countsOk_first_violation _ fpr hbad
      have hfl := ReadAll_fault (Reader.mk fpr trim reuse input 0) hbad
      obtain ⟨e2, he2, hk2, _⟩ := hfl
      rw [h] at he2
      simp only [Option.some.injEq, Prod.mk.injEq] at he2
      have hee : e = e2 := by
        rw [he] at he2
        exact Option.some.inj he2.2
      refine ⟨hrec, hee ▸ hk2, countsOk_violation_nonneg good bad fpr hb,
        good, bad, post, hc, ?_, ?_, ?_⟩
      · intro hpos
        exact countsOk_violation_pos good bad fpr hpos hg hb
      · intro h0
        rw [h0] at hg hb
        apply countsOk_violation_zero good bad _ hg hb
        intro record hr
        apply candidatesOf_ne_nil trim (linesOf input)
        show record ∈ candidates trim input
        rw [hc]
        exact List.mem_append_left _ hr
      · intro hplain
        have := ReadAll_fault_line (Reader.mk fpr trim reuse input 0) good post bad hplain hc hg hb
        rw [h] at this
        simp only [Option.some.injEq, Prod.mk.injEq] at this
        rw [he] at this
        have he3 := Option.some.inj this.2
        rw [he3]
        simp

/-- The witness of C12: the test `BadFieldCount`, `"a\037b\037c\036d\037e\036"` with the
field count inferred: the second record has two fields instead of three. -/
theorem field_count_enforced_witness :
    Reader.ReadAll (Reader.mk 0 false false
        [0x61, 0x1F, 0x62, 0x1F, 0x63, 0x1E, 0x64, 0x1F, 0x65, 0x1E] 0) =
      some ([], some (ParseError.mk 2 2 ParseErrorKind.ErrFieldCount)) ∧
    PlainInput [0x61, 0x1F, 0x62, 0x1F, 0x63, 0x1E, 0x64, 0x1F, 0x65, 0x1E] ∧
    ((some (ParseError.mk 2 2 ParseErrorKind.ErrFieldCount) = none →
      ([] : List (List GoString)) = candidates false
          [0x61, 0x1F, 0x62, 0x1F, 0x63, 0x1E, 0x64, 0x1F, 0x65, 0x1E] ∧
      (0 < (0 : Int) → ∀ record ∈ ([] : List (List GoString)), (record.length : Int) = 0) ∧
      ((0 : Int) = 0 → ∀ first rest, ([] : List (List GoString)) = first :: rest →
        ∀ record ∈ rest, record.length = first.length)) ∧
    ((0 : Int) = -1 → some (ParseError.mk 2 2 ParseErrorKind.ErrFieldCount) = none) ∧
    (∀ e, some (ParseError.mk 2 2 ParseErrorKind.ErrFieldCount) = some e →
      ([] : List (List GoString)) = [] ∧ e.Err = ParseErrorKind.ErrFieldCount ∧ 0 ≤ (0 : Int) ∧
      ∃ good bad post, candidates false
          [0x61, 0x1F, 0x62, 0x1F, 0x63, 0x1E, 0x64, 0x1F, 0x65, 0x1E] = good ++ bad :: post ∧
        (0 < (0 : Int) →
          (∀ record ∈ good, (record.length : Int) = 0) ∧ (bad.length : Int) ≠ 0) ∧
        ((0 : Int) = 0 → ∃ first rest, good = first :: rest ∧
          (∀ record ∈ rest, record.length = first.length) ∧ bad.length ≠ first.length) ∧
        (PlainInput [0x61, 0x1F, 0x62, 0x1F, 0x63, 0x1E, 0x64, 0x1F, 0x65, 0x1E] →
          e.StartLine = good.length + 1 ∧ e.Line = good.length + 1))) :=
  ⟨by decide, by unfold PlainInput; decide,
    field_count_enforced 0 false false _ _ _ (by decide)⟩

/-- C13: for every stream and every field-count setting, ReadAll returns no record
without a field; a RecordSep at the very start or at the very end of the stream, or
next to another RecordSep, changes neither the records ReadAll returns nor whether it
fails: a zero-length line gives no record and neither sets nor violates the field
count.  The test `BlankLineFieldCount` is an instance. -/
theorem blank_lines_dropped (fpr : Int) (trim reuse : Bool) (input a b : List Byte) :
    (∀ records err, Reader.ReadAll (Reader.mk fpr trim reuse input 0) = some (records, err) →
      ∀ record ∈ records, record ≠ []) ∧
    (Reader.mk fpr trim reuse (0x1E :: input) 0).outcome =
      (Reader.mk fpr trim reuse input 0).outcome ∧
    (Reader.mk fpr trim reuse (input ++ [0x1E]) 0).outcome =
      (Reader.mk fpr trim reuse input 0).outcome ∧
    (Reader.mk fpr trim reuse (a ++ 0x1E :: 0x1E :: b) 0).outcome =
      (Reader.mk fpr trim reuse (a ++ 0x1E :: b) 0).outcome ∧
    (∀ records, Reader.ReadAll (Reader.mk fpr trim reuse (a ++ 0x1E :: b) 0) =
        some (records, none) →
      Reader.ReadAll (Reader.mk fpr trim reuse (a ++ 0x1E :: 0x1E :: b) 0) =
        some (records, none)) ∧
    Reader.ReadAll (Reader.mk 0 false false
        [0x61, 0x1F, 0x62, 0x1F, 0x63, 0x1E, 0x1E, 0x64, 0x1F, 0x65, 0x1F, 0x66, 0x1E, 0x1E] 0) =
      some ([[[0x61], [0x62], [0x63]], [[0x64], [0x65], [0x66]]], none) := by
  refine ⟨?_, ?_, ?_, ?_, ?_, by decide⟩
  · intro records err h record hr
    rcases ReadAll_cases _ records err h with ⟨_, hrec, _⟩ | ⟨_, _, hrec, _⟩
    · rw [hrec] at hr
      exact candidatesOf_ne_nil trim _ record hr
    · rw [hrec] at hr
      simp at hr
  · apply outcome_congr
    have := candidates_blank trim [] input
    simp only [List.nil_append] at this
    have h2 := candidates_line trim [] input (by simp)
    simp only [List.nil_append] at h2
    rw [h2, candidatesOf_skipped trim [] (by decide)]
    simp
  · exact outcome_congr _ _ _ _ _ _ _ _ (candidates_append_last trim input)
  · exact outcome_congr _ _ _ _ _ _ _ _ (candidates_blank trim a b)
  · intro records h
    rcases ReadAll_cases _ records none h with ⟨_, hrec, hok⟩ | ⟨e, he, _⟩
    · simp only at hrec hok
      have hc := candidates_blank trim a b
      have := ReadAll_ok (Reader.mk fpr trim reuse (a ++ 0x1E :: 0x1E :: b) 0)
        (by simp only; rw [hc]; exact hok)
      simp only at this
      rw [this, hc, hrec]
    · exact absurd he (by simp)

/-- C14: a line whose first byte is Comment (0x10), whatever follows in it, UnitSeps
among it, is dropped by the decoder.  Read, met with such a line, restarts on the next
line with the expected field count as it was, so the line neither sets the inferred
count nor is checked against a count; ReadAll of the stream is ReadAll of the stream
after the line; the comment line alone, with or without its RecordSep, gives no record
and no fault; a comment line after a RecordSep, or as the last line without RecordSep,
changes neither the records ReadAll returns nor whether it fails.  A line that is not
empty and starts with another byte is an ordinary record: Read returns its fields, the
spans between its UnitSeps (without their leading blanks when trimming is on), sets
the inferred count by it or checks it against the count, and ReadAll returns it as
the first record, followed by the records of the rest of the stream, or fails as the
rest of the stream does. -/
theorem comment_lines_dropped (fpr : Int) (trim reuse : Bool) (a comment b : List Byte)
    (n : Nat) (hc : comment.head? = some 0x10) (hs : ∀ c ∈ comment, c ≠ 0x1E) :
    Reader.Read (Reader.mk fpr trim reuse (comment ++ 0x1E :: b) n) =
      Reader.Read (Reader.mk fpr trim reuse b (n + countNewlines comment + 1)) ∧
    Reader.ReadAll (Reader.mk fpr trim reuse (comment ++ 0x1E :: b) n) =
      Reader.ReadAll (Reader.mk fpr trim reuse b (n + countNewlines comment + 1)) ∧
    Reader.ReadAll (Reader.mk fpr trim reuse (comment ++ [0x1E]) n) = some ([], none) ∧
    Reader.ReadAll (Reader.mk fpr trim reuse comment n) = some ([], none) ∧
    (∀ records,
      Reader.ReadAll (Reader.mk fpr trim reuse (a ++ 0x1E :: (comment ++ 0x1E :: b)) n) =
          some (records, none) ↔
        Reader.ReadAll (Reader.mk fpr trim reuse (a ++ 0x1E :: b) n) = some (records, none)) ∧
    ((∃ e, Reader.ReadAll (Reader.mk fpr trim reuse (a ++ 0x1E :: (comment ++ 0x1E :: b)) n) =
          some ([], some e)) ↔
      ∃ e, Reader.ReadAll (Reader.mk fpr trim reuse (a ++ 0x1E :: b) n) = some ([], some e)) ∧
    (∀ records,
      Reader.ReadAll (Reader.mk fpr trim reuse (a ++ 0x1E :: comment) n) =
          some (records, none) ↔
        Reader.ReadAll (Reader.mk fpr trim reuse (a ++ [0x1E]) n) = some (records, none)) ∧
    ((∃ e, Reader.ReadAll (Reader.mk fpr trim reuse (a ++ 0x1E :: comment) n) =
          some ([], some e)) ↔
      ∃ e, Reader.ReadAll (Reader.mk fpr trim reuse (a ++ [0x1E]) n) = some ([], some e)) ∧
    (∀ line : List Byte, ∀ fields : List GoString,
      line ≠ [] → line.head? ≠ some 0x10 → (∀ c ∈ line, c ≠ 0x1E) →
      fields = (if trim then (line.splitOn 0x1F).map trimLeadingSpace else line.splitOn 0x1F) →
      ((0 < fpr ∧ (fields.length : Int) ≠ fpr) →
        Reader.Read (Reader.mk fpr trim reuse (line ++ 0x1E :: b) n) =
          some (Reader.mk fpr trim reuse b (n + countNewlines line + 1),
            ReadResult.fault (ParseError.mk (n + 1) (n + 1 + countNewlines line)
              ParseErrorKind.ErrFieldCount)) ∧
        Reader.ReadAll (Reader.mk fpr trim reuse (line ++ 0x1E :: b) n) =
          some ([], some (ParseError.mk (n + 1) (n + 1 + countNewlines line)
            ParseErrorKind.ErrFieldCount))) ∧
      (¬ (0 < fpr ∧ (fields.length : Int) ≠ fpr) →
        Reader.Read (Reader.mk fpr trim reuse (line ++ 0x1E :: b) n) =
          some (Reader.mk (if fpr = 0 then (fields.length : Int) else fpr) trim reuse b
              (n + countNewlines line + 1),
            ReadResult.record fields) ∧
        (∀ records,
          Reader.ReadAll (Reader.mk (if fpr = 0 then (fields.length : Int) else fpr) trim reuse
              b (n + countNewlines line + 1)) = some (records, none) →
          Reader.ReadAll (Reader.mk fpr trim reuse (line ++ 0x1E :: b) n) =
            some (fields :: records, none)) ∧
        (∀ e,
          Reader.ReadAll (Reader.mk (if fpr = 0 then (fields.length : Int) else fpr) trim reuse
              b (n + countNewlines line + 1)) = some ([], some e) →
          Reader.ReadAll (Reader.mk fpr trim reuse (line ++ 0x1E :: b) n) =
            some ([], some e)))) := by
  obtain ⟨h1, _, h3⟩ := candidates_comment trim a comment b hc hs
  refine ⟨Read_skipped_line fpr trim reuse comment b n hc hs,
    ReadAll_skipped_line fpr trim reuse comment b n hc hs, ?_,
    ReadAll_skipped_last fpr trim reuse comment n hc hs,
    (ReadAll_congr fpr trim reuse _ _ n n h1).1, (ReadAll_congr fpr trim reuse _ _ n n h1).2,
    (ReadAll_congr fpr trim reuse _ _ n n h3).1, (ReadAll_congr fpr trim reuse _ _ n n h3).2,
    ?_⟩
  · rw [ReadAll_skipped_line fpr trim reuse comment [] n hc hs, ReadAll_nil]
  · intro line fields hne hhead hsep hf
    rw [← fieldsOf_eq_splitOn] at hf
    subst hf
    obtain ⟨k1, k2⟩ := ReadAll_kept_line fpr trim reuse line b n hne hhead hsep
    have hr := Read_kept_line fpr trim reuse line b n hne hhead hsep
    constructor
    · intro hv
      rw [hr, if_pos hv]
      exact ⟨rfl, k1 hv⟩
    · intro hv
      rw [hr, if_neg hv]
      exact ⟨rfl, k2 hv⟩

/-- The witness of C14: the tests `Comment` and `NoComment` of `TestRead`, a comment
line of two spans among records of three fields with the field count inferred, and
the comment line `"\0201\0372\0373"` of the test `Comment` after the line
`"d\037e\037f"` and before the record `"a\037b\037c"`, with the field count
inferred. -/
theorem comment_lines_dropped_witness :
    ([0x10, 0x31, 0x1F, 0x32, 0x1F, 0x33] : List Byte).head? = some 0x10 ∧
    (∀ c ∈ ([0x10, 0x31, 0x1F, 0x32, 0x1F, 0x33] : List Byte), c ≠ 0x1E) ∧
    Reader.ReadAll (Reader.mk (-1) false false
        [0x10, 0x31, 0x1F, 0x32, 0x1F, 0x33, 0x1E, 0x61, 0x1F, 0x62, 0x1F, 0x63, 0x1E,
          0x10, 0x63, 0x6F, 0x6D, 0x6D, 0x65, 0x6E, 0x74, 0x1E] 0) =
      some ([[[0x61], [0x62], [0x63]]], none) ∧
    Reader.ReadAll (Reader.mk (-1) false false
        [0x23, 0x31, 0x1F, 0x32, 0x1F, 0x33, 0x1E, 0x61, 0x1F, 0x62, 0x1F, 0x63, 0x1E] 0) =
      some ([[[0x23, 0x31], [0x32], [0x33]], [[0x61], [0x62], [0x63]]], none) ∧
    Reader.ReadAll (Reader.mk 0 false false
        [0x10, 0x31, 0x1F, 0x32, 0x1E, 0x61, 0x1F, 0x62, 0x1F, 0x63, 0x1E,
          0x10, 0x78, 0x1E, 0x64, 0x1F, 0x65, 0x1F, 0x66, 0x1E] 0) =
      some ([[[0x61], [0x62], [0x63]], [[0x64], [0x65], [0x66]]], none) ∧
    (Reader.Read (Reader.mk (0 : Int) false false ([0x10, 0x31, 0x1F, 0x32, 0x1F, 0x33] ++ 0x1E ::
        [0x61, 0x1F, 0x62, 0x1F, 0x63, 0x1E]) 0) =
        Reader.Read (Reader.mk (0 : Int) false false [0x61, 0x1F, 0x62, 0x1F, 0x63, 0x1E] (0 +
            countNewlines [0x10, 0x31, 0x1F, 0x32, 0x1F, 0x33] + 1)) ∧
      Reader.ReadAll (Reader.mk (0 : Int) false false ([0x10, 0x31, 0x1F, 0x32, 0x1F, 0x33] ++ 0x1E
          :: [0x61, 0x1F, 0x62, 0x1F, 0x63, 0x1E]) 0) =
        Reader.ReadAll (Reader.mk (0 : Int) false false [0x61, 0x1F, 0x62, 0x1F, 0x63, 0x1E] (0 +
            countNewlines [0x10, 0x31, 0x1F, 0x32, 0x1F, 0x33] + 1)) ∧
      Reader.ReadAll (Reader.mk (0 : Int) false false ([0x10, 0x31, 0x1F, 0x32, 0x1F, 0x33] ++
          [0x1E]) 0) = some ([], none) ∧
      Reader.ReadAll (Reader.mk (0 : Int) false false [0x10, 0x31, 0x1F, 0x32, 0x1F, 0x33] 0) =
          some ([], none) ∧
      (∀ records,
        Reader.ReadAll (Reader.mk (0 : Int) false false ([0x64, 0x1F, 0x65, 0x1F, 0x66] ++ 0x1E ::
            ([0x10, 0x31, 0x1F, 0x32, 0x1F, 0x33] ++ 0x1E :: [0x61, 0x1F, 0x62, 0x1F, 0x63, 0x1E]))
            0) =
            some (records, none) ↔
          Reader.ReadAll (Reader.mk (0 : Int) false false ([0x64, 0x1F, 0x65, 0x1F, 0x66] ++ 0x1E
              :: [0x61, 0x1F, 0x62, 0x1F, 0x63, 0x1E]) 0) = some (records, none)) ∧
      ((∃ e, Reader.ReadAll (Reader.mk (0 : Int) false false ([0x64, 0x1F, 0x65, 0x1F, 0x66] ++
          0x1E :: ([0x10, 0x31, 0x1F, 0x32, 0x1F, 0x33] ++ 0x1E :: [0x61, 0x1F, 0x62, 0x1F, 0x63,
          0x1E])) 0) =
            some ([], some e)) ↔
        ∃ e, Reader.ReadAll (Reader.mk (0 : Int) false false ([0x64, 0x1F, 0x65, 0x1F, 0x66] ++
            0x1E :: [0x61, 0x1F, 0x62, 0x1F, 0x63, 0x1E]) 0) = some ([], some e)) ∧
      (∀ records,
        Reader.ReadAll (Reader.mk (0 : Int) false false ([0x64, 0x1F, 0x65, 0x1F, 0x66] ++ 0x1E ::
            [0x10, 0x31, 0x1F, 0x32, 0x1F, 0x33]) 0) =
            some (records, none) ↔
          Reader.ReadAll (Reader.mk (0 : Int) false false ([0x64, 0x1F, 0x65, 0x1F, 0x66] ++
              [0x1E]) 0) = some (records, none)) ∧
      ((∃ e, Reader.ReadAll (Reader.mk (0 : Int) false false ([0x64, 0x1F, 0x65, 0x1F, 0x66] ++
          0x1E :: [0x10, 0x31, 0x1F, 0x32, 0x1F, 0x33]) 0) =
            some ([], some e)) ↔
        ∃ e, Reader.ReadAll (Reader.mk (0 : Int) false false ([0x64, 0x1F, 0x65, 0x1F, 0x66] ++
            [0x1E]) 0) = some ([], some e)) ∧
      (∀ line : List Byte, ∀ fields : List GoString,
        line ≠ [] → line.head? ≠ some 0x10 → (∀ c ∈ line, c ≠ 0x1E) →
        fields = (if false then (line.splitOn 0x1F).map trimLeadingSpace else line.splitOn 0x1F) →
        ((0 < (0 : Int) ∧ (fields.length : Int) ≠ (0 : Int)) →
          Reader.Read (Reader.mk (0 : Int) false false (line ++ 0x1E :: [0x61, 0x1F, 0x62, 0x1F,
              0x63, 0x1E]) 0) =
            some (Reader.mk (0 : Int) false false [0x61, 0x1F, 0x62, 0x1F, 0x63, 0x1E] (0 +
                countNewlines line + 1),
              ReadResult.fault (ParseError.mk (0 + 1) (0 + 1 + countNewlines line)
                ParseErrorKind.ErrFieldCount)) ∧
          Reader.ReadAll (Reader.mk (0 : Int) false false (line ++ 0x1E :: [0x61, 0x1F, 0x62, 0x1F,
              0x63, 0x1E]) 0) =
            some ([], some (ParseError.mk (0 + 1) (0 + 1 + countNewlines line)
              ParseErrorKind.ErrFieldCount))) ∧
        (¬ (0 < (0 : Int) ∧ (fields.length : Int) ≠ (0 : Int)) →
          Reader.Read (Reader.mk (0 : Int) false false (line ++ 0x1E :: [0x61, 0x1F, 0x62, 0x1F,
              0x63, 0x1E]) 0) =
            some (Reader.mk (if (0 : Int) = 0 then (fields.length : Int) else (0 : Int)) false
                false [0x61, 0x1F, 0x62, 0x1F, 0x63, 0x1E]
                (0 + countNewlines line + 1),
              ReadResult.record fields) ∧
          (∀ records,
            Reader.ReadAll (Reader.mk (if (0 : Int) = 0 then (fields.length : Int) else (0 : Int))
                false false
                [0x61, 0x1F, 0x62, 0x1F, 0x63, 0x1E] (0 + countNewlines line + 1)) = some (records,
                    none) →
            Reader.ReadAll (Reader.mk (0 : Int) false false (line ++ 0x1E :: [0x61, 0x1F, 0x62,
                0x1F, 0x63, 0x1E]) 0) =
              some (fields :: records, none)) ∧
          (∀ e,
            Reader.ReadAll (Reader.mk (if (0 : Int) = 0 then (fields.length : Int) else (0 : Int))
                false false
                [0x61, 0x1F, 0x62, 0x1F, 0x63, 0x1E] (0 + countNewlines line + 1)) = some ([], some
                    e) →
            Reader.ReadAll (Reader.mk (0 : Int) false false (line ++ 0x1E :: [0x61, 0x1F, 0x62,
                0x1F, 0x63, 0x1E]) 0) =
              some ([], some e))))) :=
  ⟨by decide, by decide, by decide, by decide, by decide,
    comment_lines_dropped 0 false false [0x64, 0x1F, 0x65, 0x1F, 0x66]
      [0x10, 0x31, 0x1F, 0x32, 0x1F, 0x33] [0x61, 0x1F, 0x62, 0x1F, 0x63, 0x1E] 0
      (by decide) (by decide)⟩

/-- C15: with trimming off, the fields ReadAll returns are the spans between UnitSeps,
byte for byte; with trimming on, ReadAll fails on the same streams and returns
otherwise the same records with every field replaced by its trimmed form, so with
as many fields; and the trimmed form of a field is the field without its leading
spaces and tabs: what is taken away in front is spaces and tabs only, what is left
does not start with one, and the rest, trailing spaces and all, is unchanged.  The
tests `TrimSpace` and `LeadingSpace` are instances. -/
theorem trim_leading_space (fpr : Int) (reuse : Bool) (input : List Byte) :
    (∀ raw, Reader.ReadAll (Reader.mk fpr false reuse input 0) = some (raw, none) →
      raw = referenceParse input ∧
      Reader.ReadAll (Reader.mk fpr true reuse input 0) =
        some (raw.map (List.map trimLeadingSpace), none)) ∧
    (∀ records, Reader.ReadAll (Reader.mk fpr true reuse input 0) = some (records, none) →
      records = (referenceParse input).map (List.map trimLeadingSpace) ∧
      Reader.ReadAll (Reader.mk fpr false reuse input 0) = some (referenceParse input, none)) ∧
    (∀ field : GoString, ∃ spaces, field = spaces ++ trimLeadingSpace field ∧
      (∀ c ∈ spaces, c = 0x20 ∨ c = 0x09) ∧
      ∀ c, (trimLeadingSpace field).head? = some c → c ≠ 0x20 ∧ c ≠ 0x09) ∧
    trimLeadingSpace [] = [] ∧
    trimLeadingSpace [0x20, 0x09, 0x61, 0x20, 0x62, 0x20] = [0x61, 0x20, 0x62, 0x20] ∧
    Reader.ReadAll (Reader.mk (-1) true false
        [0x20, 0x61, 0x1F, 0x20, 0x20, 0x62, 0x1F, 0x20, 0x20, 0x20, 0x63, 0x1E] 0) =
      some ([[[0x61], [0x62], [0x63]]], none) ∧
    Reader.ReadAll (Reader.mk (-1) false false
        [0x20, 0x61, 0x1F, 0x20, 0x20, 0x62, 0x1F, 0x20, 0x20, 0x20, 0x63, 0x1E] 0) =
      some ([[[0x20, 0x61], [0x20, 0x20, 0x62], [0x20, 0x20, 0x20, 0x63]]], none) := by
  refine ⟨?_, ?_, trimLeadingSpace_spec, by decide, by decide, by decide, by decide⟩
  · intro raw h
    rcases ReadAll_cases _ raw none h with ⟨_, hrec, hok⟩ | ⟨e, he, _⟩
    · simp only at hrec hok
      refine ⟨by rw [hrec, referenceParse_eq_candidates], ?_⟩
      have := ReadAll_ok (Reader.mk fpr true reuse input 0)
        (by simp only; rw [candidates_trim, countsOk_map]; exact hok)
      simp only at this
      rw [this, candidates_trim, hrec]
    · exact absurd he (by simp)
  · intro records h
    rcases ReadAll_cases _ records none h with ⟨_, hrec, hok⟩ | ⟨e, he, _⟩
    · simp only at hrec hok
      rw [candidates_trim, countsOk_map] at hok
      refine ⟨by rw [hrec, candidates_trim, referenceParse_eq_candidates], ?_⟩
      have := ReadAll_ok (Reader.mk fpr false reuse input 0) hok
      simp only at this
      rw [this, referenceParse_eq_candidates]
    · exact absurd he (by simp)

/-- C16: when ReadAll returns an error it returns no record with it, and when it
returns no error it returns the candidate records of the stream, all of them and in
order. -/
theorem ReadAll_fault_or_full (fpr : Int) (trim reuse : Bool) (input : List Byte) (n : Nat)
    (records : List (List GoString)) (err : Option ParseError)
    (h : Reader.ReadAll (Reader.mk fpr trim reuse input n) = some (records, err)) :
    (err ≠ none → records = []) ∧ (err = none → records = candidates trim input) := by
  rcases ReadAll_cases _ records err h with ⟨hnone, hrec, _⟩ | ⟨e, he, hrec, _⟩
  · exact ⟨fun hne => absurd hnone hne, fun _ => hrec⟩
  · exact ⟨fun _ => hrec, fun hnone => by rw [he] at hnone; exact absurd hnone (by simp)⟩

/-- The witness of C16: the test `BadFieldCount`: the first call of Read returns the
record `{"a", "b", "c"}`, the second one fails, and ReadAll returns the error and no
record. -/
theorem ReadAll_fault_or_full_witness :
    Reader.Read (Reader.mk 0 false false
        [0x61, 0x1F, 0x62, 0x1F, 0x63, 0x1E, 0x64, 0x1F, 0x65, 0x1E] 0) =
      some (Reader.mk 3 false false [0x64, 0x1F, 0x65, 0x1E] 1,
        ReadResult.record [[0x61], [0x62], [0x63]]) ∧
    Reader.ReadAll (Reader.mk 0 false false
        [0x61, 0x1F, 0x62, 0x1F, 0x63, 0x1E, 0x64, 0x1F, 0x65, 0x1E] 0) =
      some ([], some (ParseError.mk 2 2 ParseErrorKind.ErrFieldCount)) ∧
    ((some (ParseError.mk 2 2 ParseErrorKind.ErrFieldCount) ≠ none →
        ([] : List (List GoString)) = []) ∧
      (some (ParseError.mk 2 2 ParseErrorKind.ErrFieldCount) = none →
        ([] : List (List GoString)) = candidates false
          [0x61, 0x1F, 0x62, 0x1F, 0x63, 0x1E, 0x64, 0x1F, 0x65, 0x1E])) :=
  ⟨by decide, by decide, ReadAll_fault_or_full 0 false false _ 0 _ _ (by decide)⟩

/-- C17: two sequences of records, each record with at least one field and every field
free of GroupSep, RecordSep and UnitSep, that WriteAll writes as the same bytes are
the same sequence: the records are the lines of the bytes, each split on UnitSep. -/
theorem encoding_injective (A B : List (List GoString)) (bytes : List Byte)
    (eA eB : Option GoError)
    (hA : ∀ record ∈ A, record ≠ [] ∧ ValidRecord record)
    (hB : ∀ record ∈ B, record ≠ [] ∧ ValidRecord record)
    (hwA : writeAllToBuffer A = some (bytes, eA))
    (hwB : writeAllToBuffer B = some (bytes, eB)) :
    A = B ∧ A = (linesOf bytes).map (fun line => line.splitOn 0x1F) := by
  have h1 := (WriteAll_valid_stream (NewWriter { received := [], faulty := false }) A rfl rfl
    (fun r hr => (hA r hr).2)).2
  have h2 := (WriteAll_valid_stream (NewWriter { received := [], faulty := false }) B rfl rfl
    (fun r hr => (hB r hr).2)).2
  rw [h1] at hwA
  rw [h2] at hwB
  simp only [Option.some.injEq, Prod.mk.injEq] at hwA hwB
  have dA := decode_encodeAll A hA
  have dB := decode_encodeAll B hB
  rw [hwA.1] at dA
  rw [hwB.1] at dB
  exact ⟨dA.symm.trans dB, dA.symm⟩

/-- The witness of C17: the records `{"a", ""}` and `{""}`. -/
theorem encoding_injective_witness :
    (∀ record ∈ ([[[0x61], []], [[]]] : List (List GoString)), record ≠ [] ∧ ValidRecord record) ∧
    writeAllToBuffer [[[0x61], []], [[]]] = some ([0x61, 0x1F, 0x1E, 0x1E], none) ∧
    (([[[0x61], []], [[]]] : List (List GoString)) = [[[0x61], []], [[]]] ∧
      ([[[0x61], []], [[]]] : List (List GoString)) =
        (linesOf [0x61, 0x1F, 0x1E, 0x1E]).map (fun line => line.splitOn 0x1F)) :=
  ⟨by unfold ValidRecord ValidField; decide, by decide,
    encoding_injective _ _ [0x61, 0x1F, 0x1E, 0x1E] none none
      (by unfold ValidRecord ValidField; decide) (by unfold ValidRecord ValidField; decide)
      (by decide) (by decide)⟩

/-- C18: after any sequence of Write calls on a new Writer over an empty sink that
does not fault, whichever of them fail validation, the output stream (the sink
followed by the buffer) holds no GroupSep byte, and as many RecordSep bytes as there
were Write calls that returned no error. -/
theorem output_invariant (records : List (List GoString)) :
    ∃ w1 results,
      (NewWriter { received := [], faulty := false }).session (records.map Op.write) =
        some (w1, results) ∧
      results.length = records.length ∧
      (0x1D : Byte) ∉ w1.output ∧
      w1.output.count 0x1E = results.count none := by
  obtain ⟨w1, results, hs, hl, hg, hc⟩ := session_writes records
    (NewWriter { received := [], faulty := false }) ⟨rfl, rfl⟩
  refine ⟨w1, results, hs, hl, hg (by decide), ?_⟩
  rw [hc]
  have : (NewWriter { received := [], faulty := false }).output = [] := by decide
  rw [this]
  simp

/-- C19: on a Writer that has met no fault, over a sink that does not fault, Write of
the record without a field succeeds and appends the one byte RecordSep to the
output stream, and Write of the record `{""}` of one empty field does exactly the
same and leaves the same Writer: two different records that Write accepts have the
same encoding, a line of length zero. -/
theorem Write_no_field (w : Writer) (hsink : w.w.wr.faulty = false) (herr : w.w.err = none) :
    ∃ w1, w.Write [] = some (w1, none) ∧ w.Write [[]] = some (w1, none) ∧
      w1.output = w.output ++ [0x1E] ∧
      ([] : List GoString) ≠ [[]] ∧
      joinFields [] = [] ∧ joinFields [[]] = [] := by
  obtain ⟨w1, hw, hx⟩ := Write_healthy_trace w [] ⟨herr, hsink⟩
  have ht : writeTrace [] = ([0x1E], none) := by decide
  rw [ht] at hw hx
  exact ⟨w1, hw, by rw [← Write_nil_eq]; exact hw, hx.2.2, by simp, rfl, rfl⟩

/-- The witness of C19: a new Writer over an empty sink. -/
theorem Write_no_field_witness :
    (NewWriter { received := [], faulty := false }).w.wr.faulty = false ∧
    (NewWriter { received := [], faulty := false }).w.err = none ∧
    ∃ w1, (NewWriter { received := [], faulty := false }).Write [] = some (w1, none) ∧
      (NewWriter { received := [], faulty := false }).Write [[]] = some (w1, none) ∧
      w1.output = (NewWriter { received := [], faulty := false }).output ++ [0x1E] ∧
      ([] : List GoString) ≠ [[]] ∧
      joinFields [] = [] ∧ joinFields [[]] = [] :=
  ⟨rfl, rfl, Write_no_field _ rfl rfl⟩

end ccdv
